import Mathlib

/-!
# The gannoy node store (`file.go`)

A shallow embedding of the fixed-size record codec (`nodeToBuf`, the record
parsing part of `Find`, `bytesToFloat64s`) and of the store operations
(`create`, `Find`, `Update`, `UpdateParent`, `Delete`, `Iterate`).

Conventions of the embedding:

* Go `int` / `int64` values are `Int`; the 64-bit size arithmetic of `newFile`,
  `offset` and `nodeCount` is carried out without wrap-around. The conversions
  `int32(x)` and the 4-byte encodings wrap explicitly modulo `2^32`.
* A byte is `Fin 256`; a `float64` is its 64-bit pattern (`Fin (2^64)`), which is
  what `binary.Write` / `math.Float64frombits` move in and out of the record.
* A Go slice is a `List`; a nil slice and an empty slice are both `[]`.
* A run-time panic (index or slice bound out of range, `make` with a negative
  length, division by zero) is `none` in the pure functions and
  `Outcome.panicked` in the store operations.
* The backing file is the list of its bytes. `pread` / `pwrite` fail (`EINVAL`)
  on a negative offset; a `pwrite` past the end extends the file with zeros.
  Other I/O failures are not modelled. The `Locker` is a parameter.
-/

namespace Gannoy

/-! ## Bytes and fixed-width big-endian integers -/

abbrev Byte := Fin 256

/-- A `float64`, represented by its IEEE-754 bit pattern. -/
abbrev Float64 := Fin 18446744073709551616

/-- The low eight bits of a natural number. -/
def byte (n : Nat) : Byte := ⟨n % 256, Nat.mod_lt n (by decide)⟩

/-- Go conversion `int32(x)`: the two's-complement value of the low 32 bits. -/
def int32 (x : Int) : Int := (x + 2147483648) % 4294967296 - 2147483648

/-- Go conversion `uint32(y)`: the low 32 bits as an unsigned value. -/
def uint32 (y : Int) : Nat := (y % 4294967296).toNat

/-- Go `binary.BigEndian.PutUint32`. -/
def putUint32 (u : Nat) : List Byte :=
  [byte (u / 16777216), byte (u / 65536), byte (u / 256), byte u]

/-- Go `binary.BigEndian.PutUint64`. -/
def putUint64 (u : Nat) : List Byte :=
  [byte (u / 72057594037927936), byte (u / 281474976710656), byte (u / 1099511627776),
   byte (u / 4294967296), byte (u / 16777216), byte (u / 65536), byte (u / 256), byte u]

/-- Go `binary.BigEndian.Uint32(b)`: panics when `len(b) < 4`, else reads `b[0..3]`. -/
def beUint32 : List Byte → Option Nat
  | a :: b :: c :: d :: _ => some (a.val * 16777216 + b.val * 65536 + c.val * 256 + d.val)
  | _ => none

/-- Go `binary.BigEndian.Uint64(b)`: panics when `len(b) < 8`, else reads `b[0..7]`. -/
def beUint64 : List Byte → Option Nat
  | a :: b :: c :: d :: e :: f :: g :: h :: _ =>
      some (a.val * 72057594037927936 + b.val * 281474976710656 + c.val * 1099511627776 +
            d.val * 4294967296 + e.val * 16777216 + f.val * 65536 + g.val * 256 + h.val)
  | _ => none

/-- Go `math.Float64frombits`. -/
def float64frombits (u : Nat) : Float64 := Fin.ofNat u

/-- Go `binary.Write(buf, binary.BigEndian, x)` for a `bool`. -/
def writeBool (x : Bool) : List Byte := [if x then 1 else 0]

/-- Go `binary.Write(buf, binary.BigEndian, y)` for an `int32` value `y`. -/
def writeInt32 (y : Int) : List Byte := putUint32 (uint32 y)

/-- Go `binary.Write(buf, binary.BigEndian, ys)` for a `[]int32`. -/
def writeInt32s : List Int → List Byte
  | [] => []
  | y :: ys => writeInt32 y ++ writeInt32s ys

/-- Go `binary.Write(buf, binary.BigEndian, xs)` for a `[]float64`. -/
def writeFloat64s : List Float64 → List Byte
  | [] => []
  | x :: xs => putUint64 x.val ++ writeFloat64s xs

/-! ## Slices -/

/-- Go `make([]T, n)`: a zeroed slice, or a panic when `n` is negative. -/
def make {α : Type} (zero : α) (n : Int) : Option (List α) :=
  if 0 ≤ n then some (List.replicate n.toNat zero) else none

/-- The loop `for i, x := range src { dst[i] = x }`: panics as soon as an index
of `src` is out of range for `dst`. -/
def assignAll {α : Type} : List α → List α → Option (List α)
  | dst, [] => some dst
  | [], _ :: _ => none
  | _ :: dst, x :: src => (assignAll dst src).map (fun r => x :: r)

/-- The slice expression `b[lo:hi]` on a slice whose capacity is its length. -/
def slice (b : List Byte) (lo hi : Int) : Option (List Byte) :=
  if 0 ≤ lo ∧ lo ≤ hi ∧ hi ≤ b.length then
    some ((b.drop lo.toNat).take (hi - lo).toNat)
  else none

/-- The slice expression `b[lo:]`. -/
def sliceFrom (b : List Byte) (lo : Int) : Option (List Byte) :=
  if 0 ≤ lo ∧ lo ≤ b.length then some (b.drop lo.toNat) else none

/-- The expression `int(int32(binary.BigEndian.Uint32(b[off : off+4])))`. -/
def readInt32 (b : List Byte) (off : Int) : Option Int :=
  (slice b off (off + 4)).bind fun s => (beUint32 s).map fun u => int32 u

/-- The loop `for i := 0; i < n; i++ { xs[i] = int(int32(Uint32(b[off+i*4 : off+i*4+4]))) }`. -/
def readInt32s (b : List Byte) : Int → Nat → Option (List Int)
  | _, 0 => some []
  | off, n + 1 =>
      (readInt32 b off).bind fun x => (readInt32s b (off + 4) n).map fun xs => x :: xs

/-- The loop of `bytesToFloat64s`, run `size` times. -/
def bytesToFloat64sLoop : Nat → List Byte → Option (List Float64)
  | 0, _ => some []
  | size + 1, bytes =>
      (slice bytes 0 8).bind fun s =>
      (beUint64 s).bind fun u =>
      (sliceFrom bytes 8).bind fun rest =>
      (bytesToFloat64sLoop size rest).map fun fs => float64frombits u :: fs

/-- The function `bytesToFloat64s`. -/
def bytesToFloat64s (bytes : List Byte) : Option (List Float64) :=
  bytesToFloat64sLoop (bytes.length / 8) bytes

/-! ## Nodes and the store -/

/-- Modelled from the spec: the `Node` type is declared outside `file.go`; its
fields are the ones `file.go` reads and writes (spec section 3). The `storage`
back pointer is left out. -/
structure Node where
  id : Int
  free : Bool
  nDescendants : Int
  key : Int
  parents : List Int
  children : List Int
  v : List Float64
  deriving DecidableEq, Repr

/-- The zero value `Node{}`. -/
def Node.zero : Node :=
  { id := 0, free := false, nDescendants := 0, key := 0, parents := [], children := [], v := [] }

/-- The `Locker` interface is declared outside `file.go`; each method reports
whether the acquisition at `(offset, length)` fails. -/
structure Locker where
  ReadLock : Int → Int → Bool
  WriteLock : Int → Int → Bool

/-- The store: the configuration and the bytes of the backing file. -/
structure File where
  tree : Int
  dim : Int
  K : Int
  data : List Byte
  locker : Locker

/-- Field `nodeSize`, as set by `newFile`. -/
def File.nodeSize (f : File) : Int := 1 + 4 + 4 + 4 * f.tree + 4 * 2 + 8 * f.dim

/-- Field `offsetOfV`, as set by `newFile`. -/
def File.offsetOfV (f : File) : Int := 1 + 4 + 4 + 4 * f.tree + 4 * 2

/-- Modelled from the spec: `Node.isBucket` is defined outside `file.go`; a
node is a bucket when `2 <= nDescendants <= K` (spec section 3, kind table). -/
def Node.isBucket (n : Node) (K : Int) : Bool :=
  decide (2 ≤ n.nDescendants ∧ n.nDescendants ≤ K)

/-- Lines 191-205 of `nodeToBuf`: the writes of `free`, `nDescendants`, `key` and
the parents, which come before the kind-dependent tail and cannot panic. -/
def recordHead (node : Node) : List Byte :=
  writeBool node.free ++ writeInt32 (int32 node.nDescendants) ++ writeInt32 (int32 node.key) ++
    writeInt32s (node.parents.map int32)

/-- The method `nodeToBuf`: the bytes written to `buf`, or `none` on a panic. -/
def File.nodeToBuf (f : File) (node : Node) : Option (List Byte) :=
  let head := recordHead node
  if node.isBucket f.K then
    (make (0 : Int) f.K).bind fun children =>
    (assignAll children (node.children.map int32)).bind fun children =>
    let remainingSize := (2 * 4 + 8 * f.dim) - (4 * f.K)
    (make (0 : Int) (remainingSize.tdiv 4)).bind fun padding =>
    some (head ++ writeInt32s children ++ writeInt32s padding)
  else
    (assignAll [0, 0] (node.children.map int32)).bind fun children =>
    (make (0 : Float64) f.dim).bind fun vec =>
    (assignAll vec node.v).bind fun vec =>
    some (head ++ writeInt32s children ++ writeFloat64s vec)

/-- The record parsing part of `Find` (lines 91-119) on the buffer `b`, starting
from the node `node` in which `Find` has set `id`. -/
def File.parseRecord (f : File) (node : Node) (b : List Byte) : Option Node :=
  (b[(0 : Nat)]? : Option Byte).bind fun b0 =>
  (readInt32 b 1).bind fun nDescendants =>
  (readInt32 b 5).bind fun key =>
  (make (0 : Int) f.tree).bind fun _ =>
  (readInt32s b 9 f.tree.toNat).bind fun parents =>
  let node := { node with free := decide (b0 ≠ 0), nDescendants := nDescendants,
                          key := key, parents := parents }
  if nDescendants = 1 then
    (sliceFrom b f.offsetOfV).bind fun tail =>
    (bytesToFloat64s tail).map fun v => { node with children := [0, 0], v := v }
  else if nDescendants ≤ f.K then
    (make (0 : Int) nDescendants).bind fun _ =>
    (readInt32s b (f.offsetOfV - 4 * 2) nDescendants.toNat).map fun children =>
      { node with children := children }
  else
    (readInt32s b (f.offsetOfV - 4 * 2) 2).bind fun children =>
    (sliceFrom b f.offsetOfV).bind fun tail =>
    (bytesToFloat64s tail).map fun v => { node with children := children, v := v }

/-! ## The backing file and the store operations -/

/-- What a call yields: a value with a nil error, a value with a non-nil
error, or a run-time panic. -/
inductive Outcome (α : Type) where
  | ok : α → Outcome α
  | error : α → Outcome α
  | panicked : Outcome α
  deriving DecidableEq, Repr

/-- Go `syscall.Pread(fd, b, off)`: fails on a negative offset; otherwise fills the
front of `b` with the bytes of the file from `off` on and leaves the rest. -/
def pread (data b : List Byte) (off : Int) : Option (List Byte) :=
  if off < 0 then none
  else
    let got := (data.drop off.toNat).take b.length
    some (got ++ b.drop got.length)

/-- Go `syscall.Pwrite(fd, buf, off)`: fails on a negative offset; otherwise puts
`buf` at `off`, extending the file (zero filled) when it ends before
`off + len(buf)`. An empty `buf` leaves the file as it is. -/
def pwrite (data buf : List Byte) (off : Int) : Option (List Byte) :=
  if off < 0 then none
  else if buf = [] then some data
  else
    some (data.take off.toNat ++ List.replicate (off.toNat - data.length) 0 ++ buf ++
          data.drop (off.toNat + buf.length))

/-- The method `offset`. The product is taken over the integers: it is the
64-bit product of the code for every id whose product fits 64 bits, as it does
for every record of a file. -/
def File.offset (f : File) (id : Int) : Int := id * f.nodeSize

/-- The method `size`: the length of the backing file. -/
def File.size (f : File) : Int := f.data.length

/-- The method `nodeCount`: `size / nodeSize` with Go's truncating division,
which panics on a zero divisor. -/
def File.nodeCount (f : File) : Option Int :=
  if f.nodeSize = 0 then none else some (f.size.tdiv f.nodeSize)

/-- The method `create`: the store after the call and the returned id. -/
def File.create (f : File) (n : Node) : File × Outcome Int :=
  match f.nodeToBuf n with
  | none => (f, .panicked)
  | some buf =>
    match f.nodeCount with
    | none => (f, .panicked)
    | some id => ({ f with data := f.data ++ buf }, .ok id)

/-- The calls of `create` the creator goroutine makes one after another: the
store after the last call and the ids returned in order, or `none` when a call
panics. -/
def File.createAll : File → List Node → Option (File × List Int)
  | f, [] => some (f, [])
  | f, n :: ns =>
    match f.create n with
    | (_, .panicked) => none
    | (g, .ok id) => (File.createAll g ns).map fun r => (r.1, id :: r.2)
    | (g, .error id) => (File.createAll g ns).map fun r => (r.1, id :: r.2)

/-- The method `Find`. -/
def File.Find (f : File) (id : Int) : Outcome Node :=
  let node := { Node.zero with id := id }
  let offset := f.offset id
  if f.locker.ReadLock offset f.nodeSize then .error node
  else
    match make (0 : Byte) f.nodeSize with
    | none => .panicked
    | some b =>
      match pread f.data b offset with
      | none => .error node
      | some b =>
        match f.parseRecord node b with
        | none => .panicked
        | some n => .ok n

/-- The method `Update`: the store after the call and the returned error. -/
def File.Update (f : File) (n : Node) : File × Outcome Unit :=
  match f.nodeToBuf n with
  | none => (f, .panicked)
  | some buf =>
    let offset := f.offset n.id
    if f.locker.WriteLock offset f.nodeSize then (f, .error ())
    else
      match pwrite f.data buf offset with
      | none => (f, .error ())
      | some data => ({ f with data := data }, .ok ())

/-- The method `UpdateParent`. -/
def File.UpdateParent (f : File) (id rootIndex parent : Int) : File × Outcome Unit :=
  let offset := f.offset id + (1 + 4 + 4 + 4 * rootIndex)
  let buf := writeInt32 (int32 parent)
  if f.locker.WriteLock offset 4 then (f, .error ())
  else
    match pwrite f.data buf offset with
    | none => (f, .error ())
    | some data => ({ f with data := data }, .ok ())

/-- The method `Delete`. -/
def File.Delete (f : File) (n : Node) : File × Outcome Unit :=
  f.Update { n with free := true }

/-- A channel of nodes, seen from the sender: what has been sent and whether
the channel is closed. -/
structure Chan where
  sent : List Node
  closed : Bool
  deriving DecidableEq, Repr

/-- The statement `c <- n`: a send on a closed channel panics. -/
def Chan.send (c : Chan) (n : Node) : Option Chan :=
  if c.closed then none else some { c with sent := c.sent ++ [n] }

/-- The statement `close(c)`: closing a closed channel panics. -/
def Chan.close (c : Chan) : Option Chan :=
  if c.closed then none else some { c with closed := true }

/-- The loop of `Iterate` from index `i` on, with `k` iterations left: the
channel when the loop ends or panics. -/
def File.iterateLoop (f : File) : Nat → Int → Chan → Chan × Outcome Unit
  | 0, _, c => (c, .ok ())
  | k + 1, i, c =>
    match f.Find i with
    | .panicked => (c, .panicked)
    | .ok n =>
      match c.send n with
      | none => (c, .panicked)
      | some c => f.iterateLoop k (i + 1) c
    | .error n =>
      match c.close with
      | none => (c, .panicked)
      | some c =>
        match c.send n with
        | none => (c, .panicked)
        | some c => f.iterateLoop k (i + 1) c

/-- The method `Iterate`. -/
def File.Iterate (f : File) (c : Chan) : Chan × Outcome Unit :=
  match f.nodeCount with
  | none => (c, .panicked)
  | some count =>
    match f.iterateLoop count.toNat 0 c with
    | (c, .ok _) =>
      match c.close with
      | none => (c, .panicked)
      | some c => (c, .ok ())
    | r => r

/-! ## Predicates used in the statements -/

/-- The nodes that `nodeToBuf` encodes without a run-time panic: a bucket node
has at most `K` children and the `K` child slots fit the tail
(`K <= 2*dim + 2`); any other node has at most 2 children and at most `dim`
vector components. -/
def File.Encodable (f : File) (n : Node) : Prop :=
  if n.isBucket f.K then (n.children.length : Int) ≤ f.K ∧ f.K ≤ 2 * f.dim + 2
  else n.children.length ≤ 2 ∧ (n.v.length : Int) ≤ f.dim

instance (f : File) (n : Node) : Decidable (f.Encodable n) := by
  unfold File.Encodable; infer_instance


/-- The values an `int32` holds. -/
def inInt32 (x : Int) : Prop := -2147483648 ≤ x ∧ x < 2147483648

instance (x : Int) : Decidable (inInt32 x) := by
  unfold inInt32; infer_instance

/-- A node of one of the three kinds whose fields fit the record of the store:
every integer field fits 32 bits, there is one parent per tree, a leaf
(`nDescendants = 1`) has children `[0, 0]` and `dim` vector components, a bucket
(`2 <= nDescendants <= K`) has `nDescendants` children and `K <= 2*dim + 2`, an
internal node (`nDescendants > K`) has 2 children and `dim` vector components. -/
def File.WellFormed (f : File) (n : Node) : Prop :=
  inInt32 n.nDescendants ∧ inInt32 n.key ∧ (∀ p ∈ n.parents, inInt32 p) ∧
  (∀ c ∈ n.children, inInt32 c) ∧ (n.parents.length : Int) = f.tree ∧
  if n.nDescendants = 1 then n.children = [0, 0] ∧ (n.v.length : Int) = f.dim
  else if n.nDescendants ≤ f.K then
    2 ≤ n.nDescendants ∧ (n.children.length : Int) = n.nDescendants ∧ f.K ≤ 2 * f.dim + 2
  else n.children.length = 2 ∧ (n.v.length : Int) = f.dim

instance (f : File) (n : Node) : Decidable (f.WellFormed n) := by
  unfold File.WellFormed; infer_instance

/-- The big-endian two's-complement 32-bit encoding of an integer. -/
def be32 (x : Int) : List Byte := putUint32 (x % 4294967296).toNat

/-- Go `int64` arithmetic: the value a signed 64-bit integer holds for the
mathematical result `x`. -/
def int64 (x : Int) : Int :=
  (x + 9223372036854775808) % 18446744073709551616 - 9223372036854775808

/-- The product `int64(id) * f.nodeSize` of the method `offset` as Go's 64-bit
arithmetic gives it. `File.offset` takes the product over the integers; the
two agree whenever the product fits 64 bits, as it does for every record of a
file. -/
def File.offsetInt64 (f : File) (id : Int) : Int := int64 (id * f.nodeSize)

/-! ## Statement helpers and concrete stores -/

/-- Encode `n` with `nodeToBuf`, then decode the bytes with the record parsing
part of `Find`, started as `Find(n.id)` starts it. -/
def File.decodeEncoded (f : File) (n : Node) : Option Node :=
  (f.nodeToBuf n).bind (f.parseRecord { Node.zero with id := n.id })

/-- The node `n` as a record keeps it: a bucket loses its vector. -/
def Node.persisted (n : Node) (K : Int) : Node :=
  { n with v := if n.isBucket K then [] else n.v }

/-- A locker whose acquisitions never fail. -/
def noFail : Locker := { ReadLock := fun _ _ => false, WriteLock := fun _ _ => false }

/-- An empty store with 1 tree, dimension 1 and `K = 3`; a record has 29 bytes. -/
def exStore : File := { tree := 1, dim := 1, K := 3, data := [], locker := noFail }

/-- An empty store with 1 tree, dimension 1 and `K = 5`, more than `2*dim + 2`. -/
def exWideK : File := { tree := 1, dim := 1, K := 5, data := [], locker := noFail }

/-- A leaf with vector `[1.0]`. -/
def exLeaf : Node :=
  { id := 0, free := false, nDescendants := 1, key := 7, parents := [2], children := [0, 0],
    v := [4607182418800017408] }

/-- A bucket of two items, carrying a vector `[1.0]` in memory. -/
def exBucket : Node :=
  { id := 1, free := false, nDescendants := 2, key := 0, parents := [2], children := [0, 3],
    v := [4607182418800017408] }

/-- An internal node with split vector `[2.0]`, root of its tree. -/
def exInternal : Node :=
  { id := 2, free := false, nDescendants := 4, key := 0, parents := [-1], children := [1, 3],
    v := [4611686018427387904] }

/-- A bucket of three items. -/
def exBucket3 : Node :=
  { id := 0, free := false, nDescendants := 3, key := 0, parents := [-1], children := [4, 5, 6],
    v := [] }

/-- The store `exStore` after the creation of `exLeaf`, `exBucket` and
`exInternal`, which get the ids 0, 1 and 2. -/
def exStore3 : File :=
  (((exStore.create exLeaf).1.create exBucket).1.create exInternal).1

/-- A record of 29 zero bytes: `nDescendants` decodes to 0. -/
def exZeroRecord : List Byte := List.replicate 29 0

/-- A record of 29 bytes whose `nDescendants` field decodes to 5. -/
def exFiveRecord : List Byte := [0, 0, 0, 0, 5] ++ List.replicate 24 0

/-- A leaf with key 9 and vector `[3.0]` carrying the id 2, under which
`exStore3` holds `exInternal`. -/
def exOverwrite : Node :=
  { id := 2, free := false, nDescendants := 1, key := 9, parents := [1], children := [0, 0],
    v := [4613937818241073152] }

/-- An empty store with 1 tree, dimension 1 and `K = 0`. -/
def exStoreK0 : File := { tree := 1, dim := 1, K := 0, data := [], locker := noFail }

/-- A node with `nDescendants = 1`, two children `[5, 6]` and the vector
`[1.0]`. -/
def exOneDescendant : Node :=
  { id := 0, free := false, nDescendants := 1, key := 7, parents := [2], children := [5, 6],
    v := [4607182418800017408] }

/-- The 29-byte record of the leaf `exLeaf`, as `nodeToBuf` writes it. -/
def exLeafRecord29 : List Byte := (exStore.nodeToBuf exLeaf).getD []

/-- The 29-byte record of the bucket `exBucket3`, as `nodeToBuf` writes it:
`nDescendants` decodes to 3, which is `K` in `exStore`. -/
def exBucket3Record : List Byte := (exStore.nodeToBuf exBucket3).getD []

/-- The store `exStore3` behind a locker whose read lock on the record at byte
offset 29 (id 1) fails. -/
def exStoreLockFails : File :=
  { exStore3 with locker := { ReadLock := fun off _ => decide (off = 29),
                              WriteLock := fun _ _ => false } }

/-- The store `exStore3` behind a locker whose write locks all fail. -/
def exStoreWriteFails : File :=
  { exStore3 with locker := { ReadLock := fun _ _ => false, WriteLock := fun _ _ => true } }

/-- The node `exInternal` with a third child, which `nodeToBuf` does not
encode. -/
def exThreeChildren : Node := { exInternal with children := [1, 3, 5] }

/-! ## The converters (`converter.go`) -/

/-- The interface `binary.ByteOrder`, as far as `binary.Read` uses it; `none`
stands for a panic. -/
structure ByteOrder where
  Uint32 : List Byte → Option Nat
  Uint64 : List Byte → Option Nat

/-- Go `binary.BigEndian`. -/
def bigEndian : ByteOrder := { Uint32 := beUint32, Uint64 := beUint64 }

/-- Go `binary.LittleEndian.Uint32`. -/
def leUint32 : List Byte → Option Nat
  | a :: b :: c :: d :: _ => some (a.val + b.val * 256 + c.val * 65536 + d.val * 16777216)
  | _ => none

/-- Go `binary.LittleEndian.Uint64`. -/
def leUint64 : List Byte → Option Nat
  | a :: b :: c :: d :: e :: f :: g :: h :: _ =>
      some (a.val + b.val * 256 + c.val * 65536 + d.val * 16777216 + e.val * 4294967296 +
            f.val * 1099511627776 + g.val * 281474976710656 + h.val * 72057594037927936)
  | _ => none

/-- Go `binary.LittleEndian`. -/
def littleEndian : ByteOrder := { Uint32 := leUint32, Uint64 := leUint64 }

/-- The functions of package `strconv` the converters call; `none` stands for a
non-nil error. A parsed `float64` is its bit pattern. -/
structure Strconv where
  Atoi : String → Option Int
  ParseFloat : String → Option Float64

/-- What lies outside `converter.go`: whether `CreateMeta` and `NewGannoyIndex`
return an error. The call `gannoy.AddItems(keys, vecs)` is represented by its
arguments. -/
structure External where
  CreateMetaFails : Bool
  NewGannoyIndexFails : Bool

/-- A file read through `csv.NewReader`: the results of the successive calls of
`reader.Read()` before `io.EOF`, a record or (`none`) an error. -/
abbrev CsvFile := List (Option (List String))

/-- A Go `map[int]int`. -/
abbrev IntMap := Int → Option Int

/-- The assignment `maps[index] = key`. -/
def IntMap.insert (maps : IntMap) (index key : Int) : IntMap :=
  fun i => if i = index then some key else maps i

/-- How a call of `Convert` ends: with a non-nil error before `AddItems` is
called, with `return gannoy.AddItems(keys, vecs)`, or with a panic. -/
inductive ConvertResult where
  | failed : ConvertResult
  | addItems : List Int → List (List Float64) → ConvertResult
  | panicked : ConvertResult
  deriving DecidableEq, Repr

/-- How one iteration of the loop of `converter.Convert` ends: `break`, a
returned error, a panic, or the assignment of `keys[i]` and `vecs[i]`. -/
inductive Step where
  | stop : Step
  | fail : Step
  | panicked : Step
  | item : Int → List Float64 → Step
  deriving DecidableEq, Repr

/-- The type `converter`. -/
structure converter where
  dim : Int
  tree : Int
  K : Int
  order : ByteOrder

/-- The method `converter.nodeSize`. -/
def converter.nodeSize (c : converter) : Int := 4 + 4 * 2 + 8 * c.dim

/-- The method `converter.offset`. -/
def converter.offset (c : converter) (index : Int) : Int := c.nodeSize * index

/-- The assignment `xs[i] = x`, which panics when `i` is out of range. -/
def assignAt {α : Type} (xs : List α) (i : Int) (x : α) : Option (List α) :=
  if 0 ≤ i ∧ i < xs.length then some (xs.set i.toNat x) else none

/-- The call `binary.Read(buf, order, &nDescendants)` on a fresh reader over `b`,
its error ignored: the `int32` read, or 0 when `b` is shorter than 4 bytes. -/
def binaryReadInt32 (order : ByteOrder) (b : List Byte) : Option Int :=
  if 4 ≤ b.length then (order.Uint32 (b.take 4)).map fun (u : Nat) => int32 (u : Int)
  else some 0

/-- The values `binary.Read` decodes one after another from `bs`. -/
def decodeFloat64s (order : ByteOrder) : Nat → List Byte → Option (List Float64)
  | 0, _ => some []
  | n + 1, bs =>
      (order.Uint64 (bs.take 8)).bind fun u =>
      (decodeFloat64s order n (bs.drop 8)).map fun fs => float64frombits u :: fs

/-- The call `binary.Read(buf, order, &vec)` with the reader at `pos`, its error
ignored: `len(vec)` values, or `vec` as it is when the bytes do not suffice. -/
def binaryReadFloat64s (order : ByteOrder) (b : List Byte) (pos : Nat) (vec : List Float64) :
    Option (List Float64) :=
  if pos + 8 * vec.length ≤ b.length then decodeFloat64s order vec.length (b.drop pos)
  else some vec

/-- The method `converter.initializeMaps` from the first `reader.Read()` on. -/
def converter.initializeMapsLoop (s : Strconv) : CsvFile → IntMap → Outcome IntMap
  | [], maps => .ok maps
  | none :: _, maps => .error maps
  | some record :: rest, maps =>
    match record[0]? with
    | none => .panicked
    | some r0 =>
      match s.Atoi r0 with
      | none => .error maps
      | some key =>
        match record[1]? with
        | none => .panicked
        | some r1 =>
          match s.Atoi r1 with
          | none => .error maps
          | some index => converter.initializeMapsLoop s rest (maps.insert index key)

/-- The method `converter.initializeMaps`; `file` is `none` when `os.Open` fails. -/
def converter.initializeMaps (s : Strconv) (file : Option CsvFile) : Outcome IntMap :=
  match file with
  | none => .error (fun _ => none)
  | some records => converter.initializeMapsLoop s records (fun _ => none)

/-- One iteration of the loop of `converter.Convert` (lines 75-101), for the
index `i`; `maps` is `none` when `mapPath` is empty. -/
def converter.body (c : converter) (ann : List Byte) (maps : Option IntMap) (i : Int) : Step :=
  match make (0 : Byte) c.nodeSize with
  | none => .panicked
  | some b =>
    match pread ann b (c.offset i) with
    | none => .fail
    | some b =>
      match binaryReadInt32 c.order b with
      | none => .panicked
      | some nDescendants =>
        if nDescendants ≠ 1 then .stop
        else
          match make (0 : Float64) c.dim with
          | none => .panicked
          | some vec =>
            match binaryReadFloat64s c.order b (min 4 b.length + 4 * 2) vec with
            | none => .panicked
            | some vec =>
              match maps with
              | none => .item i vec
              | some m =>
                match m i with
                | some k => .item k vec
                | none => .fail

/-- The loop of `converter.Convert` from index `i` on, with `k` iterations left,
followed by the call of `AddItems`. -/
def converter.loop (c : converter) (ann : List Byte) (maps : Option IntMap) :
    Nat → Int → List Int → List (List Float64) → ConvertResult
  | 0, _, keys, vecs => .addItems keys vecs
  | k + 1, i, keys, vecs =>
    match c.body ann maps i with
    | .stop => .addItems keys vecs
    | .fail => .failed
    | .panicked => .panicked
    | .item key vec =>
      match assignAt keys i key with
      | none => .panicked
      | some keys =>
        match assignAt vecs i vec with
        | none => .panicked
        | some vecs => converter.loop c ann maps k (i + 1) keys vecs

/-- Lines 69-105 of `converter.Convert`: the record count, the two buffers, the
loop and the call of `AddItems`. -/
def converter.convertAll (c : converter) (ann : List Byte) (maps : Option IntMap) :
    ConvertResult :=
  if c.nodeSize = 0 then .panicked
  else
    let count := (ann.length : Int).tdiv c.nodeSize
    match make (0 : Int) count with
    | none => .panicked
    | some keys =>
      match make ([] : List Float64) count with
      | none => .panicked
      | some vecs => c.loop ann maps count.toNat 0 keys vecs

/-- The method `converter.Convert`. `dump` is the file `from` (`none` when
`os.Open` fails); `mapFile` is `none` when `mapPath` is empty, else the file at
`mapPath`. -/
def converter.Convert (c : converter) (s : Strconv) (x : External)
    (dump : Option (List Byte)) (mapFile : Option (Option CsvFile)) : ConvertResult :=
  match dump with
  | none => .failed
  | some ann =>
    let maps : Outcome (Option IntMap) :=
      match mapFile with
      | none => .ok none
      | some file =>
        match converter.initializeMaps s file with
        | .ok m => .ok (some m)
        | .error m => .error (some m)
        | .panicked => .panicked
    match maps with
    | .panicked => .panicked
    | .error _ => .failed
    | .ok maps =>
      if x.CreateMetaFails then .failed
      else if x.NewGannoyIndexFails then .failed
      else c.convertAll ann maps

/-- The type `csvConverter`. -/
structure csvConverter where
  dim : Int
  tree : Int
  K : Int
  order : ByteOrder

/-- The loop `for i, f := range record[1:]` of `csvConverter.Convert`, from
index `i` on. -/
def csvConverter.fill (s : Strconv) : List String → Nat → List Float64 → Outcome (List Float64)
  | [], _, vec => .ok vec
  | fld :: rest, i, vec =>
    match s.ParseFloat fld with
    | none => .error vec
    | some feature =>
      if i < vec.length then csvConverter.fill s rest (i + 1) (vec.set i feature)
      else .panicked

/-- The reading loop of `csvConverter.Convert`, followed by the call of
`AddItems`. -/
def csvConverter.loop (c : csvConverter) (s : Strconv) :
    CsvFile → List Int → List (List Float64) → ConvertResult
  | [], keys, vecs => .addItems keys vecs
  | none :: _, _, _ => .failed
  | some record :: rest, keys, vecs =>
    match record with
    | [] => .panicked
    | r0 :: fields =>
      match s.Atoi r0 with
      | none => .failed
      | some key =>
        match make (0 : Float64) c.dim with
        | none => .panicked
        | some vec =>
          match csvConverter.fill s fields 0 vec with
          | .panicked => .panicked
          | .error _ => .failed
          | .ok vec => csvConverter.loop c s rest (keys ++ [key]) (vecs ++ [vec])

/-- The method `csvConverter.Convert`; `file` is `none` when `os.Open` fails. -/
def csvConverter.Convert (c : csvConverter) (s : Strconv) (x : External)
    (file : Option CsvFile) : ConvertResult :=
  match file with
  | none => .failed
  | some records =>
    if x.CreateMetaFails then .failed
    else if x.NewGannoyIndexFails then .failed
    else c.loop s records [] []

/-! ## Statement helpers for the converters -/

/-- The CSV row `row` is an integer key followed by exactly `dim` numeric
components: `item` is the key and the vector parsed from it. -/
def RowParses (s : Strconv) (dim : Int) (row : List String) (item : Int × List Float64) : Prop :=
  ∃ r0 comps, row = r0 :: comps ∧ s.Atoi r0 = some item.1 ∧ (comps.length : Int) = dim ∧
    comps.map s.ParseFloat = item.2.map some

/-- A `strconv` that knows the strings of the examples: the integers 0, 1, 2, 5,
7 and the numbers 0.1, 0.2, 0.3, 0.4 (as the bit patterns of the nearest
`float64`). -/
def exStrconv : Strconv :=
  { Atoi := fun s =>
      if s = "0" then some 0 else if s = "1" then some 1 else if s = "2" then some 2
      else if s = "5" then some 5 else if s = "7" then some 7 else none,
    ParseFloat := fun s =>
      if s = "0.1" then some 4591870180066957722
      else if s = "0.2" then some 4596373779694328218
      else if s = "0.3" then some 4599075939470750515
      else if s = "0.4" then some 4600877379321698714 else none }

/-- The calls of `CreateMeta` and `NewGannoyIndex` succeed. -/
def exExternal : External := { CreateMetaFails := false, NewGannoyIndexFails := false }

/-- A tabular converter of dimension 2. -/
def exCsvConverter : csvConverter := { dim := 2, tree := 1, K := 3, order := bigEndian }

/-- The byte order decodes every slice that is long enough without a panic, as
`binary.BigEndian` and `binary.LittleEndian` do. -/
def ByteOrder.Total (o : ByteOrder) : Prop :=
  (∀ bs : List Byte, 4 ≤ bs.length → ∃ u, o.Uint32 bs = some u) ∧
  (∀ bs : List Byte, 8 ≤ bs.length → ∃ u, o.Uint64 bs = some u)

/-- The `t`-th record of the foreign dump `ann`. -/
def converter.record (c : converter) (ann : List Byte) (t : Nat) : List Byte :=
  (ann.drop (t * c.nodeSize.toNat)).take c.nodeSize.toNat

/-- The descendant count of the `t`-th record of the dump: its first 4 bytes. -/
def converter.descendants (c : converter) (ann : List Byte) (t : Nat) : Option Int :=
  binaryReadInt32 c.order (c.record ann t)

/-- The vector of the `t`-th record of the dump: the `dim` values after the
descendant count and the two children. -/
def converter.vector (c : converter) (ann : List Byte) (t : Nat) : Option (List Float64) :=
  decodeFloat64s c.order c.dim.toNat ((c.record ann t).drop 12)

/-- The record `record` of the remap file is the row `(externalKey,
foreignIndex)`. -/
def RemapRowParses (s : Strconv) (record : List String) (row : Int × Int) : Prop :=
  ∃ r0 r1 rest, record = r0 :: r1 :: rest ∧ s.Atoi r0 = some row.1 ∧ s.Atoi r1 = some row.2

/-- A foreign-dump converter of dimension 1 reading big-endian records of 20
bytes. -/
def exConverter : converter := { dim := 1, tree := 1, K := 3, order := bigEndian }

/-- A leaf record of the foreign dump of `exConverter` with the vector `v`. -/
def exLeafRecord (v : List Byte) : List Byte := [0, 0, 0, 1, 0, 0, 0, 0, 0, 0, 0, 0] ++ v

/-- A foreign dump of four records: two leaves (vectors `[1.0]`, `[2.0]`), a node
of two descendants, and one more leaf (vector `[3.0]`). -/
def exDump : List Byte :=
  exLeafRecord [63, 240, 0, 0, 0, 0, 0, 0] ++ exLeafRecord [64, 0, 0, 0, 0, 0, 0, 0] ++
    ([0, 0, 0, 2, 0, 0, 0, 0, 0, 0, 0, 1] ++ List.replicate 8 0) ++
    exLeafRecord [64, 8, 0, 0, 0, 0, 0, 0]

/-- A remap file with the rows `7,0` and `5,1`. -/
def exRemapFile : CsvFile := [some ["7", "0"], some ["5", "1"]]

/-- A remap file with the single row `7,0`: foreign index 1 has no entry. -/
def exRemapShort : CsvFile := [some ["7", "0"]]

/-- A remap file whose only record, `7`, has one column. -/
def exRemapOneColumn : CsvFile := [some ["7"]]

/-- The external key the remap rows give the foreign index `i`: that of the
last row whose foreign index is `i`, if there is one. -/
def remapLookup : List (Int × Int) → Int → Option Int
  | [], _ => none
  | r :: rest, i =>
    match remapLookup rest i with
    | some k => some k
    | none => if r.2 = i then some r.1 else none


/-! ## Lengths of the encodings -/

@[simp] theorem length_putUint32 (u : Nat) : (putUint32 u).length = 4 := rfl

@[simp] theorem length_putUint64 (u : Nat) : (putUint64 u).length = 8 := rfl

@[simp] theorem length_writeInt32 (y : Int) : (writeInt32 y).length = 4 := rfl

@[simp] theorem length_writeBool (x : Bool) : (writeBool x).length = 1 := rfl

@[simp] theorem length_writeInt32s (ys : List Int) : (writeInt32s ys).length = 4 * ys.length := by
  induction ys with
  | nil => rfl
  | cons y ys ih => simp [writeInt32s, ih]; omega

@[simp] theorem length_writeFloat64s (xs : List Float64) :
    (writeFloat64s xs).length = 8 * xs.length := by
  induction xs with
  | nil => rfl
  | cons x xs ih => simp [writeFloat64s, ih]; omega

/-! ## `make` and `assignAll` -/

theorem make_eq_some {α : Type} (zero : α) {n : Int} (h : 0 ≤ n) :
    make zero n = some (List.replicate n.toNat zero) := by
  simp [make, h]

theorem make_eq_none {α : Type} (zero : α) {n : Int} (h : n < 0) : make zero n = none := by
  simp [make, not_le.mpr h]

/-- The loop `assignAll` succeeds exactly when the source fits, and then
overwrites the front of the destination. -/
theorem assignAll_eq {α : Type} (dst src : List α) :
    assignAll dst src =
      if src.length ≤ dst.length then some (src ++ dst.drop src.length) else none := by
  induction src generalizing dst with
  | nil => simp [assignAll]
  | cons x src ih =>
    cases dst with
    | nil => simp [assignAll]
    | cons d dst =>
      simp only [assignAll, ih, List.length_cons, Nat.add_le_add_iff_right]
      split <;> simp

theorem assignAll_length {α : Type} {dst src r : List α} (h : assignAll dst src = some r) :
    r.length = dst.length := by
  rw [assignAll_eq] at h
  split at h
  · cases h; simp; omega
  · cases h

/-! ## 32-bit conversions -/

theorem int32_of_range {x : Int} (h1 : -2147483648 ≤ x) (h2 : x < 2147483648) : int32 x = x := by
  unfold int32; omega

theorem int32_range (x : Int) : -2147483648 ≤ int32 x ∧ int32 x < 2147483648 := by
  unfold int32; omega

theorem int32_int32 (x : Int) : int32 (int32 x) = int32 x := by
  unfold int32; omega

theorem uint32_lt (y : Int) : uint32 y < 4294967296 := by
  unfold uint32; omega

theorem int32_uint32 (y : Int) : int32 (uint32 y) = int32 y := by
  unfold int32 uint32; omega

theorem uint32_int32 (x : Int) : uint32 (int32 x) = (x % 4294967296).toNat := by
  unfold int32 uint32; omega

theorem beUint32_putUint32 (u : Nat) (h : u < 4294967296) (rest : List Byte) :
    beUint32 (putUint32 u ++ rest) = some u := by
  simp only [putUint32, beUint32, byte, List.cons_append, List.nil_append, Option.some.injEq]
  omega

theorem beUint64_putUint64 (u : Nat) (h : u < 18446744073709551616) (rest : List Byte) :
    beUint64 (putUint64 u ++ rest) = some u := by
  simp only [putUint64, beUint64, byte, List.cons_append, List.nil_append, Option.some.injEq]
  omega

theorem float64frombits_val (x : Float64) : float64frombits x.val = x := by
  apply Fin.ext
  simp [float64frombits, Fin.ofNat, Nat.mod_eq_of_lt x.isLt]

/-! ## Closed forms of `nodeToBuf` -/

theorem tdiv_four (d k : Int) : ((2 * 4 + 8 * d) - (4 * k)).tdiv 4 = 2 + 2 * d - k := by
  have h : (2 * 4 + 8 * d) - (4 * k) = (2 + 2 * d - k) * 4 := by ring
  rw [h, Int.mul_tdiv_cancel _ (by decide)]

theorem nodeToBuf_bucket (f : File) (n : Node) (hb : n.isBucket f.K = true)
    (hc : (n.children.length : Int) ≤ f.K) (hk : f.K ≤ 2 * f.dim + 2) :
    f.nodeToBuf n = some (recordHead n ++
      writeInt32s (n.children.map int32 ++ List.replicate (f.K.toNat - n.children.length) 0) ++
      writeInt32s (List.replicate (2 + 2 * f.dim - f.K).toNat 0)) := by
  have hK : 0 ≤ f.K := by
    simp only [Node.isBucket, decide_eq_true_eq] at hb; omega
  have hlen : n.children.length ≤ f.K.toNat := by omega
  simp only [File.nodeToBuf, hb, if_true, make_eq_some (0 : Int) hK, Option.bind_eq_bind,
    Option.some_bind, assignAll_eq, List.length_map, List.length_replicate, hlen, tdiv_four,
    make_eq_some (0 : Int) (show (0 : Int) ≤ 2 + 2 * f.dim - f.K by omega),
    List.drop_replicate]

theorem nodeToBuf_plain (f : File) (n : Node) (hb : n.isBucket f.K = false)
    (hc : n.children.length ≤ 2) (hv : (n.v.length : Int) ≤ f.dim) :
    f.nodeToBuf n = some (recordHead n ++
      writeInt32s (n.children.map int32 ++ List.replicate (2 - n.children.length) 0) ++
      writeFloat64s (n.v ++ List.replicate (f.dim.toNat - n.v.length) 0)) := by
  have hd : 0 ≤ f.dim := by omega
  have hlen : n.v.length ≤ f.dim.toNat := by omega
  have h2 : ([0, 0] : List Int) = List.replicate 2 0 := rfl
  simp only [File.nodeToBuf, hb, Bool.false_eq_true, if_false, make_eq_some (0 : Float64) hd,
    Option.bind_eq_bind, Option.some_bind, assignAll_eq, List.length_map, List.length_replicate,
    hlen, hc, h2, if_true, List.drop_replicate]

theorem nodeToBuf_plain_none (f : File) (n : Node) (hb : n.isBucket f.K = false)
    (h : ¬ (n.children.length ≤ 2 ∧ (n.v.length : Int) ≤ f.dim)) : f.nodeToBuf n = none := by
  by_cases hc : n.children.length ≤ 2
  · have hv : ¬ (n.v.length : Int) ≤ f.dim := fun hv => h ⟨hc, hv⟩
    by_cases hd : 0 ≤ f.dim
    · have hv2 : ¬ n.v.length ≤ f.dim.toNat := by omega
      simp [File.nodeToBuf, hb, assignAll_eq, make, hc, hd, hv2]
    · simp [File.nodeToBuf, hb, assignAll_eq, make, hc, hd]
  · simp [File.nodeToBuf, hb, assignAll_eq, hc]

theorem nodeToBuf_bucket_none (f : File) (n : Node) (hb : n.isBucket f.K = true)
    (h : ¬ ((n.children.length : Int) ≤ f.K ∧ f.K ≤ 2 * f.dim + 2)) : f.nodeToBuf n = none := by
  have hK : 0 ≤ f.K := by
    simp only [Node.isBucket, decide_eq_true_eq] at hb; omega
  by_cases hc : (n.children.length : Int) ≤ f.K
  · have hk : ¬ f.K ≤ 2 + 2 * f.dim := by
      intro hk; exact h ⟨hc, by omega⟩
    have hc2 : n.children.length ≤ f.K.toNat := by omega
    have ht : (8 + 8 * f.dim - 4 * f.K).tdiv 4 = 2 + 2 * f.dim - f.K := by
      have h8 := tdiv_four f.dim f.K
      norm_num at h8
      exact h8
    simp [File.nodeToBuf, hb, assignAll_eq, make, hK, hc2, ht]
    omega
  · have hc2 : ¬ n.children.length ≤ f.K.toNat := by omega
    simp [File.nodeToBuf, hb, assignAll_eq, make, hK, hc2]

/-- The method `nodeToBuf` returns exactly on the encodable nodes. -/
theorem nodeToBuf_isSome_iff (f : File) (n : Node) :
    (f.nodeToBuf n).isSome = true ↔ f.Encodable n := by
  unfold File.Encodable
  cases hb : n.isBucket f.K
  · simp only [Bool.false_eq_true, if_false]
    constructor
    · intro h
      by_contra hne
      rw [nodeToBuf_plain_none f n hb hne] at h
      cases h
    · rintro ⟨hc, hv⟩
      rw [nodeToBuf_plain f n hb hc hv]; rfl
  · simp only [if_true]
    constructor
    · intro h
      by_contra hne
      rw [nodeToBuf_bucket_none f n hb hne] at h
      cases h
    · rintro ⟨hc, hk⟩
      rw [nodeToBuf_bucket f n hb hc hk]; rfl

theorem length_recordHead (n : Node) : (recordHead n).length = 9 + 4 * n.parents.length := by
  simp [recordHead]; omega

/-- Every buffer `nodeToBuf` returns has `9 + 4*len(parents) + 8 + 8*dim` bytes. -/
theorem nodeToBuf_length (f : File) (n : Node) (buf : List Byte)
    (h : f.nodeToBuf n = some buf) :
    (buf.length : Int) = 1 + 4 + 4 + 4 * n.parents.length + 4 * 2 + 8 * f.dim := by
  have he : f.Encodable n := (nodeToBuf_isSome_iff f n).mp (by rw [h]; rfl)
  unfold File.Encodable at he
  cases hb : n.isBucket f.K
  · simp only [hb, Bool.false_eq_true, if_false] at he
    rw [nodeToBuf_plain f n hb he.1 he.2] at h
    cases h
    simp [length_recordHead]
    omega
  · simp only [hb, if_true] at he
    have hK : 0 ≤ f.K := by
      simp only [Node.isBucket, decide_eq_true_eq] at hb; omega
    rw [nodeToBuf_bucket f n hb he.1 he.2] at h
    cases h
    simp [length_recordHead]
    omega

/-! ## Slices of concatenations -/

theorem slice_nat (b : List Byte) (lo hi : Nat) (h1 : lo ≤ hi) (h2 : hi ≤ b.length) :
    slice b lo hi = some ((b.drop lo).take (hi - lo)) := by
  have h : (0 : Int) ≤ lo ∧ (lo : Int) ≤ hi ∧ (hi : Int) ≤ b.length := by omega
  have e : ((hi : Int) - lo).toNat = hi - lo := by omega
  simp only [slice, h, and_self, if_true, Int.toNat_ofNat, e]

theorem sliceFrom_nat (b : List Byte) (lo : Nat) (h : lo ≤ b.length) :
    sliceFrom b lo = some (b.drop lo) := by
  have h' : (0 : Int) ≤ lo ∧ (lo : Int) ≤ b.length := by omega
  simp only [sliceFrom, h', and_self, if_true, Int.toNat_ofNat]

theorem slice_append_mid (xs ys zs : List Byte) (lo hi : Int) (hlo : lo = xs.length)
    (hhi : hi = lo + ys.length) : slice (xs ++ ys ++ zs) lo hi = some ys := by
  subst hlo; subst hhi
  have e : ((xs.length : Int) + ys.length) = ((xs.length + ys.length : Nat) : Int) := by
    push_cast; rfl
  rw [e, slice_nat _ _ _ (by omega) (by simp)]
  simp [List.append_assoc]

theorem sliceFrom_append (xs ys : List Byte) (lo : Int) (hlo : lo = xs.length) :
    sliceFrom (xs ++ ys) lo = some ys := by
  subst hlo
  rw [sliceFrom_nat _ _ (by simp)]
  simp

theorem writeInt32s_append (xs ys : List Int) :
    writeInt32s (xs ++ ys) = writeInt32s xs ++ writeInt32s ys := by
  induction xs with
  | nil => rfl
  | cons x xs ih => simp [writeInt32s, ih]

theorem writeFloat64s_append (xs ys : List Float64) :
    writeFloat64s (xs ++ ys) = writeFloat64s xs ++ writeFloat64s ys := by
  induction xs with
  | nil => rfl
  | cons x xs ih => simp [writeFloat64s, ih]

theorem list_split_at {α : Type} (ys : List α) (t : Nat) (ht : t < ys.length) :
    ys = ys.take t ++ [ys[t]] ++ ys.drop (t + 1) := by
  rw [List.append_assoc, List.singleton_append, ← List.drop_eq_getElem_cons ht,
    List.take_append_drop]

theorem writeInt32s_split (ys : List Int) (t : Nat) (ht : t < ys.length) :
    writeInt32s ys =
      writeInt32s (ys.take t) ++ writeInt32 ys[t] ++ writeInt32s (ys.drop (t + 1)) := by
  have h := congrArg writeInt32s (list_split_at ys t ht)
  rw [writeInt32s_append, writeInt32s_append] at h
  simpa [writeInt32s] using h

theorem writeFloat64s_split (vs : List Float64) (j : Nat) (hj : j < vs.length) :
    writeFloat64s vs =
      writeFloat64s (vs.take j) ++ putUint64 vs[j].val ++ writeFloat64s (vs.drop (j + 1)) := by
  have h := congrArg writeFloat64s (list_split_at vs j hj)
  rw [writeFloat64s_append, writeFloat64s_append] at h
  simpa [writeFloat64s] using h

/-- The `t`-th 4-byte slot of an encoded `[]int32` placed after `xs`. -/
theorem slice_writeInt32s (xs zs : List Byte) (ys : List Int) (t : Nat) (ht : t < ys.length)
    (lo : Int) (hlo : lo = xs.length + 4 * t) :
    slice (xs ++ writeInt32s ys ++ zs) lo (lo + 4) = some (writeInt32 ys[t]) := by
  have hs : xs ++ writeInt32s ys ++ zs =
      (xs ++ writeInt32s (ys.take t)) ++ writeInt32 ys[t] ++
        (writeInt32s (ys.drop (t + 1)) ++ zs) := by
    conv_lhs => rw [writeInt32s_split ys t ht]
    simp only [List.append_assoc]
  rw [hs]
  apply slice_append_mid
  · simp [hlo, List.length_take, Nat.min_eq_left (Nat.le_of_lt ht)]
  · simp

/-- The `j`-th 8-byte slot of an encoded `[]float64` placed after `xs`. -/
theorem slice_writeFloat64s (xs zs : List Byte) (vs : List Float64) (j : Nat)
    (hj : j < vs.length) (lo : Int) (hlo : lo = xs.length + 8 * j) :
    slice (xs ++ writeFloat64s vs ++ zs) lo (lo + 8) = some (putUint64 vs[j].val) := by
  have hs : xs ++ writeFloat64s vs ++ zs =
      (xs ++ writeFloat64s (vs.take j)) ++ putUint64 vs[j].val ++
        (writeFloat64s (vs.drop (j + 1)) ++ zs) := by
    conv_lhs => rw [writeFloat64s_split vs j hj]
    simp only [List.append_assoc]
  rw [hs]
  apply slice_append_mid
  · simp [hlo, List.length_take, Nat.min_eq_left (Nat.le_of_lt hj)]
  · simp

/-! ## Reading back what was written -/

theorem readInt32_of_slice (b : List Byte) (off : Int) (y : Int)
    (h : slice b off (off + 4) = some (writeInt32 y)) : readInt32 b off = some (int32 y) := by
  have hb : beUint32 (writeInt32 y) = some (uint32 y) := by
    have := beUint32_putUint32 (uint32 y) (uint32_lt y) []
    simpa [writeInt32] using this
  simp [readInt32, h, hb, int32_uint32]

theorem readInt32s_of_slices (b : List Byte) (ys : List Int) (off : Int)
    (h : ∀ (t : Nat) (ht : t < ys.length),
      slice b (off + 4 * t) (off + 4 * t + 4) = some (writeInt32 ys[t])) :
    readInt32s b off ys.length = some (ys.map int32) := by
  induction ys generalizing off with
  | nil => rfl
  | cons y ys ih =>
    have h0 := h 0 (by simp)
    simp only [Nat.cast_zero, mul_zero, add_zero, List.getElem_cons_zero] at h0
    have ht : ∀ (t : Nat) (ht : t < ys.length),
        slice b (off + 4 + 4 * t) (off + 4 + 4 * t + 4) = some (writeInt32 ys[t]) := by
      intro t ht
      have := h (t + 1) (by simp; omega)
      simp only [List.getElem_cons_succ, Nat.cast_add, Nat.cast_one] at this
      rw [← this]; congr 1 <;> ring
    simp [readInt32s, readInt32_of_slice b off y h0, ih (off + 4) ht]

theorem bytesToFloat64sLoop_write (vs : List Float64) :
    bytesToFloat64sLoop vs.length (writeFloat64s vs) = some vs := by
  induction vs with
  | nil => rfl
  | cons x vs ih =>
    have h1 : slice (writeFloat64s (x :: vs)) 0 8 = some (putUint64 x.val) := by
      have := slice_append_mid [] (putUint64 x.val) (writeFloat64s vs) 0 8 (by simp) (by simp)
      simpa [writeFloat64s] using this
    have h2 : sliceFrom (writeFloat64s (x :: vs)) 8 = some (writeFloat64s vs) := by
      have := sliceFrom_append (putUint64 x.val) (writeFloat64s vs) 8 (by simp)
      simpa [writeFloat64s] using this
    have h3 : beUint64 (putUint64 x.val) = some x.val := by
      have := beUint64_putUint64 x.val x.isLt []
      simpa using this
    simp only [bytesToFloat64sLoop, h1, h2, h3, Option.some_bind, ih, Option.map_some',
      float64frombits_val]

theorem bytesToFloat64s_write (vs : List Float64) :
    bytesToFloat64s (writeFloat64s vs) = some vs := by
  have h : (writeFloat64s vs).length / 8 = vs.length := by
    rw [length_writeFloat64s]; omega
  rw [bytesToFloat64s, h, bytesToFloat64sLoop_write]

/-! ## Layout of the header -/

theorem head_getElem_zero (n : Node) (rest : List Byte) :
    (recordHead n ++ rest)[0]? = some (if n.free then 1 else 0) := by
  simp [recordHead, writeBool]

theorem head_slice_nDescendants (n : Node) (rest : List Byte) :
    slice (recordHead n ++ rest) 1 5 = some (writeInt32 (int32 n.nDescendants)) := by
  have hs : recordHead n ++ rest = writeBool n.free ++ writeInt32 (int32 n.nDescendants) ++
      (writeInt32 (int32 n.key) ++ writeInt32s (n.parents.map int32) ++ rest) := by
    simp only [recordHead, List.append_assoc]
  rw [hs]
  exact slice_append_mid _ _ _ 1 5 (by simp) (by simp)

theorem head_slice_key (n : Node) (rest : List Byte) :
    slice (recordHead n ++ rest) 5 9 = some (writeInt32 (int32 n.key)) := by
  have hs : recordHead n ++ rest =
      (writeBool n.free ++ writeInt32 (int32 n.nDescendants)) ++ writeInt32 (int32 n.key) ++
      (writeInt32s (n.parents.map int32) ++ rest) := by
    simp only [recordHead, List.append_assoc]
  rw [hs]
  exact slice_append_mid _ _ _ 5 9 (by simp) (by simp)

theorem head_slice_parent (n : Node) (rest : List Byte) (t : Nat) (ht : t < n.parents.length) :
    slice (recordHead n ++ rest) (9 + 4 * t) (9 + 4 * t + 4) =
      some (writeInt32 (int32 n.parents[t])) := by
  have hs : recordHead n ++ rest =
      (writeBool n.free ++ writeInt32 (int32 n.nDescendants) ++ writeInt32 (int32 n.key)) ++
      writeInt32s (n.parents.map int32) ++ rest := by
    simp only [recordHead, List.append_assoc]
  rw [hs]
  have := slice_writeInt32s
    (writeBool n.free ++ writeInt32 (int32 n.nDescendants) ++ writeInt32 (int32 n.key)) rest
    (n.parents.map int32) t (by simpa using ht) (9 + 4 * t) (by simp)
  simpa using this

theorem map_int32_idem (xs : List Int) : (xs.map int32).map int32 = xs.map int32 := by
  simp [List.map_map, Function.comp_def, int32_int32]

theorem head_read_nDescendants (n : Node) (rest : List Byte) :
    readInt32 (recordHead n ++ rest) 1 = some (int32 n.nDescendants) := by
  have := readInt32_of_slice _ 1 _ (head_slice_nDescendants n rest)
  simpa [int32_int32] using this

theorem head_read_key (n : Node) (rest : List Byte) :
    readInt32 (recordHead n ++ rest) 5 = some (int32 n.key) := by
  have := readInt32_of_slice _ 5 _ (head_slice_key n rest)
  simpa [int32_int32] using this

theorem head_read_parents (n : Node) (rest : List Byte) :
    readInt32s (recordHead n ++ rest) 9 n.parents.length = some (n.parents.map int32) := by
  have := readInt32s_of_slices (recordHead n ++ rest) (n.parents.map int32) 9 (by
    intro t ht
    have ht' : t < n.parents.length := by simpa using ht
    simpa using head_slice_parent n rest t ht')
  rw [map_int32_idem] at this
  simpa using this

/-- The child slots written right after the header are read back. -/
theorem tail_read_children (n : Node) (cs : List Int) (rest : List Byte) (k : Nat)
    (hk : k ≤ cs.length) (off : Int) (hoff : off = 9 + 4 * n.parents.length) :
    readInt32s (recordHead n ++ writeInt32s cs ++ rest) off k = some ((cs.take k).map int32) := by
  have := readInt32s_of_slices (recordHead n ++ writeInt32s cs ++ rest) (cs.take k) off (by
    intro t ht
    have ht' : t < cs.length := by
      simp only [List.length_take] at ht; omega
    have := slice_writeInt32s (recordHead n) rest cs t ht' (off + 4 * t) (by
      rw [length_recordHead, hoff]; push_cast; ring)
    simpa using this)
  simpa [List.length_take, Nat.min_eq_left hk] using this

theorem tail_read_vector (n : Node) (cs : List Int) (vs : List Float64) (off : Int)
    (hoff : off = 9 + 4 * n.parents.length + 4 * cs.length) :
    (sliceFrom (recordHead n ++ writeInt32s cs ++ writeFloat64s vs) off).bind bytesToFloat64s =
      some vs := by
  rw [sliceFrom_append _ _ off (by simp [length_recordHead, hoff])]
  simp [bytesToFloat64s_write]

/-! ## Decoding an encoded record -/

theorem map_int32_of_range (xs : List Int) (h : ∀ x ∈ xs, inInt32 x) : xs.map int32 = xs := by
  induction xs with
  | nil => rfl
  | cons x xs ih =>
    have hx := h x (by simp)
    simp only [List.map_cons, int32_of_range hx.1 hx.2,
      ih (fun y hy => h y (List.mem_cons_of_mem _ hy))]

theorem free_byte_ne_zero (x : Bool) : decide ((if x then (1 : Byte) else 0) ≠ 0) = x := by
  cases x <;> decide

/-- The header part of `parseRecord` on a buffer that starts with an encoded
header: what is left is the dispatch on the decoded `nDescendants`. -/
theorem parseRecord_head (f : File) (node0 n : Node) (rest : List Byte)
    (hP : (n.parents.length : Int) = f.tree) :
    f.parseRecord node0 (recordHead n ++ rest) =
      (if int32 n.nDescendants = 1 then
        (sliceFrom (recordHead n ++ rest) f.offsetOfV).bind fun tail =>
        (bytesToFloat64s tail).map fun v =>
          { node0 with free := n.free, nDescendants := int32 n.nDescendants,
                       key := int32 n.key, parents := n.parents.map int32,
                       children := [0, 0], v := v }
      else if int32 n.nDescendants ≤ f.K then
        (make (0 : Int) (int32 n.nDescendants)).bind fun _ =>
        (readInt32s (recordHead n ++ rest) (f.offsetOfV - 4 * 2)
            (int32 n.nDescendants).toNat).map fun children =>
          { node0 with free := n.free, nDescendants := int32 n.nDescendants,
                       key := int32 n.key, parents := n.parents.map int32,
                       children := children }
      else
        (readInt32s (recordHead n ++ rest) (f.offsetOfV - 4 * 2) 2).bind fun children =>
        (sliceFrom (recordHead n ++ rest) f.offsetOfV).bind fun tail =>
        (bytesToFloat64s tail).map fun v =>
          { node0 with free := n.free, nDescendants := int32 n.nDescendants,
                       key := int32 n.key, parents := n.parents.map int32,
                       children := children, v := v }) := by
  have ht : f.tree.toNat = n.parents.length := by omega
  have hm : make (0 : Int) f.tree = some (List.replicate f.tree.toNat 0) :=
    make_eq_some 0 (by omega)
  simp only [File.parseRecord, head_getElem_zero, head_read_nDescendants, head_read_key, hm, ht,
    head_read_parents, Option.some_bind, Option.bind_eq_bind, free_byte_ne_zero]

theorem isBucket_eq_false_of_one (n : Node) (K : Int) (h : n.nDescendants = 1) :
    n.isBucket K = false := by
  simp [Node.isBucket, h]

theorem isBucket_eq_false_of_gt (n : Node) (K : Int) (h : ¬ n.nDescendants ≤ K) :
    n.isBucket K = false := by
  simp only [Node.isBucket, decide_eq_false_iff_not]; omega

theorem isBucket_eq_true (n : Node) (K : Int) (h1 : 2 ≤ n.nDescendants)
    (h2 : n.nDescendants ≤ K) : n.isBucket K = true := by
  simp only [Node.isBucket, decide_eq_true_eq]; omega

/-- Decoding the encoding of a well-formed node gives the node back, with the
id of the node the decoding started from, and with the vector of that node
when the encoded node is a bucket. -/
theorem roundtrip_core (f : File) (node0 n : Node) (h : f.WellFormed n) :
    ∃ buf, f.nodeToBuf n = some buf ∧
      f.parseRecord node0 buf =
        some { n with id := node0.id, v := if n.isBucket f.K then node0.v else n.v } := by
  obtain ⟨hd, hkey, hps, hcs, hP, hshape⟩ := h
  have e1 : int32 n.nDescendants = n.nDescendants := int32_of_range hd.1 hd.2
  have e2 : int32 n.key = n.key := int32_of_range hkey.1 hkey.2
  have e3 : n.parents.map int32 = n.parents := map_int32_of_range _ hps
  have e4 : n.children.map int32 = n.children := map_int32_of_range _ hcs
  by_cases h1 : n.nDescendants = 1
  · -- leaf
    rw [if_pos h1] at hshape
    obtain ⟨hc, hv⟩ := hshape
    have hb := isBucket_eq_false_of_one n f.K h1
    refine ⟨_, nodeToBuf_plain f n hb (by simp [hc]) (le_of_eq hv), ?_⟩
    have hvl : f.dim.toNat - n.v.length = 0 := by omega
    have hcl : 2 - n.children.length = 0 := by simp [hc]
    have htail := tail_read_vector n (n.children.map int32) n.v f.offsetOfV (by
      simp [File.offsetOfV, hc, ← hP])
    simp only [hvl, hcl, List.replicate_zero, List.append_nil]
    rw [List.append_assoc (recordHead n), parseRecord_head f node0 n _ hP, e1, if_pos h1,
      ← List.append_assoc]
    rw [Option.bind_eq_some] at htail
    obtain ⟨tl, htl, hbv⟩ := htail
    simp only [htl, hbv, Option.some_bind, Option.map_some', e2, e3, hb, Bool.false_eq_true,
      if_false, Option.some.injEq]
    rw [hc]
  · rw [if_neg h1] at hshape
    by_cases h2 : n.nDescendants ≤ f.K
    · -- bucket
      rw [if_pos h2] at hshape
      obtain ⟨hlo, hc, hk⟩ := hshape
      have hb := isBucket_eq_true n f.K hlo h2
      refine ⟨_, nodeToBuf_bucket f n hb (by omega) hk, ?_⟩
      have hch := tail_read_children n
        (n.children.map int32 ++ List.replicate (f.K.toNat - n.children.length) 0)
        (writeInt32s (List.replicate (2 + 2 * f.dim - f.K).toNat 0))
        n.nDescendants.toNat (by simp; omega) (f.offsetOfV - 4 * 2) (by
          simp [File.offsetOfV, ← hP])
      have htk : List.take n.nDescendants.toNat
          (n.children.map int32 ++ List.replicate (f.K.toNat - n.children.length) 0) =
          n.children.map int32 := by
        rw [List.take_append_of_le_length (by simp; omega), List.take_of_length_le (by simp; omega)]
      rw [htk, map_int32_idem] at hch
      rw [List.append_assoc (recordHead n), parseRecord_head f node0 n _ hP, e1, if_neg h1,
        if_pos h2, ← List.append_assoc, make_eq_some (0 : Int) (by omega)]
      simp only [Option.some_bind, hch, Option.map_some']
      simp only [e2, e3, e4, hb, if_true]
    · -- internal
      rw [if_neg h2] at hshape
      obtain ⟨hc, hv⟩ := hshape
      have hb := isBucket_eq_false_of_gt n f.K h2
      refine ⟨_, nodeToBuf_plain f n hb (le_of_eq hc) (le_of_eq hv), ?_⟩
      have hvl : f.dim.toNat - n.v.length = 0 := by omega
      have hcl : 2 - n.children.length = 0 := by omega
      have htail := tail_read_vector n (n.children.map int32) n.v f.offsetOfV (by
        simp [File.offsetOfV, hc, ← hP])
      have hch := tail_read_children n (n.children.map int32) (writeFloat64s n.v) 2
        (by simp [hc]) (f.offsetOfV - 4 * 2) (by simp [File.offsetOfV, ← hP])
      rw [List.take_of_length_le (by simp [hc]), map_int32_idem] at hch
      simp only [hvl, hcl, List.replicate_zero, List.append_nil]
      rw [List.append_assoc (recordHead n), parseRecord_head f node0 n _ hP, e1, if_neg h1,
        if_neg h2, ← List.append_assoc]
      rw [Option.bind_eq_some] at htail
      obtain ⟨tl, htl, hbv⟩ := htail
      simp only [hch, htl, hbv, Option.some_bind, Option.map_some']
      simp only [e2, e3, e4, hb, Bool.false_eq_true, if_false]

/-- An encodable node is written as its header followed by a tail of
`2*4 + 8*dim` bytes. -/
theorem nodeToBuf_head_tail (f : File) (n : Node) (he : f.Encodable n) :
    ∃ tail, f.nodeToBuf n = some (recordHead n ++ tail) ∧
      (tail.length : Int) = 2 * 4 + 8 * f.dim := by
  unfold File.Encodable at he
  cases hb : n.isBucket f.K
  · simp only [hb, Bool.false_eq_true, if_false] at he
    refine ⟨_, by rw [nodeToBuf_plain f n hb he.1 he.2, List.append_assoc], ?_⟩
    simp
    omega
  · simp only [hb, if_true] at he
    have hK : 0 ≤ f.K := by
      simp only [Node.isBucket, decide_eq_true_eq] at hb; omega
    refine ⟨_, by rw [nodeToBuf_bucket f n hb he.1 he.2, List.append_assoc], ?_⟩
    simp
    omega

/-! ## Record count and `create` -/

theorem nodeSize_ne_zero (f : File) : f.nodeSize ≠ 0 := by
  unfold File.nodeSize; omega

theorem nodeCount_eq (f : File) : f.nodeCount = some (f.size.tdiv f.nodeSize) := by
  simp [File.nodeCount, nodeSize_ne_zero]

theorem encodable_dim_nonneg (f : File) (n : Node) (he : f.Encodable n) : 0 ≤ f.dim := by
  unfold File.Encodable at he
  cases hb : n.isBucket f.K
  · simp only [hb, Bool.false_eq_true, if_false] at he; omega
  · simp only [hb, if_true] at he
    simp only [Node.isBucket, decide_eq_true_eq] at hb; omega

theorem tdiv_add_self (a b : Int) (ha : 0 ≤ a) (hb : 0 < b) :
    (a + b).tdiv b = a.tdiv b + 1 := by
  rw [Int.tdiv_eq_ediv (by omega) (by omega), Int.tdiv_eq_ediv ha (by omega),
    Int.add_ediv_of_dvd_right (dvd_refl b), Int.ediv_self (by omega)]

/-- One call of `create` on an encodable node with `treeCount` parents appends a
record of `nodeSize` bytes and returns the record count before the append. -/
theorem create_step (f : File) (n : Node) (hp : (n.parents.length : Int) = f.tree)
    (he : f.Encodable n) :
    ∃ buf, (buf.length : Int) = f.nodeSize ∧ 0 < f.nodeSize ∧
      f.create n = ({ f with data := f.data ++ buf }, .ok (f.size.tdiv f.nodeSize)) := by
  obtain ⟨tail, h1, h2⟩ := nodeToBuf_head_tail f n he
  have hd := encodable_dim_nonneg f n he
  have hlen : ((recordHead n ++ tail).length : Int) = f.nodeSize := by
    rw [List.length_append, length_recordHead, File.nodeSize]; push_cast; omega
  refine ⟨_, hlen, by unfold File.nodeSize; omega, ?_⟩
  simp only [File.create, h1, nodeCount_eq]

theorem range_shift (c : Int) (k : Nat) :
    (List.range (k + 1)).map (fun (i : Nat) => c + (i : Int)) =
      c :: (List.range k).map (fun (i : Nat) => c + 1 + (i : Int)) := by
  rw [List.range_succ_eq_map, List.map_cons, List.map_map]
  simp only [Nat.cast_zero, add_zero, List.cons.injEq, true_and]
  apply List.map_congr_left
  intro i _
  simp only [Function.comp, Nat.cast_succ]
  ring

/-- A run of `create` calls on encodable nodes with `treeCount` parents returns
consecutive ids from the record count on and appends one record per call. -/
theorem createAll_from (ns : List Node) :
    ∀ (f : File), (∀ n ∈ ns, (n.parents.length : Int) = f.tree ∧ f.Encodable n) →
      ∃ data', f.createAll ns =
          some ({ f with data := data' },
            (List.range ns.length).map fun (i : Nat) => f.size.tdiv f.nodeSize + (i : Int)) ∧
        (data'.length : Int) = f.size + ns.length * f.nodeSize ∧
        (ns ≠ [] → 0 < f.nodeSize) := by
  induction ns with
  | nil => intro f _; exact ⟨f.data, by simp [File.createAll], by simp [File.size], by simp⟩
  | cons n ns ih =>
    intro f h
    obtain ⟨hp, he⟩ := h n (by simp)
    obtain ⟨buf, hlen, hpos, hc⟩ := create_step f n hp he
    obtain ⟨data', hall, hlen', -⟩ := ih { f with data := f.data ++ buf }
      (fun m hm => h m (List.mem_cons_of_mem _ hm))
    have hsz : File.size { f with data := f.data ++ buf } = f.size + f.nodeSize := by
      simp only [File.size, List.length_append, Nat.cast_add, hlen]
    have hns : File.nodeSize { f with data := f.data ++ buf } = f.nodeSize := rfl
    have hstep := tdiv_add_self f.size f.nodeSize (by simp [File.size]) hpos
    rw [hsz, hns, hstep] at hall
    refine ⟨data', ?_, ?_, fun _ => hpos⟩
    · simp only [File.createAll, hc, hall, Option.map_some', List.length_cons, range_shift]
    · rw [hlen', hsz, hns]; simp only [List.length_cons, Nat.cast_succ]; ring

/-! ## Reads depend only on the bytes they cover -/

theorem slice_congr (b b' : List Byte) (lo hi : Int) (hlen : b.length = b'.length)
    (h : ∀ i : Nat, lo ≤ i → (i : Int) < hi → b[i]? = b'[i]?) :
    slice b lo hi = slice b' lo hi := by
  unfold slice
  rw [hlen]
  by_cases hc : 0 ≤ lo ∧ lo ≤ hi ∧ hi ≤ (b'.length : Int)
  · simp only [hc, and_self, if_true, Option.some.injEq]
    apply List.ext_getElem?
    intro k
    simp only [List.getElem?_take, List.getElem?_drop]
    split
    · apply h <;> omega
    · rfl
  · simp only [hc, if_false]

theorem sliceFrom_congr (b b' : List Byte) (lo : Int) (hlen : b.length = b'.length)
    (h : ∀ i : Nat, lo ≤ i → b[i]? = b'[i]?) : sliceFrom b lo = sliceFrom b' lo := by
  unfold sliceFrom
  rw [hlen]
  by_cases hc : 0 ≤ lo ∧ lo ≤ (b'.length : Int)
  · simp only [hc, and_self, if_true, Option.some.injEq]
    apply List.ext_getElem?
    intro k
    simp only [List.getElem?_drop]
    apply h; omega
  · simp only [hc, if_false]

theorem readInt32_congr (b b' : List Byte) (off : Int) (hlen : b.length = b'.length)
    (h : ∀ i : Nat, off ≤ i → (i : Int) < off + 4 → b[i]? = b'[i]?) :
    readInt32 b off = readInt32 b' off := by
  unfold readInt32
  rw [slice_congr b b' off (off + 4) hlen h]

theorem readInt32s_congr (b b' : List Byte) (n : Nat) (hlen : b.length = b'.length) :
    ∀ (off : Int), (∀ i : Nat, off ≤ i → (i : Int) < off + 4 * n → b[i]? = b'[i]?) →
      readInt32s b off n = readInt32s b' off n := by
  induction n with
  | zero => intro off _; rfl
  | succ n ih =>
    intro off h
    simp only [readInt32s]
    rw [readInt32_congr b b' off hlen (fun i h1 h2 => h i h1 (by push_cast; omega)),
      ih (off + 4) (fun i h1 h2 => h i (by omega) (by push_cast; omega))]

theorem slice_length (b s : List Byte) (lo hi : Int) (h : slice b lo hi = some s) :
    0 ≤ lo ∧ lo ≤ hi ∧ hi ≤ b.length ∧ (s.length : Int) = hi - lo := by
  unfold slice at h
  split at h
  · rename_i hc
    cases h
    refine ⟨hc.1, hc.2.1, hc.2.2, ?_⟩
    simp only [List.length_take, List.length_drop]
    omega
  · cases h

theorem slice_isSome (b : List Byte) (lo hi : Int) (h0 : 0 ≤ lo) (h1 : lo ≤ hi)
    (h2 : hi ≤ b.length) : ∃ s, slice b lo hi = some s ∧ (s.length : Int) = hi - lo := by
  have hc : 0 ≤ lo ∧ lo ≤ hi ∧ hi ≤ (b.length : Int) := ⟨h0, h1, h2⟩
  refine ⟨(b.drop lo.toNat).take (hi - lo).toNat, ?_, ?_⟩
  · simp only [slice, hc, and_self, if_true]
  · simp only [List.length_take, List.length_drop]
    omega

theorem beUint32_isSome (s : List Byte) (h : 4 ≤ s.length) : ∃ u, beUint32 s = some u := by
  match s, h with
  | a :: b :: c :: d :: _, _ => exact ⟨_, rfl⟩

theorem beUint64_isSome (s : List Byte) (h : 8 ≤ s.length) : ∃ u, beUint64 s = some u := by
  match s, h with
  | a :: b :: c :: d :: e :: f :: g :: k :: _, _ => exact ⟨_, rfl⟩

theorem readInt32_isSome (b : List Byte) (off : Int) (h0 : 0 ≤ off)
    (h1 : off + 4 ≤ b.length) : ∃ x, readInt32 b off = some x := by
  obtain ⟨s, hs, hl⟩ := slice_isSome b off (off + 4) h0 (by omega) h1
  obtain ⟨u, hu⟩ := beUint32_isSome s (by omega)
  exact ⟨int32 u, by simp [readInt32, hs, hu]⟩

theorem readInt32s_isSome (b : List Byte) (n : Nat) :
    ∀ (off : Int), 0 ≤ off → off + 4 * n ≤ b.length →
      ∃ xs, readInt32s b off n = some xs ∧ xs.length = n := by
  induction n with
  | zero => intro off _ _; exact ⟨[], rfl, rfl⟩
  | succ n ih =>
    intro off h0 h1
    obtain ⟨x, hx⟩ := readInt32_isSome b off h0 (by push_cast at h1; omega)
    obtain ⟨xs, hxs, hl⟩ := ih (off + 4) (by omega) (by push_cast at h1; omega)
    exact ⟨x :: xs, by simp [readInt32s, hx, hxs], by simp [hl]⟩

/-- Overwriting the `t`-th 4-byte slot of a run of `n` slots with the encoding
of `y` changes the `t`-th value read to `int32 y` and no other. -/
theorem readInt32s_set (b b' : List Byte) (y : Int) (hlen : b.length = b'.length) (n : Nat) :
    ∀ (off : Int) (t : Nat), t < n →
      (∀ i : Nat, ((i : Int) < off + 4 * t ∨ off + 4 * t + 4 ≤ i) → b[i]? = b'[i]?) →
      slice b' (off + 4 * t) (off + 4 * t + 4) = some (writeInt32 y) →
      0 ≤ off →
      readInt32s b' off n = (readInt32s b off n).map fun xs => xs.set t (int32 y) := by
  induction n with
  | zero => intro off t ht; omega
  | succ n ih =>
    intro off t ht h hs h0
    cases t with
    | zero =>
      simp only [Nat.cast_zero, mul_zero, add_zero] at h hs
      have hb := slice_length _ _ _ _ hs
      obtain ⟨x, hx⟩ := readInt32_isSome b off h0 (by rw [hlen]; omega)
      have hrest := readInt32s_congr b b' n hlen (off + 4)
        (fun i h1 _ => h i (Or.inr (by omega)))
      simp only [readInt32s, readInt32_of_slice b' off y hs, hx, Option.some_bind, ← hrest]
      cases readInt32s b (off + 4) n <;> simp
    | succ t =>
      have e : off + 4 * ((t + 1 : Nat) : Int) = off + 4 + 4 * (t : Int) := by
        push_cast; ring
      rw [e] at h hs
      have hhead := readInt32_congr b b' off hlen (fun i _ h2 => h i (Or.inl (by omega)))
      have hrest := ih (off + 4) t (by omega) h hs (by omega)
      simp only [readInt32s, ← hhead, hrest]
      cases readInt32 b off <;> cases readInt32s b (off + 4) n <;> simp

/-- Overwriting the 4 bytes of `parents[t]` in a record changes `parents[t]` of
the decoded node and nothing else. -/
theorem parseRecord_set_parent (f : File) (node : Node) (b b' : List Byte) (y : Int) (t : Nat)
    (hlen : b.length = b'.length) (ht : (t : Int) < f.tree)
    (hag : ∀ i : Nat, ((i : Int) < 9 + 4 * t ∨ (9 : Int) + 4 * t + 4 ≤ i) → b[i]? = b'[i]?)
    (hs : slice b' (9 + 4 * t) (9 + 4 * t + 4) = some (writeInt32 y)) :
    f.parseRecord node b' =
      (f.parseRecord node b).map fun n => { n with parents := n.parents.set t (int32 y) } := by
  have h0 : b'[(0 : Nat)]? = b[(0 : Nat)]? := (hag 0 (Or.inl (by omega))).symm
  have h1 : readInt32 b' 1 = readInt32 b 1 :=
    (readInt32_congr b b' 1 hlen (fun i _ h2 => hag i (Or.inl (by omega)))).symm
  have h5 : readInt32 b' 5 = readInt32 b 5 :=
    (readInt32_congr b b' 5 hlen (fun i _ h2 => hag i (Or.inl (by omega)))).symm
  have hp := readInt32s_set b b' y hlen f.tree.toNat 9 t (by omega) hag hs (by decide)
  have hc : ∀ k, readInt32s b' (f.offsetOfV - 4 * 2) k = readInt32s b (f.offsetOfV - 4 * 2) k :=
    fun k => (readInt32s_congr b b' k hlen _
      (fun i h1 _ => hag i (Or.inr (by unfold File.offsetOfV at h1; omega)))).symm
  have hv : sliceFrom b' f.offsetOfV = sliceFrom b f.offsetOfV :=
    (sliceFrom_congr b b' _ hlen
      (fun i h1 => hag i (Or.inr (by unfold File.offsetOfV at h1; omega)))).symm
  simp only [File.parseRecord, h0, h1, h5, hp, hc, hv]
  cases b[(0 : Nat)]? with
  | none => rfl
  | some b0 =>
    cases readInt32 b 1 with
    | none => rfl
    | some d =>
      cases readInt32 b 5 with
      | none => rfl
      | some key =>
        cases make (0 : Int) f.tree with
        | none => rfl
        | some m =>
          cases readInt32s b 9 f.tree.toNat with
          | none => rfl
          | some ps =>
            simp only [Option.some_bind, Option.bind_eq_bind, Option.map_some']
            split_ifs
            · cases sliceFrom b f.offsetOfV with
              | none => rfl
              | some tl => simp only [Option.some_bind]; cases bytesToFloat64s tl <;> rfl
            · cases make (0 : Int) d with
              | none => rfl
              | some m2 => cases readInt32s b (f.offsetOfV - 4 * 2) d.toNat <;> rfl
            · cases readInt32s b (f.offsetOfV - 4 * 2) 2 with
              | none => rfl
              | some cs =>
                cases sliceFrom b f.offsetOfV with
                | none => rfl
                | some tl => simp only [Option.some_bind]; cases bytesToFloat64s tl <;> rfl

/-! ## Positional reads and writes on the backing file -/

theorem pread_full (data : List Byte) (n : Nat) (off : Int) (h0 : 0 ≤ off)
    (h : off.toNat + n ≤ data.length) :
    pread data (List.replicate n 0) off = some ((data.drop off.toNat).take n) := by
  have hl : ((data.drop off.toNat).take n).length = n := by
    simp only [List.length_take, List.length_drop]; omega
  simp only [pread, not_lt.mpr h0, if_false, List.length_replicate, hl, List.drop_replicate,
    Nat.sub_self, List.replicate_zero, List.append_nil]

theorem pwrite_eq (data buf : List Byte) (off : Int) (h0 : 0 ≤ off) (hb : buf ≠ []) :
    pwrite data buf off =
      some (data.take off.toNat ++ List.replicate (off.toNat - data.length) 0 ++ buf ++
            data.drop (off.toNat + buf.length)) := by
  simp only [pwrite, not_lt.mpr h0, if_false, hb]

theorem pwrite_in_range (data buf : List Byte) (off : Int) (h0 : 0 ≤ off) (hb : buf ≠ [])
    (h : off.toNat + buf.length ≤ data.length) :
    pwrite data buf off =
      some (data.take off.toNat ++ buf ++ data.drop (off.toNat + buf.length)) := by
  rw [pwrite_eq data buf off h0 hb]
  have : off.toNat - data.length = 0 := by omega
  simp only [this, List.replicate_zero, List.append_nil]

theorem splice_length (data buf : List Byte) (w : Nat) (h : w + buf.length ≤ data.length) :
    (data.take w ++ buf ++ data.drop (w + buf.length)).length = data.length := by
  simp only [List.length_append, List.length_take, List.length_drop]
  omega

theorem splice_getElem? (data buf : List Byte) (w : Nat) (h : w + buf.length ≤ data.length)
    (i : Nat) :
    (data.take w ++ buf ++ data.drop (w + buf.length))[i]? =
      if w ≤ i ∧ i < w + buf.length then buf[i - w]? else data[i]? := by
  have hl : (data.take w).length = w := by simp only [List.length_take]; omega
  by_cases h1 : i < w
  · rw [List.append_assoc, List.getElem?_append_left (by omega), List.getElem?_take_of_lt h1]
    simp only [show ¬ (w ≤ i ∧ i < w + buf.length) by omega, if_false]
  · by_cases h2 : i < w + buf.length
    · rw [List.getElem?_append_left (by simp only [List.length_append, hl]; omega),
        List.getElem?_append_right (by omega), hl]
      simp only [show (w ≤ i ∧ i < w + buf.length) by omega, and_self, if_true]
    · rw [List.getElem?_append_right (by simp only [List.length_append, hl]; omega),
        List.getElem?_drop]
      simp only [List.length_append, hl, show ¬ (w ≤ i ∧ i < w + buf.length) by omega, if_false]
      congr 1
      omega

/-- The record at byte offset `o`: `n` bytes of the file from `o` on. -/
theorem record_getElem? (data : List Byte) (o n i : Nat) :
    ((data.drop o).take n)[i]? = if i < n then data[o + i]? else none := by
  simp only [List.getElem?_take, List.getElem?_drop]

/-- Go's truncating division: an id below the record count names a record that
lies within the file. -/
theorem record_in_file (size ns id : Int) (hs : 0 ≤ size) (h0 : 0 ≤ id)
    (h : id < size.tdiv ns) : 0 < ns ∧ (id + 1) * ns ≤ size := by
  have hns : 0 < ns := by
    by_contra hneg
    have hle : ns ≤ 0 := by omega
    have : size.tdiv ns ≤ 0 := by
      rcases eq_or_lt_of_le hle with h0' | hlt
      · rw [h0']; simp
      · have := Int.tdiv_nonpos hs (le_of_lt hlt)
        omega
    omega
  refine ⟨hns, ?_⟩
  rw [Int.tdiv_eq_ediv hs (le_of_lt hns)] at h
  have h1 : id + 1 ≤ size / ns := by omega
  calc (id + 1) * ns ≤ (size / ns) * ns := Int.mul_le_mul_of_nonneg_right h1 (le_of_lt hns)
    _ ≤ size := Int.ediv_mul_le size (by omega)

/-- Overwriting `buf.length` bytes at position `q` of the record at offset `o`
leaves the rest of the record as it was and puts `buf` at `q`. -/
theorem splice_record (data buf : List Byte) (o ns q : Nat) (hq : q + buf.length ≤ ns)
    (hin : o + ns ≤ data.length) :
    ((data.drop o).take ns).length =
      (((data.take (o + q) ++ buf ++ data.drop (o + q + buf.length)).drop o).take ns).length ∧
    (∀ i : Nat, (i < q ∨ q + buf.length ≤ i) →
      ((data.drop o).take ns)[i]? =
        (((data.take (o + q) ++ buf ++ data.drop (o + q + buf.length)).drop o).take ns)[i]?) ∧
    ((((data.take (o + q) ++ buf ++ data.drop (o + q + buf.length)).drop o).take ns).drop q).take
      buf.length = buf := by
  have hl := splice_length data buf (o + q) (by omega)
  refine ⟨?_, ?_, ?_⟩
  · simp only [List.length_take, List.length_drop, hl]
  · intro i hi
    rw [record_getElem?, record_getElem?, splice_getElem? data buf (o + q) (by omega)]
    by_cases hins : i < ns
    · simp only [hins, if_true, show ¬ (o + q ≤ o + i ∧ o + i < o + q + buf.length) by omega,
        if_false]
    · simp only [hins, if_false]
  · apply List.ext_getElem?
    intro k
    rw [List.getElem?_take, List.getElem?_drop, record_getElem?,
      splice_getElem? data buf (o + q) (by omega)]
    by_cases hk : k < buf.length
    · simp only [hk, if_true, show q + k < ns by omega,
        show (o + q ≤ o + (q + k) ∧ o + (q + k) < o + q + buf.length) by omega, and_self]
      congr 1
      omega
    · simp only [hk, if_false]
      exact (List.getElem?_eq_none (by omega)).symm

theorem readInt32_some_bound (b : List Byte) (off : Int) (x : Int)
    (h : readInt32 b off = some x) : 0 ≤ off ∧ off + 4 ≤ b.length := by
  unfold readInt32 at h
  cases hs : slice b off (off + 4) with
  | none => rw [hs] at h; cases h
  | some s =>
    have := slice_length _ _ _ _ hs
    omega

theorem readInt32s_some_bound (b : List Byte) (n : Nat) :
    ∀ (off : Int) (xs : List Int), readInt32s b off n = some xs →
      xs.length = n ∧ (1 ≤ n → 0 ≤ off ∧ off + 4 * n ≤ b.length) := by
  induction n with
  | zero =>
    intro off xs h
    simp only [readInt32s, Option.some.injEq] at h
    subst h
    exact ⟨rfl, fun h => by omega⟩
  | succ n ih =>
    intro off xs h
    simp only [readInt32s] at h
    cases hx : readInt32 b off with
    | none => rw [hx] at h; cases h
    | some x =>
      cases hr : readInt32s b (off + 4) n with
      | none => rw [hx, hr] at h; cases h
      | some r =>
        rw [hx, hr] at h
        simp only [Option.some_bind, Option.map_some', Option.some.injEq] at h
        subst h
        have hb := readInt32_some_bound b off x hx
        have hi := ih (off + 4) r hr
        refine ⟨by simp [hi.1], fun _ => ?_⟩
        by_cases hn : 1 ≤ n
        · have := hi.2 hn
          push_cast
          omega
        · have : n = 0 := by omega
          subst this
          simp only [Nat.cast_zero, zero_add, Nat.cast_one]
          omega

/-- A record that `parseRecord` decodes holds `tree` parent slots. -/
theorem parseRecord_some_parents (f : File) (node : Node) (b : List Byte) (n : Node)
    (h : f.parseRecord node b = some n) :
    0 ≤ f.tree ∧ n.parents.length = f.tree.toNat ∧ (1 ≤ f.tree → 9 + 4 * f.tree ≤ b.length) := by
  unfold File.parseRecord at h
  cases h0 : b[(0 : Nat)]? with
  | none => rw [h0] at h; cases h
  | some b0 =>
    cases h1 : readInt32 b 1 with
    | none => rw [h0, h1] at h; cases h
    | some d =>
      cases h5 : readInt32 b 5 with
      | none => rw [h0, h1, h5] at h; cases h
      | some key =>
        cases hm : make (0 : Int) f.tree with
        | none => rw [h0, h1, h5, hm] at h; cases h
        | some m =>
          cases hp : readInt32s b 9 f.tree.toNat with
          | none => rw [h0, h1, h5, hm, hp] at h; cases h
          | some ps =>
            have ht : 0 ≤ f.tree := by
              by_contra hneg
              rw [make_eq_none 0 (by omega)] at hm
              cases hm
            have hb := readInt32s_some_bound b f.tree.toNat 9 ps hp
            rw [h0, h1, h5, hm, hp] at h
            simp only [Option.some_bind, Option.bind_eq_bind] at h
            have hps : n.parents = ps := by
              split_ifs at h
              · cases hv : sliceFrom b f.offsetOfV with
                | none => rw [hv] at h; cases h
                | some tl =>
                  rw [hv] at h
                  simp only [Option.some_bind] at h
                  cases hf : bytesToFloat64s tl with
                  | none => rw [hf] at h; cases h
                  | some v => rw [hf] at h; cases h; rfl
              · cases hmk : make (0 : Int) d with
                | none => rw [hmk] at h; cases h
                | some m2 =>
                  rw [hmk] at h
                  simp only [Option.some_bind] at h
                  cases hc : readInt32s b (f.offsetOfV - 4 * 2) d.toNat with
                  | none => rw [hc] at h; cases h
                  | some cs => rw [hc] at h; cases h; rfl
              · cases hc : readInt32s b (f.offsetOfV - 4 * 2) 2 with
                | none => rw [hc] at h; cases h
                | some cs =>
                  rw [hc] at h
                  simp only [Option.some_bind] at h
                  cases hv : sliceFrom b f.offsetOfV with
                  | none => rw [hv] at h; cases h
                  | some tl =>
                    rw [hv] at h
                    simp only [Option.some_bind] at h
                    cases hf : bytesToFloat64s tl with
                    | none => rw [hf] at h; cases h
                    | some v => rw [hf] at h; cases h; rfl
            refine ⟨ht, by rw [hps, hb.1], fun h1 => ?_⟩
            have := hb.2 (by omega)
            omega

/-! ## `Find`, step by step -/

theorem Find_eq_ok (f : File) (id : Int) (b : List Byte) (n : Node)
    (hlock : f.locker.ReadLock (f.offset id) f.nodeSize = false) (hns : 0 ≤ f.nodeSize)
    (hread : pread f.data (List.replicate f.nodeSize.toNat 0) (f.offset id) = some b)
    (hparse : f.parseRecord { Node.zero with id := id } b = some n) : f.Find id = .ok n := by
  simp only [File.Find, hlock, Bool.false_eq_true, if_false, make_eq_some (0 : Byte) hns, hread,
    hparse]

theorem Find_ok_inv (f : File) (id : Int) (n : Node) (h : f.Find id = .ok n) :
    f.locker.ReadLock (f.offset id) f.nodeSize = false ∧ 0 ≤ f.nodeSize ∧
      ∃ b, pread f.data (List.replicate f.nodeSize.toNat 0) (f.offset id) = some b ∧
        f.parseRecord { Node.zero with id := id } b = some n := by
  unfold File.Find at h
  cases hl : f.locker.ReadLock (f.offset id) f.nodeSize with
  | true => simp only [hl, if_true] at h; cases h
  | false =>
    simp only [hl, Bool.false_eq_true, if_false] at h
    by_cases hns : 0 ≤ f.nodeSize
    · rw [make_eq_some (0 : Byte) hns] at h
      simp only at h
      cases hr : pread f.data (List.replicate f.nodeSize.toNat 0) (f.offset id) with
      | none => rw [hr] at h; cases h
      | some b =>
        rw [hr] at h
        simp only at h
        cases hp : f.parseRecord { Node.zero with id := id } b with
        | none => rw [hp] at h; cases h
        | some m =>
          rw [hp] at h
          simp only [Outcome.ok.injEq] at h
          subst h
          exact ⟨rfl, hns, b, rfl, hp⟩
    · rw [make_eq_none (0 : Byte) (by omega)] at h
      cases h

theorem UpdateParent_ok_inv (f : File) (id t p : Int) (h : (f.UpdateParent id t p).2 = .ok ()) :
    ∃ data', pwrite f.data (writeInt32 (int32 p)) (f.offset id + (1 + 4 + 4 + 4 * t)) =
        some data' ∧
      (f.UpdateParent id t p).1 = { f with data := data' } := by
  unfold File.UpdateParent at h ⊢
  cases hl : f.locker.WriteLock (f.offset id + (1 + 4 + 4 + 4 * t)) 4 with
  | true => simp only [hl, if_true] at h; cases h
  | false =>
    simp only [hl, Bool.false_eq_true, if_false] at h ⊢
    cases hw : pwrite f.data (writeInt32 (int32 p)) (f.offset id + (1 + 4 + 4 + 4 * t)) with
    | none => rw [hw] at h; cases h
    | some data' => exact ⟨data', rfl, rfl⟩

/-- The core of the isolation of `UpdateParent`: on an existing record that
`Find` decodes, a successful `UpdateParent(id, t, p)` with `0 <= t < tree`
rewrites the 4 bytes of `parents[t]` only. -/
theorem UpdateParent_core (f : File) (id t p c : Int) (n : Node)
    (hc : f.nodeCount = some c) (hid0 : 0 ≤ id) (hid : id < c) (ht0 : 0 ≤ t) (ht : t < f.tree)
    (hfind : f.Find id = .ok n) (hok : (f.UpdateParent id t p).2 = .ok ()) :
    (f.UpdateParent id t p).1.Find id =
        .ok { n with parents := n.parents.set t.toNat (int32 p) } ∧
      t.toNat < n.parents.length ∧ 9 + 4 * t + 4 ≤ f.nodeSize ∧
      (f.UpdateParent id t p).1.data.length = f.data.length ∧
      ∀ i : Nat, ((i : Int) < f.offset id + 9 + 4 * t ∨ f.offset id + 9 + 4 * t + 4 ≤ i) →
        (f.UpdateParent id t p).1.data[i]? = f.data[i]? := by
  obtain ⟨hlock, hns, b, hread, hparse⟩ := Find_ok_inv f id n hfind
  obtain ⟨data', hw, hf'⟩ := UpdateParent_ok_inv f id t p hok
  obtain ⟨-, hplen, hpb⟩ := parseRecord_some_parents f _ b n hparse
  rw [nodeCount_eq] at hc
  simp only [Option.some.injEq] at hc
  subst hc
  obtain ⟨hpos, hin⟩ := record_in_file f.size f.nodeSize id (by simp [File.size]) hid0 hid
  -- natural-number views of the offsets
  have hoff : 0 ≤ f.offset id := by unfold File.offset; positivity
  have hsz : (f.offset id).toNat + f.nodeSize.toNat ≤ f.data.length := by
    have : f.offset id + f.nodeSize ≤ f.data.length := by
      have e : f.offset id + f.nodeSize = (id + 1) * f.nodeSize := by unfold File.offset; ring
      rw [e]; exact hin
    omega
  rw [pread_full f.data _ _ hoff hsz] at hread
  simp only [Option.some.injEq] at hread
  have hb : (b.length : Int) = f.nodeSize := by
    rw [← hread]; simp only [List.length_take, List.length_drop]; omega
  have hq : 9 + 4 * t + 4 ≤ f.nodeSize := by
    have := hpb (by omega)
    omega
  have hwoff : (f.offset id + (1 + 4 + 4 + 4 * t)).toNat = (f.offset id).toNat + (9 + 4 * t.toNat) := by
    omega
  have hbuf : (writeInt32 (int32 p)) ≠ [] := by simp [writeInt32, putUint32]
  rw [pwrite_in_range _ _ _ (by omega) hbuf (by rw [hwoff, length_writeInt32]; omega), hwoff] at hw
  simp only [Option.some.injEq] at hw
  obtain ⟨h1, h2, h3⟩ := splice_record f.data (writeInt32 (int32 p)) (f.offset id).toNat
    f.nodeSize.toNat (9 + 4 * t.toNat) (by rw [length_writeInt32]; omega) hsz
  rw [hw] at h1 h2 h3
  rw [hread] at h1 h2
  rw [hf']
  have hlen' : data'.length = f.data.length := by
    rw [← hw]; exact splice_length _ _ _ (by rw [length_writeInt32]; omega)
  have hread' : pread data' (List.replicate f.nodeSize.toNat 0) (f.offset id) =
      some ((data'.drop (f.offset id).toNat).take f.nodeSize.toNat) :=
    pread_full data' _ _ hoff (by omega)
  have hslice : slice ((data'.drop (f.offset id).toNat).take f.nodeSize.toNat)
      (9 + 4 * (t.toNat : Int)) (9 + 4 * (t.toNat : Int) + 4) = some (writeInt32 (int32 p)) := by
    have e1 : (9 : Int) + 4 * (t.toNat : Int) = ((9 + 4 * t.toNat : Nat) : Int) := by
      push_cast; rfl
    have e2 : (9 : Int) + 4 * (t.toNat : Int) + 4 = ((9 + 4 * t.toNat + 4 : Nat) : Int) := by
      push_cast; rfl
    rw [e2, e1, slice_nat _ _ _ (by omega) (by rw [← h1]; omega)]
    simp only [Nat.add_sub_cancel_left]
    rw [length_writeInt32] at h3
    rw [h3]
  have hparse' := parseRecord_set_parent f { Node.zero with id := id } b _ (int32 p) t.toNat
    h1 (by omega) (fun i hi => h2 i (by rw [length_writeInt32]; omega)) hslice
  rw [hparse, Option.map_some', int32_int32] at hparse'
  refine ⟨Find_eq_ok { f with data := data' } id _ _ hlock hns hread' hparse', by omega, hq,
    hlen', fun i hi => ?_⟩
  rw [← hw, splice_getElem? _ _ _ (by rw [length_writeInt32]; omega)]
  rw [length_writeInt32]
  have : ¬ ((f.offset id).toNat + (9 + 4 * t.toNat) ≤ i ∧
      i < (f.offset id).toNat + (9 + 4 * t.toNat) + 4) := by omega
  simp only [this, if_false]

/-! ## `Update`, step by step -/

theorem pwrite_isSome (data buf : List Byte) (off : Int) (h0 : 0 ≤ off) :
    ∃ data', pwrite data buf off = some data' := by
  unfold pwrite
  simp only [not_lt.mpr h0, if_false]
  split <;> exact ⟨_, rfl⟩

theorem pwrite_length (data buf data' : List Byte) (off : Int)
    (h : pwrite data buf off = some data') (hin : off.toNat + buf.length ≤ data.length) :
    data'.length = data.length := by
  unfold pwrite at h
  split at h
  · cases h
  · split at h
    · cases h; rfl
    · cases h
      simp only [List.length_append, List.length_take, List.length_drop, List.length_replicate]
      omega

/-- After a positional write of `buf` at `off`, a read of `buf.length` bytes at
`off` returns `buf`, also when the write extended the file. -/
theorem pread_pwrite (data buf data' : List Byte) (off : Int) (h0 : 0 ≤ off)
    (h : pwrite data buf off = some data') :
    pread data' (List.replicate buf.length 0) off = some buf := by
  by_cases hb : buf = []
  · subst hb
    simp [pread, not_lt.mpr h0]
  · rw [pwrite_eq data buf off h0 hb] at h
    simp only [Option.some.injEq] at h
    have hpre : (data.take off.toNat ++ List.replicate (off.toNat - data.length) 0).length =
        off.toNat := by
      simp only [List.length_append, List.length_take, List.length_replicate]; omega
    have hdrop : data'.drop off.toNat = buf ++ data.drop (off.toNat + buf.length) := by
      rw [← h, List.append_assoc, List.append_assoc, ← List.append_assoc (List.take _ _)]
      exact List.drop_left' hpre
    rw [pread_full data' _ _ h0 (by
      rw [← h]; simp only [List.length_append, List.length_take, List.length_replicate,
        List.length_drop]; omega)]
    rw [hdrop, List.take_left' rfl]

theorem Update_ok_inv (f : File) (n : Node) (h : (f.Update n).2 = .ok ()) :
    ∃ buf data', f.nodeToBuf n = some buf ∧ pwrite f.data buf (f.offset n.id) = some data' ∧
      f.Update n = ({ f with data := data' }, .ok ()) := by
  unfold File.Update at h ⊢
  cases hb : f.nodeToBuf n with
  | none => rw [hb] at h; cases h
  | some buf =>
    simp only [hb] at h ⊢
    cases hl : f.locker.WriteLock (f.offset n.id) f.nodeSize with
    | true => simp only [hl, if_true] at h; cases h
    | false =>
      simp only [hl, Bool.false_eq_true, if_false] at h ⊢
      cases hw : pwrite f.data buf (f.offset n.id) with
      | none => rw [hw] at h; cases h
      | some data' => exact ⟨buf, data', rfl, hw, rfl⟩

theorem wellFormed_dim_nonneg (f : File) (n : Node) (h : f.WellFormed n) : 0 ≤ f.dim := by
  obtain ⟨-, -, -, -, -, hshape⟩ := h
  split_ifs at hshape <;> omega

/-- A successful `Update` of a well-formed node followed by a `Find` of its id
returns the node as the record keeps it. -/
theorem Update_then_Find (f : File) (n : Node) (hwf : f.WellFormed n) (hid : 0 ≤ n.id)
    (hok : (f.Update n).2 = .ok ())
    (hlock : f.locker.ReadLock (f.offset n.id) f.nodeSize = false) :
    (f.Update n).1.Find n.id = .ok (n.persisted f.K) := by
  obtain ⟨buf, data', hbuf, hw, hup⟩ := Update_ok_inv f n hok
  obtain ⟨buf', hbuf', hparse⟩ := roundtrip_core f { Node.zero with id := n.id } n hwf
  rw [hbuf] at hbuf'
  cases hbuf'
  have hd := wellFormed_dim_nonneg f n hwf
  have hlen : (buf.length : Int) = f.nodeSize := by
    rw [nodeToBuf_length f n buf hbuf, hwf.2.2.2.2.1, File.nodeSize]
  have hns : 0 ≤ f.nodeSize := by omega
  have hoff : 0 ≤ f.offset n.id := by unfold File.offset; positivity
  have hread := pread_pwrite f.data buf data' (f.offset n.id) hoff hw
  have e : buf.length = f.nodeSize.toNat := by omega
  rw [e] at hread
  rw [hup]
  exact Find_eq_ok { f with data := data' } n.id buf _ hlock hns hread hparse

/-! ## C1: round trip of the record codec -/

/-- C1 (as stated, refuted): the round trip does not hold for every node. In the
store `exStore` (1 tree, dim 1, K 3) it fails for a leaf whose key is `2^31`
(decoded as `-2^31`), for a leaf whose children are `[3, 4]` (decoded as
`[0, 0]`), for an internal node with a single child (decoded with two), for an
internal node without vector (decoded with `dim` zero components), for a
bucket of 3 with 2 children (decoded with three) and for a node with two
parents (one is decoded); in `exWideK` (K 5 > 2*dim + 2) encoding a bucket
panics. -/
theorem C1_roundtrip_counterexample :
    exStore.decodeEncoded { exLeaf with key := 2147483648 } =
        some { exLeaf with key := -2147483648 } ∧
    exStore.decodeEncoded { exLeaf with children := [3, 4] } = some exLeaf ∧
    exStore.decodeEncoded { exInternal with children := [1] } =
        some { exInternal with children := [1, 0] } ∧
    exStore.decodeEncoded { exInternal with v := [] } = some { exInternal with v := [0] } ∧
    exStore.decodeEncoded { exBucket3 with children := [4, 5] } =
        some { exBucket3 with children := [4, 5, 0] } ∧
    exStore.decodeEncoded { exLeaf with parents := [2, 3] } ≠
        some (Node.persisted { exLeaf with parents := [2, 3] } exStore.K) ∧
    exWideK.decodeEncoded exBucket3 = none := by
  decide

/-- C1 (amended): for every well-formed node `n` (integer fields within 32
bits, one parent per tree, and the shape of a leaf, a bucket or an internal
node), decoding the bytes `nodeToBuf` produces for `n` gives back `free`,
`nDescendants`, `key`, `parents`, `children` and `v` of `n`, except that the
decoded `v` of a bucket is absent. -/
theorem C1_roundtrip_wellformed (f : File) (n : Node) (h : f.WellFormed n) :
    f.decodeEncoded n = some (n.persisted f.K) := by
  obtain ⟨buf, hbuf, hparse⟩ := roundtrip_core f { Node.zero with id := n.id } n h
  simp only [File.decodeEncoded, hbuf, Option.some_bind, Node.persisted]
  exact hparse

/-- C1 witness: the bucket `exBucket` of `exStore` is well formed and is decoded
without its vector. -/
theorem C1_roundtrip_witness :
    exStore.WellFormed exBucket ∧
      exStore.decodeEncoded exBucket = some { exBucket with v := [] } :=
  ⟨by decide, C1_roundtrip_wellformed exStore exBucket (by decide)⟩

/-! ## C2: uniform record size -/

/-- C2 (as stated, refuted): in the store `exWideK` (1 tree, dim 1, K 5) the
bucket `exBucket3`, whose parents have length `treeCount`, makes `nodeToBuf`
panic on the negative padding length, so no record of `nodeSize` bytes is
written. -/
theorem C2_record_size_counterexample :
    (exBucket3.parents.length : Int) = exWideK.tree ∧ exBucket3.isBucket exWideK.K = true ∧
      exWideK.nodeToBuf exBucket3 = none := by
  decide

/-- C2 (amended): for every configuration and every node with `treeCount`
parents that `nodeToBuf` encodes without a panic (a bucket with at most `K`
children where `K <= 2*dim + 2`, any other node with at most 2 children and at
most `dim` vector components), `nodeToBuf` writes the header followed by a
tail of `2*4 + 8*dim` bytes, `nodeSize` bytes in all, whatever the kind. -/
theorem C2_record_size_encodable (f : File) (n : Node)
    (hp : (n.parents.length : Int) = f.tree) (he : f.Encodable n) :
    ∃ tail, f.nodeToBuf n = some (recordHead n ++ tail) ∧
      (tail.length : Int) = 2 * 4 + 8 * f.dim ∧
      ((recordHead n ++ tail).length : Int) = 1 + 4 + 4 + 4 * f.tree + 4 * 2 + 8 * f.dim ∧
      ((recordHead n ++ tail).length : Int) = f.nodeSize := by
  obtain ⟨tail, h1, h2⟩ := nodeToBuf_head_tail f n he
  refine ⟨tail, h1, h2, ?_, ?_⟩
  · rw [List.length_append, length_recordHead]; push_cast; omega
  · rw [List.length_append, length_recordHead, File.nodeSize]; push_cast; omega

/-- C2 witness: the bucket `exBucket3` of `exStore` (K 3) takes 29 bytes. -/
theorem C2_record_size_witness :
    ∃ tail, exStore.nodeToBuf exBucket3 = some (recordHead exBucket3 ++ tail) ∧
      (tail.length : Int) = 2 * 4 + 8 * exStore.dim ∧
      ((recordHead exBucket3 ++ tail).length : Int) =
        1 + 4 + 4 + 4 * exStore.tree + 4 * 2 + 8 * exStore.dim ∧
      ((recordHead exBucket3 ++ tail).length : Int) = exStore.nodeSize :=
  C2_record_size_encodable exStore exBucket3 (by decide) (by decide)

/-! ## C3: dense ids under serialized creation -/

/-- C3 (as stated, refuted): on the empty store `exWideK` (1 tree, dim 1, K 5)
the first `create`, of the bucket `exBucket3` whose parents have length
`treeCount`, panics inside `nodeToBuf` and returns no id. -/
theorem C3_dense_ids_counterexample :
    exWideK.data = [] ∧ (exBucket3.parents.length : Int) = exWideK.tree ∧
      (exWideK.create exBucket3).2 = .panicked ∧
      (exWideK.createAll [exBucket3]).isNone = true := by
  decide

/-- C3 (amended): starting from an empty store file, for every sequence of
nodes that have `treeCount` parents and that `nodeToBuf` encodes without a
panic, the `i`-th `create` returns id `i` and the record count afterwards is
the number of nodes; and in every store state a `create` of such a node
returns the record count before its append, the count after it being that id
plus one. -/
theorem C3_dense_ids_encodable (f : File) (ns : List Node) (h0 : f.data = [])
    (h : ∀ n ∈ ns, (n.parents.length : Int) = f.tree ∧ f.Encodable n) :
    (∃ g, f.createAll ns = some (g, (List.range ns.length).map fun (i : Nat) => (i : Int)) ∧
      g.nodeCount = some (ns.length : Int)) ∧
    (∀ (s : File) (n : Node), (n.parents.length : Int) = s.tree → s.Encodable n →
      ∃ id, s.nodeCount = some id ∧ (s.create n).2 = .ok id ∧
        (s.create n).1.nodeCount = some (id + 1)) := by
  constructor
  · obtain ⟨data', hall, hlen, hpos⟩ := createAll_from ns f h
    have hz : f.size.tdiv f.nodeSize = 0 := by simp [File.size, h0]
    refine ⟨{ f with data := data' }, ?_, ?_⟩
    · rw [hall, hz]; simp
    · rw [nodeCount_eq]
      have hs : File.size { f with data := data' } = ns.length * f.nodeSize := by
        simp only [File.size, hlen, h0, List.length_nil, Nat.cast_zero, zero_add]
      have hns : File.nodeSize { f with data := data' } = f.nodeSize := rfl
      rw [hs, hns, Int.mul_tdiv_cancel _ (nodeSize_ne_zero f)]
  · intro s n hp he
    obtain ⟨buf, hlen, hpos, hc⟩ := create_step s n hp he
    refine ⟨s.size.tdiv s.nodeSize, nodeCount_eq s, by rw [hc], ?_⟩
    rw [hc, nodeCount_eq]
    have hsz : File.size { s with data := s.data ++ buf } = s.size + s.nodeSize := by
      simp only [File.size, List.length_append, Nat.cast_add, hlen]
    have hns : File.nodeSize { s with data := s.data ++ buf } = s.nodeSize := rfl
    simp only [hsz, hns, tdiv_add_self s.size s.nodeSize (by simp [File.size]) hpos]

/-- C3 witness: creating a leaf, a bucket and an internal node in the empty
store `exStore` returns the ids 0, 1, 2. -/
theorem C3_dense_ids_witness :
    (∃ g, exStore.createAll [exLeaf, exBucket, exInternal] =
        some (g, (List.range 3).map fun (i : Nat) => (i : Int)) ∧
      g.nodeCount = some (3 : Int)) :=
  (C3_dense_ids_encodable exStore [exLeaf, exBucket, exInternal] rfl (by decide)).1

/-! ## C4: isolation of `UpdateParent` -/

/-- C4: for every store state, every existing id, every tree index
`0 <= t < treeCount` and every parent `p`, after a successful
`UpdateParent(id, t, p)` a `Find(id)` returns `parents[t] = int32(p)` and the
same `free`, `nDescendants`, `key`, `children`, `v` and other parents as the
`Find(id)` before the call returned; the file keeps its length and the bytes
of every other record (indeed every byte outside the 4 bytes written) are
unchanged. -/
theorem C4_updateParent_isolation (f : File) (id t p c : Int) (n : Node)
    (hc : f.nodeCount = some c) (hid0 : 0 ≤ id) (hid : id < c) (ht0 : 0 ≤ t) (ht : t < f.tree)
    (hfind : f.Find id = .ok n) (hok : (f.UpdateParent id t p).2 = .ok ()) :
    ∃ n', (f.UpdateParent id t p).1.Find id = .ok n' ∧
      n'.parents[t.toNat]? = some (int32 p) ∧
      n'.free = n.free ∧ n'.nDescendants = n.nDescendants ∧ n'.key = n.key ∧
      n'.children = n.children ∧ n'.v = n.v ∧ n'.parents.length = n.parents.length ∧
      (∀ u : Nat, u ≠ t.toNat → n'.parents[u]? = n.parents[u]?) ∧
      (f.UpdateParent id t p).1.data.length = f.data.length ∧
      (∀ i : Nat, ((i : Int) < f.offset id + 9 + 4 * t ∨ f.offset id + 9 + 4 * t + 4 ≤ i) →
        (f.UpdateParent id t p).1.data[i]? = f.data[i]?) ∧
      (∀ i : Nat, ¬ (f.offset id ≤ i ∧ (i : Int) < f.offset id + f.nodeSize) →
        (f.UpdateParent id t p).1.data[i]? = f.data[i]?) := by
  obtain ⟨h1, h2, h3, h4, h5⟩ := UpdateParent_core f id t p c n hc hid0 hid ht0 ht hfind hok
  refine ⟨_, h1, ?_, rfl, rfl, rfl, rfl, rfl, ?_, ?_, h4, h5, fun i hi => h5 i ?_⟩
  · simp only [List.getElem?_set, h2, if_true]
  · simp only [List.length_set]
  · intro u hu
    simp only [List.getElem?_set, Ne.symm hu, if_false]
  · omega

/-- C4 witness: in `exStore3` (three records, count 3), where `Find(1)` returns
the bucket with parents `[2]`, a `Find(1)` after `UpdateParent(1, 0, 5)` returns
a node whose `parents[0]` is 5 and whose other fields are those of the bucket. -/
theorem C4_updateParent_isolation_witness :
    ∃ n', (exStore3.UpdateParent 1 0 5).1.Find 1 = .ok n' ∧
      n'.parents[(0 : Int).toNat]? = some (int32 5) ∧ n'.children = [0, 3] ∧ n'.v = [] :=
  (C4_updateParent_isolation exStore3 1 0 5 3 { exBucket with v := [] } (by decide)
    (by decide) (by decide) (by decide) (by decide) (by decide) (by decide)).imp
    fun _ h => ⟨h.1, h.2.1, h.2.2.2.2.2.1, h.2.2.2.2.2.2.1⟩

/-! ## C6: the node count under `Update` and `UpdateParent` -/

theorem nodeCount_of_length (f g : File) (ht : g.tree = f.tree) (hd : g.dim = f.dim)
    (hl : g.data.length = f.data.length) : g.nodeCount = f.nodeCount := by
  simp only [nodeCount_eq, File.size, File.nodeSize, ht, hd, hl]

/-- A positional write that ends within the file leaves the node count as it is. -/
theorem Update_nodeCount (f : File) (n : Node) (c : Int) (hc : f.nodeCount = some c)
    (hid0 : 0 ≤ n.id) (hid : n.id < c) (hp : (n.parents.length : Int) = f.tree) :
    (f.Update n).1.nodeCount = some c := by
  rw [← hc]
  rw [nodeCount_eq] at hc
  simp only [Option.some.injEq] at hc
  subst hc
  obtain ⟨hpos, hin⟩ := record_in_file f.size f.nodeSize n.id (by simp [File.size]) hid0 hid
  unfold File.Update
  cases hb : f.nodeToBuf n with
  | none => rfl
  | some buf =>
    simp only
    split
    · rfl
    · cases hw : pwrite f.data buf (f.offset n.id) with
      | none => rfl
      | some data' =>
        have hlen : (buf.length : Int) = f.nodeSize := by
          rw [nodeToBuf_length f n buf hb, hp, File.nodeSize]
        have hoff : 0 ≤ f.offset n.id := by unfold File.offset; positivity
        have hsz : f.offset n.id + f.nodeSize ≤ f.data.length := by
          have e : f.offset n.id + f.nodeSize = (n.id + 1) * f.nodeSize := by
            unfold File.offset; ring
          rw [e]; exact hin
        exact nodeCount_of_length f _ rfl rfl
          (pwrite_length f.data buf data' _ hw (by omega))

theorem UpdateParent_nodeCount (f : File) (id t p c : Int) (hc : f.nodeCount = some c)
    (hid0 : 0 ≤ id) (hid : id < c) (ht0 : 0 ≤ t) (ht : t < f.tree) (hd : 0 ≤ f.dim) :
    (f.UpdateParent id t p).1.nodeCount = some c := by
  rw [← hc]
  rw [nodeCount_eq] at hc
  simp only [Option.some.injEq] at hc
  subst hc
  obtain ⟨hpos, hin⟩ := record_in_file f.size f.nodeSize id (by simp [File.size]) hid0 hid
  unfold File.UpdateParent
  simp only
  split
  · rfl
  · cases hw : pwrite f.data (writeInt32 (int32 p)) (f.offset id + (1 + 4 + 4 + 4 * t)) with
    | none => rfl
    | some data' =>
      have hoff : 0 ≤ f.offset id := by unfold File.offset; positivity
      have hsz : f.offset id + f.nodeSize ≤ f.data.length := by
        have e : f.offset id + f.nodeSize = (id + 1) * f.nodeSize := by
          unfold File.offset; ring
        rw [e]; exact hin
      have hq : 9 + 4 * t + 4 ≤ f.nodeSize := by unfold File.nodeSize; omega
      exact nodeCount_of_length f _ rfl rfl
        (pwrite_length f.data _ data' _ hw (by rw [length_writeInt32]; omega))

/-- C6 (as stated, refuted): on the empty store `exStore` (node count 0),
`Update` of the leaf with id 0 and `UpdateParent(1, 0, 5)` both write past the
end of the file and leave a node count of 1. -/
theorem C6_node_count_counterexample :
    exStore.nodeCount = some 0 ∧ (exStore.Update exLeaf).1.nodeCount = some 1 ∧
      (exStore.UpdateParent 1 0 5).1.nodeCount = some 1 := by
  decide

/-- C6 (amended): `Find` writes nothing (it returns no new store), and for every
store state with node count `c`, `Update(n)` of a node with `treeCount` parents
whose id is an existing record (`0 <= n.id < c`) and `UpdateParent(id, t, p)`
on an existing id with `0 <= t < treeCount` (and `dim >= 0`) leave the node
count at `c`, whether the call succeeds, fails or panics. -/
theorem C6_node_count_existing (f : File) (c : Int) (hc : f.nodeCount = some c) :
    (∀ n : Node, 0 ≤ n.id → n.id < c → (n.parents.length : Int) = f.tree →
      (f.Update n).1.nodeCount = some c) ∧
    (∀ id t p : Int, 0 ≤ id → id < c → 0 ≤ t → t < f.tree → 0 ≤ f.dim →
      (f.UpdateParent id t p).1.nodeCount = some c) :=
  ⟨fun n h0 h1 hp => Update_nodeCount f n c hc h0 h1 hp,
   fun id t p h0 h1 ht0 ht hd => UpdateParent_nodeCount f id t p c hc h0 h1 ht0 ht hd⟩

/-- C6 witness: in `exStore3` (node count 3) rewriting record 1 and setting
`parents[0]` of record 2 keep the count at 3. -/
theorem C6_node_count_witness :
    exStore3.nodeCount = some 3 ∧ (exStore3.Update exBucket).1.nodeCount = some 3 ∧
      (exStore3.UpdateParent 2 0 1).1.nodeCount = some 3 :=
  ⟨by decide,
   (C6_node_count_existing exStore3 3 (by decide)).1 exBucket (by decide) (by decide)
     (by decide),
   (C6_node_count_existing exStore3 3 (by decide)).2 2 0 1 (by decide) (by decide) (by decide)
     (by decide) (by decide)⟩

/-! ## C5: `Delete` is a full overwrite -/

/-- C5 (as stated, refuted): in `exStore3`, whose ids 0, 1, 2 exist, a `Find`
after `Delete` does not return every field of the node passed in: the vector
of the bucket `exBucket` (id 1) is lost, a key `2^31` of a leaf comes back as
`-2^31`, and children `[3, 4]` of a leaf come back as `[0, 0]`. -/
theorem C5_delete_counterexample :
    exStore3.nodeCount = some 3 ∧
    exBucket.v = [4607182418800017408] ∧
    (exStore3.Delete exBucket).1.Find 1 = .ok { exBucket with free := true, v := [] } ∧
    (exStore3.Delete { exLeaf with key := 2147483648 }).1.Find 0 =
      .ok { exLeaf with free := true, key := -2147483648 } ∧
    (exStore3.Delete { exLeaf with children := [3, 4] }).1.Find 0 =
      .ok { exLeaf with free := true } := by
  decide

/-- C5 (amended): `Delete(n)` leaves the file in exactly the state `Update` of
`n` with `free` set leaves it; and when `n` is a well-formed node whose id is
an existing record and neither the write nor the read lock fails, a
`Find(n.id)` after `Delete(n)` returns `free = true` and `nDescendants`, `key`,
`parents`, `children` and `v` as they were in `n` at call time, not as they
were stored, except that the `v` of a bucket comes back absent; the record
count stays what it was. -/
theorem C5_delete_overwrite (f : File) (n : Node) (c : Int) (hwf : f.WellFormed n)
    (hc : f.nodeCount = some c) (hid0 : 0 ≤ n.id) (hid : n.id < c)
    (hok : (f.Delete n).2 = .ok ())
    (hlock : f.locker.ReadLock (f.offset n.id) f.nodeSize = false) :
    f.Delete n = f.Update { n with free := true } ∧
      (f.Delete n).1.Find n.id =
        .ok { n with free := true, v := if n.isBucket f.K then [] else n.v } ∧
      (f.Delete n).1.nodeCount = some c :=
  ⟨rfl, Update_then_Find f { n with free := true } hwf hid0 hok hlock,
    Update_nodeCount f { n with free := true } c hc hid0 hid hwf.2.2.2.2.1⟩

/-- C5 witness: `exStore3` holds the internal node `exInternal` under id 2;
deleting the leaf `exOverwrite`, which carries the id 2 and other field values,
makes `Find(2)` return the fields of `exOverwrite` with `free` set. -/
theorem C5_delete_overwrite_witness :
    exStore3.Find 2 = .ok exInternal ∧
    (exStore3.Delete exOverwrite).1.Find 2 =
      .ok { exOverwrite with free := true,
                             v := if exOverwrite.isBucket exStore3.K then []
                                  else exOverwrite.v } ∧
    (exStore3.Delete exOverwrite).1.Find 2 =
      .ok { id := 2, free := true, nDescendants := 1, key := 9, parents := [1],
            children := [0, 0], v := [4613937818241073152] } :=
  ⟨by decide,
   (C5_delete_overwrite exStore3 exOverwrite 3 (by decide) (by decide) (by decide) (by decide)
      (by decide) (by decide)).2.1,
   by decide⟩

/-! ## C7: header and non-bucket layout -/

theorem getElem_append_replicate {α : Type} (xs : List α) (k i : Nat) (d : α)
    (h : i < (xs ++ List.replicate k d).length) :
    (xs ++ List.replicate k d)[i] = (xs[i]?).getD d := by
  by_cases hi : i < xs.length
  · rw [List.getElem_append_left hi, List.getElem?_eq_getElem hi]; rfl
  · rw [List.getElem_append_right (by omega), List.getElem_replicate,
      List.getElem?_eq_none (by omega)]; rfl

theorem writeInt32_int32 (x : Int) : writeInt32 (int32 x) = be32 x := by
  simp only [writeInt32, be32, uint32_int32]

/-- The header bytes, in front of any continuation. -/
theorem head_layout (n : Node) (rest : List Byte) :
    (recordHead n ++ rest)[(0 : Nat)]? = some (if n.free then 1 else 0) ∧
    slice (recordHead n ++ rest) 1 5 = some (be32 n.nDescendants) ∧
    slice (recordHead n ++ rest) 5 9 = some (be32 n.key) ∧
    ∀ (t : Nat) (ht : t < n.parents.length),
      slice (recordHead n ++ rest) (9 + 4 * t) (9 + 4 * t + 4) = some (be32 n.parents[t]) := by
  refine ⟨head_getElem_zero n rest, ?_, ?_, fun t ht => ?_⟩
  · rw [head_slice_nDescendants, writeInt32_int32]
  · rw [head_slice_key, writeInt32_int32]
  · rw [head_slice_parent n rest t ht, writeInt32_int32]

/-- The tail of a non-bucket record: two child slots, then `dim` vector slots. -/
theorem plain_tail_layout (f : File) (n : Node) (hb : n.isBucket f.K = false)
    (hc : n.children.length ≤ 2) (hv : (n.v.length : Int) ≤ f.dim) :
    ∃ buf, f.nodeToBuf n = some buf ∧
      (buf.length : Int) = 9 + 4 * n.parents.length + 8 + 8 * f.dim ∧
      slice buf (9 + 4 * n.parents.length) (9 + 4 * n.parents.length + 4) =
        some (be32 ((n.children[0]?).getD 0)) ∧
      slice buf (9 + 4 * n.parents.length + 4) (9 + 4 * n.parents.length + 4 + 4) =
        some (be32 ((n.children[1]?).getD 0)) ∧
      ∀ j : Nat, (j : Int) < f.dim →
        slice buf (9 + 4 * n.parents.length + 8 + 8 * j)
            (9 + 4 * n.parents.length + 8 + 8 * j + 8) =
          some (putUint64 ((n.v[j]?).getD 0).val) := by
  have hd : 0 ≤ f.dim := by omega
  have hcl : (n.children.map int32 ++ List.replicate (2 - n.children.length) 0).length = 2 := by
    simp only [List.length_append, List.length_map, List.length_replicate]; omega
  have hvl : (n.v ++ List.replicate (f.dim.toNat - n.v.length) 0).length = f.dim.toNat := by
    simp only [List.length_append, List.length_replicate]; omega
  have hchild : ∀ (i : Nat)
      (hi : i < (n.children.map int32 ++ List.replicate (2 - n.children.length) 0).length),
      (n.children.map int32 ++ List.replicate (2 - n.children.length) 0)[i] =
        int32 ((n.children[i]?).getD 0) := by
    intro i hi
    rw [getElem_append_replicate, List.getElem?_map]
    cases n.children[i]? <;> rfl
  have h0 : 0 < (n.children.map int32 ++ List.replicate (2 - n.children.length) 0).length := by
    rw [hcl]; omega
  have h1 : 1 < (n.children.map int32 ++ List.replicate (2 - n.children.length) 0).length := by
    rw [hcl]; omega
  refine ⟨_, nodeToBuf_plain f n hb hc hv, ?_, ?_, ?_, fun j hj => ?_⟩
  · simp only [List.length_append, length_recordHead, length_writeInt32s, length_writeFloat64s,
      hcl, hvl]
    push_cast
    omega
  · have := slice_writeInt32s (recordHead n) (writeFloat64s (n.v ++
      List.replicate (f.dim.toNat - n.v.length) 0)) _ 0 h0
      (9 + 4 * n.parents.length) (by rw [length_recordHead]; push_cast; ring)
    rw [this, hchild 0 h0, writeInt32_int32]
  · have := slice_writeInt32s (recordHead n) (writeFloat64s (n.v ++
      List.replicate (f.dim.toNat - n.v.length) 0)) _ 1 h1
      (9 + 4 * n.parents.length + 4) (by rw [length_recordHead]; push_cast; ring)
    rw [this, hchild 1 h1, writeInt32_int32]
  · have hj' : j < (n.v ++ List.replicate (f.dim.toNat - n.v.length) 0).length := by
      rw [hvl]; omega
    have := slice_writeFloat64s
      (recordHead n ++ writeInt32s (n.children.map int32 ++
        List.replicate (2 - n.children.length) 0)) [] _ j hj'
      (9 + 4 * n.parents.length + 8 + 8 * j) (by
        simp only [List.length_append, length_recordHead, length_writeInt32s, hcl]
        push_cast; ring)
    rw [List.append_nil] at this
    rw [this, getElem_append_replicate]

/-- C7 (as stated, refuted): in `exStore` (dim 1) a non-bucket node with three
children, or with two vector components, makes `nodeToBuf` panic: no tail of
two child slots and `dim` vector slots is written. -/
theorem C7_layout_counterexample :
    Node.isBucket { exInternal with children := [1, 3, 5] } exStore.K = false ∧
    exStore.nodeToBuf { exInternal with children := [1, 3, 5] } = none ∧
    exStore.nodeToBuf { exLeaf with v := [4607182418800017408, 0] } = none := by
  decide

/-- C7 (amended): for every node the header `nodeToBuf` writes first has byte 0
equal to 1 if `free` else 0, bytes 1..4 the big-endian two's-complement 32-bit
value of `nDescendants`, bytes 5..8 that of `key`, and bytes `9+4t .. 9+4t+3`
that of `parents[t]`, and every buffer `nodeToBuf` returns starts with this
header; for a non-bucket node with at most 2 children and at most `dim` vector
components `nodeToBuf` returns a buffer in which the next 8 bytes are
`children[0]` and `children[1]` (zero where absent) followed by `dim` 8-byte
big-endian patterns of `v` (zero where absent). -/
theorem C7_layout (f : File) (n : Node) :
    (∀ rest : List Byte,
      (recordHead n ++ rest)[(0 : Nat)]? = some (if n.free then 1 else 0) ∧
      slice (recordHead n ++ rest) 1 5 = some (be32 n.nDescendants) ∧
      slice (recordHead n ++ rest) 5 9 = some (be32 n.key) ∧
      ∀ (t : Nat) (ht : t < n.parents.length),
        slice (recordHead n ++ rest) (9 + 4 * t) (9 + 4 * t + 4) = some (be32 n.parents[t])) ∧
    (∀ buf, f.nodeToBuf n = some buf → ∃ tail, buf = recordHead n ++ tail) ∧
    (n.isBucket f.K = false → n.children.length ≤ 2 → (n.v.length : Int) ≤ f.dim →
      ∃ buf, f.nodeToBuf n = some buf ∧
        (buf.length : Int) = 9 + 4 * n.parents.length + 8 + 8 * f.dim ∧
        slice buf (9 + 4 * n.parents.length) (9 + 4 * n.parents.length + 4) =
          some (be32 ((n.children[0]?).getD 0)) ∧
        slice buf (9 + 4 * n.parents.length + 4) (9 + 4 * n.parents.length + 4 + 4) =
          some (be32 ((n.children[1]?).getD 0)) ∧
        ∀ j : Nat, (j : Int) < f.dim →
          slice buf (9 + 4 * n.parents.length + 8 + 8 * j)
              (9 + 4 * n.parents.length + 8 + 8 * j + 8) =
            some (putUint64 ((n.v[j]?).getD 0).val)) := by
  refine ⟨fun rest => head_layout n rest, fun buf h => ?_, plain_tail_layout f n⟩
  have he : f.Encodable n := (nodeToBuf_isSome_iff f n).mp (by rw [h]; rfl)
  obtain ⟨tail, ht, -⟩ := nodeToBuf_head_tail f n he
  rw [h] at ht
  exact ⟨tail, Option.some.inj ht⟩

/-- C7 witness: the record of the leaf `exLeaf` in `exStore`, byte by byte. -/
theorem C7_layout_witness :
    exStore.nodeToBuf exLeaf =
      some [0, 0, 0, 0, 1, 0, 0, 0, 7, 0, 0, 0, 2, 0, 0, 0, 0, 0, 0, 0, 0,
            63, 240, 0, 0, 0, 0, 0, 0] ∧
    ∃ buf, exStore.nodeToBuf exLeaf = some buf ∧
      (buf.length : Int) = 9 + 4 * exLeaf.parents.length + 8 + 8 * exStore.dim :=
  ⟨by decide,
   ((C7_layout exStore exLeaf).2.2 (by decide) (by decide) (by decide)).imp
     fun _ h => ⟨h.1, h.2.1⟩⟩

/-! ## C8: bucket records carry no vector -/

theorem writeInt32s_map_int32 (xs : List Int) :
    writeInt32s (xs.map int32) = xs.flatMap be32 := by
  induction xs with
  | nil => rfl
  | cons x xs ih => simp only [List.map_cons, writeInt32s, ih, writeInt32_int32, List.flatMap_cons]

theorem writeInt32s_replicate_zero (k : Nat) :
    writeInt32s (List.replicate k 0) = List.replicate (4 * k) 0 := by
  induction k with
  | zero => rfl
  | succ k ih =>
    rw [List.replicate_succ, writeInt32s, ih, show 4 * (k + 1) = 4 + 4 * k by ring,
      List.replicate_add]
    rfl

theorem nodeToBuf_bucket_v (f : File) (n : Node) (v' : List Float64)
    (hb : n.isBucket f.K = true) : f.nodeToBuf { n with v := v' } = f.nodeToBuf n := by
  have hb' : Node.isBucket { n with v := v' } f.K = true := hb
  simp only [File.nodeToBuf, hb, hb', if_true, recordHead]

/-- The closed form of the record of a bucket. -/
theorem bucket_layout (f : File) (n : Node) (hb : n.isBucket f.K = true)
    (hc : (n.children.length : Int) ≤ f.K) (hk : f.K ≤ 2 * f.dim + 2) :
    f.nodeToBuf n = some (recordHead n ++ n.children.flatMap be32 ++
      List.replicate (2 * 4 + 8 * f.dim - 4 * n.children.length).toNat 0) := by
  have hK : 0 ≤ f.K := by
    simp only [Node.isBucket, decide_eq_true_eq] at hb; omega
  rw [nodeToBuf_bucket f n hb hc hk, writeInt32s_append, writeInt32s_map_int32,
    writeInt32s_replicate_zero, writeInt32s_replicate_zero, List.append_assoc,
    List.append_assoc, List.append_assoc, ← List.replicate_add]
  congr 4
  omega

/-- C8 (as stated, refuted): in `exWideK` (dim 1, K 5) the bucket `exBucket3`
has 3 children, at most `K`, and `nodeToBuf` panics on the negative padding
length after the `K` child slots, which alone exceed the tail. -/
theorem C8_bucket_counterexample :
    exBucket3.isBucket exWideK.K = true ∧ (exBucket3.children.length : Int) ≤ exWideK.K ∧
      exWideK.nodeToBuf exBucket3 = none := by
  decide

/-- C8 (amended): for every configuration with `K <= 2*dim + 2` and every
bucket node with at most `K` children, the tail `nodeToBuf` writes after the
header is the children ids as big-endian 32-bit values followed only by zero
bytes, `2*4 + 8*dim` bytes in all; and in every configuration the encoding of
a bucket is independent of its `v`. -/
theorem C8_bucket_no_vector (f : File) (n : Node) (hb : n.isBucket f.K = true)
    (hc : (n.children.length : Int) ≤ f.K) (hk : f.K ≤ 2 * f.dim + 2) :
    f.nodeToBuf n = some (recordHead n ++ n.children.flatMap be32 ++
      List.replicate (2 * 4 + 8 * f.dim - 4 * n.children.length).toNat 0) ∧
    ((n.children.flatMap be32 ++
      List.replicate (2 * 4 + 8 * f.dim - 4 * n.children.length).toNat 0).length : Int) =
        2 * 4 + 8 * f.dim ∧
    ∀ v' : List Float64, f.nodeToBuf { n with v := v' } = f.nodeToBuf n := by
  refine ⟨bucket_layout f n hb hc hk, ?_, fun v' => nodeToBuf_bucket_v f n v' hb⟩
  have hl : (n.children.flatMap be32).length = 4 * n.children.length := by
    rw [← writeInt32s_map_int32, length_writeInt32s, List.length_map]
  simp only [List.length_append, hl, List.length_replicate]
  push_cast
  omega

/-- C8 witness: the record of the bucket `exBucket` of `exStore`, whose vector
`[1.0]` leaves no trace. -/
theorem C8_bucket_no_vector_witness :
    exStore.nodeToBuf exBucket =
      some [0, 0, 0, 0, 2, 0, 0, 0, 0, 0, 0, 0, 2, 0, 0, 0, 0, 0, 0, 0, 3,
            0, 0, 0, 0, 0, 0, 0, 0] ∧
    exStore.nodeToBuf { exBucket with v := [] } = exStore.nodeToBuf exBucket :=
  ⟨by decide, (C8_bucket_no_vector exStore exBucket (by decide) (by decide) (by decide)).2.2 []⟩

/-! ## C9: the decoded node kind -/

theorem sliceFrom_isSome (b : List Byte) (lo : Int) (h0 : 0 ≤ lo) (h1 : lo ≤ b.length) :
    ∃ s, sliceFrom b lo = some s ∧ (s.length : Int) = b.length - lo := by
  refine ⟨b.drop lo.toNat, ?_, ?_⟩
  · simp only [sliceFrom, h0, h1, and_self, if_true]
  · simp only [List.length_drop]; omega

theorem bytesToFloat64sLoop_isSome (n : Nat) :
    ∀ bytes : List Byte, 8 * n ≤ bytes.length →
      ∃ v, bytesToFloat64sLoop n bytes = some v ∧ v.length = n := by
  induction n with
  | zero => intro bytes _; exact ⟨[], rfl, rfl⟩
  | succ n ih =>
    intro bytes h
    obtain ⟨s, hs, hl⟩ := slice_isSome bytes 0 8 (by omega) (by omega) (by omega)
    obtain ⟨u, hu⟩ := beUint64_isSome s (by omega)
    obtain ⟨rest, hr, hrl⟩ := sliceFrom_isSome bytes 8 (by omega) (by omega)
    obtain ⟨v, hv, hvl⟩ := ih rest (by omega)
    exact ⟨float64frombits u :: v, by simp [bytesToFloat64sLoop, hs, hu, hr, hv], by simp [hvl]⟩

theorem bytesToFloat64s_isSome (bytes : List Byte) (n : Nat) (h : bytes.length = 8 * n) :
    ∃ v, bytesToFloat64s bytes = some v ∧ v.length = n := by
  have e : bytes.length / 8 = n := by omega
  rw [bytesToFloat64s, e]
  exact bytesToFloat64sLoop_isSome n bytes (by omega)

/-- On a full-size record of a configuration with `tree >= 0` and `dim >= 0`,
the shape `parseRecord` returns, by the decoded `nDescendants`; `K` enters
through the branch test only, and the bucket branch needs its `d` child slots
inside the record, `d <= 2*dim + 2`. -/
theorem parseRecord_kind (f : File) (node : Node) (b : List Byte) (d : Int)
    (ht : 0 ≤ f.tree) (hd : 0 ≤ f.dim)
    (hlen : (b.length : Int) = f.nodeSize) (hdec : readInt32 b 1 = some d) :
    (d = 1 → ∃ m, f.parseRecord node b = some m ∧ m.nDescendants = d ∧
      m.children = [0, 0] ∧ (m.v.length : Int) = f.dim) ∧
    (2 ≤ d → d ≤ f.K → d ≤ 2 * f.dim + 2 → ∃ m, f.parseRecord node b = some m ∧
      m.nDescendants = d ∧ (m.children.length : Int) = d ∧ m.v = node.v) ∧
    (f.K < d → ∃ m, f.parseRecord node b = some m ∧ m.nDescendants = d ∧
      m.children.length = 2 ∧ (m.v.length : Int) = f.dim) ∧
    (d = 0 → 0 ≤ f.K → ∃ m, f.parseRecord node b = some m ∧ m.nDescendants = d ∧
      m.children = [] ∧ m.v = node.v) ∧
    (d < 0 → d ≤ f.K → f.parseRecord node b = none) ∧
    (2 ≤ d → d ≤ f.K → 2 * f.dim + 2 < d → f.parseRecord node b = none) := by
  have hns : f.nodeSize = 17 + 4 * f.tree + 8 * f.dim := by unfold File.nodeSize; ring
  have hov : f.offsetOfV = 17 + 4 * f.tree := by unfold File.offsetOfV; ring
  obtain ⟨b0, hb0⟩ : ∃ b0, b[(0 : Nat)]? = some b0 := by
    cases b with
    | nil => simp only [List.length_nil, Nat.cast_zero] at hlen; omega
    | cons x xs => exact ⟨x, by simp⟩
  obtain ⟨key, hkey⟩ := readInt32_isSome b 5 (by omega) (by omega)
  obtain ⟨ps, hps, -⟩ := readInt32s_isSome b f.tree.toNat 9 (by omega) (by omega)
  have hm := make_eq_some (0 : Int) ht
  obtain ⟨tl, htl, htll⟩ := sliceFrom_isSome b f.offsetOfV (by omega) (by omega)
  obtain ⟨v, hv, hvl⟩ := bytesToFloat64s_isSome tl f.dim.toNat (by omega)
  obtain ⟨cs2, hcs2, hcs2l⟩ := readInt32s_isSome b 2 (f.offsetOfV - 4 * 2) (by omega) (by
    push_cast; omega)
  refine ⟨fun h1 => ?_, fun h2 h3 hk => ?_, fun h4 => ?_, fun h5 h6 => ?_, fun h7 h8 => ?_,
    fun h2 h3 hk => ?_⟩
  · refine ⟨(Node.mk node.id (decide (b0 ≠ 0)) d key ps [0, 0] v), ?_, rfl, rfl, ?_⟩
    · simp only [File.parseRecord, hb0, hdec, hkey, hm, hps, Option.some_bind,
        Option.bind_eq_bind, h1, if_true, htl, hv, Option.map_some']
    · simp only [hvl]; omega
  · obtain ⟨cs, hcs, hcsl⟩ := readInt32s_isSome b d.toNat (f.offsetOfV - 4 * 2) (by omega) (by
      omega)
    refine ⟨(Node.mk node.id (decide (b0 ≠ 0)) d key ps cs node.v), ?_, rfl, ?_, rfl⟩
    · simp only [File.parseRecord, hb0, hdec, hkey, hm, hps, Option.some_bind,
        Option.bind_eq_bind, show ¬ d = 1 by omega, if_false, h3, if_true,
        make_eq_some (0 : Int) (show 0 ≤ d by omega), hcs, Option.map_some']
    · simp only [hcsl]; omega
  · by_cases h1 : d = 1
    · refine ⟨(Node.mk node.id (decide (b0 ≠ 0)) d key ps [0, 0] v), ?_, rfl, rfl, ?_⟩
      · simp only [File.parseRecord, hb0, hdec, hkey, hm, hps, Option.some_bind,
          Option.bind_eq_bind, h1, if_true, htl, hv, Option.map_some']
      · simp only [hvl]; omega
    · refine ⟨(Node.mk node.id (decide (b0 ≠ 0)) d key ps cs2 v), ?_, rfl, hcs2l, ?_⟩
      · simp only [File.parseRecord, hb0, hdec, hkey, hm, hps, Option.some_bind,
          Option.bind_eq_bind, h1, if_false, show ¬ d ≤ f.K by omega, hcs2, htl, hv,
          Option.map_some']
      · simp only [hvl]; omega
  · subst h5
    refine ⟨(Node.mk node.id (decide (b0 ≠ 0)) 0 key ps [] node.v), ?_, rfl, rfl, rfl⟩
    simp only [File.parseRecord, hb0, hdec, hkey, hm, hps, Option.some_bind,
      Option.bind_eq_bind, show ¬ (0 : Int) = 1 by omega, if_false, h6, if_true,
      make_eq_some (0 : Int) (le_refl 0), Int.toNat_zero, readInt32s, Option.map_some']
  · simp only [File.parseRecord, hb0, hdec, hkey, hm, hps, Option.some_bind,
      Option.bind_eq_bind, show ¬ d = 1 by omega, if_false, h8, if_true,
      make_eq_none (0 : Int) h7, Option.none_bind]
  · cases hcs : readInt32s b (f.offsetOfV - 4 * 2) d.toNat with
    | some cs =>
      have := (readInt32s_some_bound b d.toNat (f.offsetOfV - 4 * 2) cs hcs).2 (by omega)
      omega
    | none =>
      simp only [File.parseRecord, hb0, hdec, hkey, hm, hps, Option.some_bind,
        Option.bind_eq_bind, show ¬ d = 1 by omega, if_false, h3, if_true,
        make_eq_some (0 : Int) (show 0 ≤ d by omega), hcs, Option.map_none']

/-- C9 (as stated, refuted): in `exStore` (K 3) a full-size record whose
`nDescendants` is 0, a value outside `2..K`, is decoded through the bucket
branch, into a node without children and without vector; and in `exWideK`
(dim 1, K 5) a full-size record with `nDescendants = 5`, within `2..K`, makes
the decoding panic, the fifth child slot lying past the end of the record. -/
theorem C9_decoded_kind_counterexample :
    (exZeroRecord.length : Int) = exStore.nodeSize ∧
    readInt32 exZeroRecord 1 = some 0 ∧
    exStore.parseRecord Node.zero exZeroRecord =
      some { Node.zero with parents := [0], children := [], v := [] } ∧
    (exFiveRecord.length : Int) = exWideK.nodeSize ∧
    readInt32 exFiveRecord 1 = some 5 ∧
    exWideK.parseRecord Node.zero exFiveRecord = none := by
  decide

/-- C9 (amended): for every configuration with `treeCount >= 0` and `dim >= 0`
and every record of `nodeSize` bytes whose `nDescendants` field decodes to
`d`, `Find` decodes, when `d = 1`, a leaf with `v` of length `dim` and children
`[0, 0]`; when `2 <= d <= K` and the `d` child slots lie inside the record
(`d <= 2*dim + 2`), a bucket with `d` children and no `v`; when `d > K`, a node
with exactly 2 children and `v` of length `dim`. The only other value decoded
through the bucket branch is `d = 0` (when `0 <= K`), giving no children and no
`v`; a negative `d <= K` makes the decoding panic, and so does a `d` in `2..K`
above `2*dim + 2`. -/
theorem C9_decoded_kind (f : File) (id : Int) (b : List Byte) (d : Int)
    (ht : 0 ≤ f.tree) (hd : 0 ≤ f.dim)
    (hlen : (b.length : Int) = f.nodeSize) (hdec : readInt32 b 1 = some d) :
    (d = 1 → ∃ m, f.parseRecord { Node.zero with id := id } b = some m ∧ m.nDescendants = d ∧
      m.children = [0, 0] ∧ (m.v.length : Int) = f.dim) ∧
    (2 ≤ d → d ≤ f.K → d ≤ 2 * f.dim + 2 →
      ∃ m, f.parseRecord { Node.zero with id := id } b = some m ∧
        m.nDescendants = d ∧ (m.children.length : Int) = d ∧ m.v = []) ∧
    (f.K < d → ∃ m, f.parseRecord { Node.zero with id := id } b = some m ∧
      m.nDescendants = d ∧ m.children.length = 2 ∧ (m.v.length : Int) = f.dim) ∧
    (d = 0 → 0 ≤ f.K → ∃ m, f.parseRecord { Node.zero with id := id } b = some m ∧
      m.nDescendants = d ∧ m.children = [] ∧ m.v = []) ∧
    (d < 0 → d ≤ f.K → f.parseRecord { Node.zero with id := id } b = none) ∧
    (2 ≤ d → d ≤ f.K → 2 * f.dim + 2 < d →
      f.parseRecord { Node.zero with id := id } b = none) :=
  parseRecord_kind f { Node.zero with id := id } b d ht hd hlen hdec

/-- C9 witness: the record of `exStore3` at id 1 decodes to a bucket of 2; and
in `exWideK`, where `K = 5` exceeds `2*dim + 2`, the record of a leaf and that
of a bucket of 3 decode by the same table. -/
theorem C9_decoded_kind_witness :
    (∃ m, exStore3.parseRecord { Node.zero with id := 1 }
        ((exStore3.data.drop 29).take 29) = some m ∧
      m.nDescendants = 2 ∧ (m.children.length : Int) = 2 ∧ m.v = []) ∧
    (∃ m, exWideK.parseRecord { Node.zero with id := 0 } exLeafRecord29 = some m ∧
      m.nDescendants = 1 ∧ m.children = [0, 0] ∧ (m.v.length : Int) = exWideK.dim) ∧
    (∃ m, exWideK.parseRecord { Node.zero with id := 0 } exBucket3Record = some m ∧
      m.nDescendants = 3 ∧ (m.children.length : Int) = 3 ∧ m.v = []) :=
  ⟨(C9_decoded_kind exStore3 1 ((exStore3.data.drop 29).take 29) 2 (by decide) (by decide)
      (by decide) (by decide)).2.1 (by decide) (by decide) (by decide),
   (C9_decoded_kind exWideK 0 exLeafRecord29 1 (by decide) (by decide)
      (by decide) (by decide)).1 rfl,
   (C9_decoded_kind exWideK 0 exBucket3Record 3 (by decide) (by decide)
      (by decide) (by decide)).2.1 (by decide) (by decide) (by decide)⟩

/-! ## C10: `Iterate` yields every record in id order -/

/-- While every `Find` succeeds and the channel is open, the loop of `Iterate`
sends the node of each id in turn and leaves the channel open. -/
theorem iterateLoop_all_ok (f : File) (k : Nat) :
    ∀ (i : Int) (c : Chan), c.closed = false →
      (∀ j : Nat, j < k → ∃ n, f.Find (i + j) = .ok n) →
      ∃ ns : List Node, ns.length = k ∧
        (∀ (j : Nat) (hj : j < ns.length), f.Find (i + j) = .ok ns[j]) ∧
        f.iterateLoop k i c = ({ sent := c.sent ++ ns, closed := false }, .ok ()) := by
  induction k with
  | zero =>
    intro i c hc _
    refine ⟨[], rfl, fun j hj => absurd hj (by simp), ?_⟩
    cases c with
    | mk sent closed =>
      simp only at hc
      subst hc
      simp [File.iterateLoop]
  | succ k ih =>
    intro i c hc h
    obtain ⟨n, hn⟩ := h 0 (by omega)
    simp only [Nat.cast_zero, add_zero] at hn
    obtain ⟨ns, hlen, hall, hloop⟩ := ih (i + 1) { sent := c.sent ++ [n], closed := false } rfl
      (fun j hj => by
        obtain ⟨m, hm⟩ := h (j + 1) (by omega)
        refine ⟨m, ?_⟩
        rw [← hm]; congr 1; push_cast; ring)
    refine ⟨n :: ns, by simp [hlen], ?_, ?_⟩
    · intro j hj
      cases j with
      | zero => simpa using hn
      | succ j =>
        have := hall j (by simpa using hj)
        simp only [List.getElem_cons_succ]
        rw [← this]; congr 1; push_cast; ring
    · simp only [File.iterateLoop, hn, Chan.send, hc, Bool.false_eq_true, if_false, hloop,
        List.append_assoc, List.singleton_append]

/-- C10: for every store state in which every `Find` below the record count
succeeds, and an open channel, `Iterate` sends exactly `count = size / nodeSize`
nodes, the `i`-th being the result of `Find(i)` for `i = 0 .. count-1` in
increasing order, whatever their `free` flag, then closes the channel and
returns. -/
theorem C10_iterate_all (f : File) (c : Chan) (hopen : c.closed = false)
    (hfind : ∀ i : Nat, (i : Int) < f.size.tdiv f.nodeSize → ∃ n, f.Find i = .ok n) :
    f.nodeCount = some (f.size.tdiv f.nodeSize) ∧
    ∃ ns : List Node, ns.length = (f.size.tdiv f.nodeSize).toNat ∧
      (∀ (i : Nat) (hi : i < ns.length), f.Find i = .ok ns[i]) ∧
      f.Iterate c = ({ sent := c.sent ++ ns, closed := true }, .ok ()) := by
  refine ⟨nodeCount_eq f, ?_⟩
  obtain ⟨ns, hlen, hall, hloop⟩ := iterateLoop_all_ok f (f.size.tdiv f.nodeSize).toNat 0 c hopen
    (fun j hj => by
      obtain ⟨n, hn⟩ := hfind j (by omega)
      exact ⟨n, by simpa using hn⟩)
  refine ⟨ns, hlen, fun i hi => by simpa using hall i hi, ?_⟩
  simp only [File.Iterate, nodeCount_eq, hloop, Chan.close, Bool.false_eq_true, if_false]

/-- C10 witness: iterating over `exStore3` sends the three stored nodes, ids 0,
1, 2, and closes the channel. -/
theorem C10_iterate_all_witness :
    ∃ ns : List Node, ns.length = (exStore3.size.tdiv exStore3.nodeSize).toNat ∧
      (∀ (i : Nat) (hi : i < ns.length), exStore3.Find i = .ok ns[i]) ∧
      exStore3.Iterate { sent := [], closed := false } =
        ({ sent := [] ++ ns, closed := true }, .ok ()) :=
  (C10_iterate_all exStore3 { sent := [], closed := false } rfl (by
    intro i hi
    have e : exStore3.size.tdiv exStore3.nodeSize = 3 := by decide
    rw [e] at hi
    have h3 : i = 0 ∨ i = 1 ∨ i = 2 := by omega
    rcases h3 with h | h | h <;> subst h
    · exact ⟨exLeaf, by decide⟩
    · exact ⟨{ exBucket with v := [] }, by decide⟩
    · exact ⟨exInternal, by decide⟩)).2

/-! ## C11: `Iterate` on a failed `Find` -/

/-- When the `Find` calls for the next `ns.length` ids succeed and the one after
them fails, the loop of `Iterate` sends those nodes, closes the channel and
panics on the send that follows the close. -/
theorem iterateLoop_first_error (f : File) (e : Node) (ns : List Node) :
    ∀ (k : Nat) (i : Int) (c : Chan), c.closed = false → ns.length < k →
      (∀ (j : Nat) (hj : j < ns.length), f.Find (i + j) = .ok ns[j]) →
      f.Find (i + ns.length) = .error e →
      f.iterateLoop k i c = ({ sent := c.sent ++ ns, closed := true }, .panicked) := by
  induction ns with
  | nil =>
    intro k i c hc hk _ he
    cases k with
    | zero => simp at hk
    | succ k =>
      simp only [List.length_nil, Nat.cast_zero, add_zero] at he
      simp only [File.iterateLoop, he, Chan.close, Chan.send, hc, Bool.false_eq_true, if_false,
        if_true, List.append_nil]
  | cons n ns ih =>
    intro k i c hc hk hall he
    cases k with
    | zero => simp at hk
    | succ k =>
      have h0 := hall 0 (by simp)
      simp only [Nat.cast_zero, add_zero, List.getElem_cons_zero] at h0
      have hrest := ih k (i + 1) { sent := c.sent ++ [n], closed := false } rfl
        (by simp only [List.length_cons] at hk; omega)
        (fun j hj => by
          have := hall (j + 1) (by simp only [List.length_cons]; omega)
          simp only [List.getElem_cons_succ] at this
          rw [← this]; congr 1; push_cast; ring)
        (by rw [← he]; congr 1; simp only [List.length_cons]; push_cast; ring)
      simp only [File.iterateLoop, h0, Chan.send, hc, Bool.false_eq_true, if_false, hrest,
        List.append_assoc, List.singleton_append]

/-- C11 (the code departs from the claim): in every store state in which `Find(i)`
is the first `Find` to fail, with `i` below the record count and the channel
open, `Iterate` sends the nodes of the ids `0 .. i-1`, closes the channel and
then sends the node of the failed `Find` on the closed channel: it panics
instead of returning. -/
theorem C11_iterate_failed_find_panics (f : File) (c : Chan) (e : Node) (ns : List Node)
    (hopen : c.closed = false) (hlt : (ns.length : Int) < f.size.tdiv f.nodeSize)
    (hall : ∀ (j : Nat) (hj : j < ns.length), f.Find j = .ok ns[j])
    (herr : f.Find ns.length = .error e) :
    f.Iterate c = ({ sent := c.sent ++ ns, closed := true }, .panicked) := by
  have hloop := iterateLoop_first_error f e ns (f.size.tdiv f.nodeSize).toNat 0 c hopen
    (by omega) (fun j hj => by simpa using hall j hj) (by simpa using herr)
  simp only [File.Iterate, nodeCount_eq, hloop]

/-- C11 at the failing input: in `exStoreLockFails` (three records, the read lock
of record 1 fails) `Iterate` delivers the node of id 0, closes the channel and
panics. -/
theorem C11_iterate_failed_find_witness :
    exStoreLockFails.Find 1 = .error { Node.zero with id := 1 } ∧
    exStoreLockFails.Iterate { sent := [], closed := false } =
      ({ sent := [] ++ [exLeaf], closed := true }, .panicked) :=
  ⟨by decide,
   C11_iterate_failed_find_panics exStoreLockFails { sent := [], closed := false }
     { Node.zero with id := 1 } [exLeaf] rfl (by decide)
     (fun j hj => by
       have h0 : j = 0 := by simpa using hj
       subst h0
       have h : exStoreLockFails.Find 0 = .ok exLeaf := by decide
       simpa using h)
     (by decide)⟩

/-! ## C17: round trip for well-formed nodes -/

/-- C17 (as stated, refuted): in `exStoreK0` (tree 1, dim 1, `K = 0`, so
`K <= 2*dim + 2`) the node `exOneDescendant` has every field within 32 bits,
one parent, and meets the internal-node clause as written (`nDescendants = 1`
is above `K`, 2 children, `dim` vector components); `Find` tests
`nDescendants == 1` first and decodes its record as a leaf, with children
`[0, 0]` where the node has `[5, 6]`. -/
theorem C17_roundtrip_counterexample :
    exStoreK0.K ≤ 2 * exStoreK0.dim + 2 ∧
    inInt32 exOneDescendant.nDescendants ∧ inInt32 exOneDescendant.key ∧
    (∀ p ∈ exOneDescendant.parents, inInt32 p) ∧
    (∀ c ∈ exOneDescendant.children, inInt32 c) ∧
    (exOneDescendant.parents.length : Int) = exStoreK0.tree ∧
    (exStoreK0.K < exOneDescendant.nDescendants ∧ exOneDescendant.children.length = 2 ∧
      (exOneDescendant.v.length : Int) = exStoreK0.dim) ∧
    exOneDescendant.children = [5, 6] ∧
    exStoreK0.decodeEncoded exOneDescendant =
      some { exOneDescendant with children := [0, 0] } := by
  decide

/-- C17 (amended): for every configuration with `K <= 2*dim + 2` and every node
`n` whose `nDescendants`, `key`, parents and children fit a signed 32-bit
integer, with `len(parents) = treeCount`, and which is a leaf
(`nDescendants = 1`, children `[0, 0]`, `len(v) = dim`), a bucket
(`2 <= nDescendants <= K`, `len(children) = nDescendants`, `v` empty) or an
internal node (`nDescendants > K` and `nDescendants != 1`, `len(children) = 2`,
`len(v) = dim`), decoding the bytes of `nodeToBuf(n)` as `Find` does returns a
node equal to `n` in `free`, `nDescendants`, `key`, `parents`, `children` and
`v`. -/
theorem C17_roundtrip_exact (f : File) (n : Node) (hk : f.K ≤ 2 * f.dim + 2)
    (hd : inInt32 n.nDescendants) (hkey : inInt32 n.key) (hps : ∀ p ∈ n.parents, inInt32 p)
    (hcs : ∀ c ∈ n.children, inInt32 c) (hp : (n.parents.length : Int) = f.tree)
    (hkind :
      (n.nDescendants = 1 ∧ n.children = [0, 0] ∧ (n.v.length : Int) = f.dim) ∨
      (2 ≤ n.nDescendants ∧ n.nDescendants ≤ f.K ∧
        (n.children.length : Int) = n.nDescendants ∧ n.v = []) ∨
      (f.K < n.nDescendants ∧ n.nDescendants ≠ 1 ∧ n.children.length = 2 ∧
        (n.v.length : Int) = f.dim)) :
    ∃ buf m, f.nodeToBuf n = some buf ∧
      f.parseRecord { Node.zero with id := n.id } buf = some m ∧
      m = n ∧ m.free = n.free ∧ m.nDescendants = n.nDescendants ∧ m.key = n.key ∧
      m.parents = n.parents ∧ m.children = n.children ∧ m.v = n.v := by
  have hwf : f.WellFormed n := by
    refine ⟨hd, hkey, hps, hcs, hp, ?_⟩
    rcases hkind with ⟨h1, h2, h3⟩ | ⟨h1, h2, h3, -⟩ | ⟨h1, h2, h3, h4⟩
    · rw [if_pos h1]; exact ⟨h2, h3⟩
    · rw [if_neg (by omega), if_pos h2]; exact ⟨h1, h3, hk⟩
    · rw [if_neg h2, if_neg (by omega)]; exact ⟨h3, h4⟩
  obtain ⟨buf, hbuf, hparse⟩ := roundtrip_core f { Node.zero with id := n.id } n hwf
  have hv : (if n.isBucket f.K = true then ([] : List Float64) else n.v) = n.v := by
    rcases hkind with ⟨h1, -, -⟩ | ⟨h1, h2, -, h4⟩ | ⟨h1, -, -, -⟩
    · rw [isBucket_eq_false_of_one n f.K h1]; rfl
    · rw [isBucket_eq_true n f.K h1 h2, h4]; rfl
    · rw [isBucket_eq_false_of_gt n f.K (by omega)]; rfl
  have hm : ({ n with id := n.id,
                      v := if n.isBucket f.K = true then ([] : List Float64) else n.v } : Node)
      = n := by
    rw [hv]
  refine ⟨buf, n, hbuf, ?_, rfl, rfl, rfl, rfl, rfl, rfl, rfl⟩
  rw [← hm]
  exact hparse

/-- C17 witness: the internal node `exInternal` of `exStore` round-trips. -/
theorem C17_roundtrip_exact_witness :
    ∃ buf m, exStore.nodeToBuf exInternal = some buf ∧
      exStore.parseRecord { Node.zero with id := exInternal.id } buf = some m ∧
      m = exInternal :=
  (C17_roundtrip_exact exStore exInternal (by decide) (by decide) (by decide) (by decide)
    (by decide) (by decide) (by decide)).imp fun _ h => h.imp fun _ h => ⟨h.1, h.2.1, h.2.2.1⟩

/-! ## C19: decoding is total on full-size records -/

/-- C19: for every configuration with `treeCount >= 0`, `dim >= 0` and
`K <= 2*dim + 2`, and every buffer of exactly `nodeSize` bytes whose
`nDescendants` field decodes to `d >= 0`, the record parsing part of `Find`
runs to its end without a panic (no slice or index out of range, no negative
length in `make`) and returns a node; and when `d <= K` the `d` child reads
of the bucket branch end at or before byte `nodeSize`. -/
theorem C19_decode_total (f : File) (id : Int) (b : List Byte) (d : Int)
    (ht : 0 ≤ f.tree) (hd : 0 ≤ f.dim) (hk : f.K ≤ 2 * f.dim + 2)
    (hlen : (b.length : Int) = f.nodeSize) (hdec : readInt32 b 1 = some d) (hd0 : 0 ≤ d) :
    (∃ m, f.parseRecord { Node.zero with id := id } b = some m ∧ m.nDescendants = d) ∧
    (d ≤ f.K → (f.offsetOfV - 4 * 2) + 4 * d ≤ f.nodeSize ∧
      ∃ cs, readInt32s b (f.offsetOfV - 4 * 2) d.toNat = some cs ∧ (cs.length : Int) = d) := by
  obtain ⟨h1, h2, h3, h4, -, -⟩ :=
    parseRecord_kind f { Node.zero with id := id } b d ht hd hlen hdec
  constructor
  · by_cases e1 : d = 1
    · obtain ⟨m, hm, hmd, -⟩ := h1 e1
      exact ⟨m, hm, hmd⟩
    · by_cases e2 : d ≤ f.K
      · by_cases e0 : d = 0
        · obtain ⟨m, hm, hmd, -⟩ := h4 e0 (by omega)
          exact ⟨m, hm, hmd⟩
        · obtain ⟨m, hm, hmd, -⟩ := h2 (by omega) e2 (by omega)
          exact ⟨m, hm, hmd⟩
      · obtain ⟨m, hm, hmd, -⟩ := h3 (by omega)
        exact ⟨m, hm, hmd⟩
  · intro hdk
    have hb : (f.offsetOfV - 4 * 2) + 4 * d ≤ f.nodeSize := by
      unfold File.offsetOfV File.nodeSize; omega
    refine ⟨hb, ?_⟩
    obtain ⟨cs, hcs, hl⟩ := readInt32s_isSome b d.toNat (f.offsetOfV - 4 * 2)
      (by unfold File.offsetOfV; omega) (by rw [hlen]; omega)
    exact ⟨cs, hcs, by omega⟩

/-- C19 witness: the record of the bucket `exBucket3` (`d = 3 = K` in
`exStore`, records of 29 bytes) is decoded without a panic, and its three child
reads, from byte 13 on, end at byte 25. -/
theorem C19_decode_total_witness :
    (∃ m, exStore.parseRecord { Node.zero with id := 0 } exBucket3Record = some m ∧
      m.nDescendants = 3) ∧
    ((3 : Int) ≤ exStore.K → (exStore.offsetOfV - 4 * 2) + 4 * 3 ≤ exStore.nodeSize ∧
      ∃ cs, readInt32s exBucket3Record (exStore.offsetOfV - 4 * 2) (3 : Int).toNat = some cs ∧
        (cs.length : Int) = 3) :=
  C19_decode_total exStore 0 exBucket3Record 3 (by decide) (by decide) (by decide) (by decide)
    (by decide) (by decide)

/-! ## C18: `Update` touches only its own slot -/

theorem pread_congr (data data' b : List Byte) (off : Int)
    (h : 0 ≤ off → ∀ i : Nat, off ≤ i → (i : Int) < off + b.length → data[i]? = data'[i]?) :
    pread data b off = pread data' b off := by
  unfold pread
  by_cases h0 : off < 0
  · simp only [h0, if_true]
  · simp only [h0, if_false, Option.some.injEq]
    have hg : (data.drop off.toNat).take b.length = (data'.drop off.toNat).take b.length := by
      apply List.ext_getElem?
      intro k
      simp only [List.getElem?_take, List.getElem?_drop]
      split
      · apply h (by omega) <;> omega
      · rfl
    rw [hg]

theorem slot_disjoint (ns id j : Int) (hns : 0 < ns) (hne : j ≠ id) :
    (j + 1) * ns ≤ id * ns ∨ (id + 1) * ns ≤ j * ns := by
  rcases lt_or_gt_of_ne hne with h | h
  · exact Or.inl (Int.mul_le_mul_of_nonneg_right (by omega) (le_of_lt hns))
  · exact Or.inr (Int.mul_le_mul_of_nonneg_right (by omega) (le_of_lt hns))

/-- The store after `Update(n)` differs from the store before in its bytes only. -/
theorem Update_data (f : File) (n : Node) :
    ∃ data', (f.Update n).1 = { f with data := data' } := by
  unfold File.Update
  cases f.nodeToBuf n with
  | none => exact ⟨f.data, rfl⟩
  | some buf =>
    simp only
    split
    · exact ⟨f.data, rfl⟩
    · cases pwrite f.data buf (f.offset n.id) with
      | none => exact ⟨f.data, rfl⟩
      | some data' => exact ⟨data', rfl⟩

/-- On an existing record, `Update` of a node with `tree` parents keeps the
length of the file and every byte outside the slot of the record. -/
theorem Update_frame (f : File) (n : Node) (c : Int) (hc : f.nodeCount = some c)
    (hid0 : 0 ≤ n.id) (hid : n.id < c) (hp : (n.parents.length : Int) = f.tree) :
    0 < f.nodeSize ∧ (f.Update n).1.data.length = f.data.length ∧
      ∀ i : Nat, ¬ (f.offset n.id ≤ i ∧ (i : Int) < f.offset n.id + f.nodeSize) →
        (f.Update n).1.data[i]? = f.data[i]? := by
  rw [nodeCount_eq] at hc
  simp only [Option.some.injEq] at hc
  subst hc
  obtain ⟨hpos, hin⟩ := record_in_file f.size f.nodeSize n.id (by simp [File.size]) hid0 hid
  refine ⟨hpos, ?_⟩
  unfold File.Update
  cases hb : f.nodeToBuf n with
  | none => exact ⟨rfl, fun _ _ => rfl⟩
  | some buf =>
    simp only
    split
    · exact ⟨rfl, fun _ _ => rfl⟩
    · have hlen : (buf.length : Int) = f.nodeSize := by
        rw [nodeToBuf_length f n buf hb, hp, File.nodeSize]
      have hoff : 0 ≤ f.offset n.id := by unfold File.offset; positivity
      have hsz : f.offset n.id + f.nodeSize ≤ f.data.length := by
        have e : f.offset n.id + f.nodeSize = (n.id + 1) * f.nodeSize := by
          unfold File.offset; ring
        rw [e]; exact hin
      have hne : buf ≠ [] := by
        intro h0
        rw [h0] at hlen
        simp only [List.length_nil, Nat.cast_zero] at hlen
        omega
      rw [pwrite_in_range f.data buf _ hoff hne (by omega)]
      refine ⟨splice_length _ _ _ (by omega), fun i hi => ?_⟩
      simp only
      rw [splice_getElem? _ _ _ (by omega)]
      have : ¬ ((f.offset n.id).toNat ≤ i ∧ i < (f.offset n.id).toNat + buf.length) := by
        omega
      simp only [this, if_false]

/-- The result of `Find` depends on the file only through the record it reads. -/
theorem Find_data_congr (f : File) (data' : List Byte) (j : Int)
    (h : pread data' (List.replicate f.nodeSize.toNat 0) (f.offset j) =
      pread f.data (List.replicate f.nodeSize.toNat 0) (f.offset j)) :
    File.Find { f with data := data' } j = f.Find j := by
  have e1 : File.nodeSize { f with data := data' } = f.nodeSize := rfl
  have e2 : File.offset { f with data := data' } j = f.offset j := rfl
  have e3 : File.parseRecord { f with data := data' } = f.parseRecord := rfl
  unfold File.Find
  simp only [e1, e2, e3]
  by_cases hns : 0 ≤ f.nodeSize
  · simp only [make_eq_some (0 : Byte) hns, h]
  · simp only [make_eq_none (0 : Byte) (not_le.mp hns)]

/-- After `Update(n)` on an existing record, `Find(j)` of every other id returns
what it returned before. -/
theorem Update_Find_other (f : File) (n : Node) (c : Int) (hc : f.nodeCount = some c)
    (hid0 : 0 ≤ n.id) (hid : n.id < c) (hp : (n.parents.length : Int) = f.tree)
    (j : Int) (hj : j ≠ n.id) : (f.Update n).1.Find j = f.Find j := by
  obtain ⟨hpos, hlen, hframe⟩ := Update_frame f n c hc hid0 hid hp
  obtain ⟨data', hf'⟩ := Update_data f n
  rw [hf'] at hlen hframe ⊢
  simp only at hlen hframe
  apply Find_data_congr
  apply pread_congr
  intro h0 i h1 h2
  apply hframe
  have := slot_disjoint f.nodeSize n.id j hpos hj
  unfold File.offset at h1 h2 ⊢
  simp only [List.length_replicate] at h2
  rcases this with h | h
  · have e : (j + 1) * f.nodeSize = j * f.nodeSize + f.nodeSize := by ring
    omega
  · have e : (n.id + 1) * f.nodeSize = n.id * f.nodeSize + f.nodeSize := by ring
    omega

/-- C18: for every store state and every node `n` with `len(parents) = treeCount`
whose id is an existing record, `Update(n)` changes no byte outside
`[n.id*nodeSize, (n.id+1)*nodeSize)`, `Find(j)` returns the same result before
and after the call for every id `j != n.id` (existing ones in particular), and
the file size is unchanged. -/
theorem C18_update_own_slot (f : File) (n : Node) (c : Int) (hc : f.nodeCount = some c)
    (hid0 : 0 ≤ n.id) (hid : n.id < c) (hp : (n.parents.length : Int) = f.tree) :
    (∀ i : Nat, ¬ (n.id * f.nodeSize ≤ i ∧ (i : Int) < (n.id + 1) * f.nodeSize) →
      (f.Update n).1.data[i]? = f.data[i]?) ∧
    (∀ j : Int, j ≠ n.id → (f.Update n).1.Find j = f.Find j) ∧
    (f.Update n).1.size = f.size ∧ (f.Update n).1.nodeCount = some c := by
  obtain ⟨hpos, hlen, hframe⟩ := Update_frame f n c hc hid0 hid hp
  refine ⟨fun i hi => hframe i ?_, fun j hj => Update_Find_other f n c hc hid0 hid hp j hj, ?_,
    Update_nodeCount f n c hc hid0 hid hp⟩
  · have e : (n.id + 1) * f.nodeSize = n.id * f.nodeSize + f.nodeSize := by ring
    unfold File.offset
    omega
  · simp only [File.size, hlen]

/-- C18 witness: rewriting record 1 of `exStore3` with a bucket of other
children leaves `Find(0)` and `Find(2)` as they were. -/
theorem C18_update_own_slot_witness :
    (exStore3.Update { exBucket with children := [9, 8] }).1.Find 0 = exStore3.Find 0 ∧
    (exStore3.Update { exBucket with children := [9, 8] }).1.Find 2 = exStore3.Find 2 ∧
    (exStore3.Update { exBucket with children := [9, 8] }).1.size = exStore3.size :=
  ⟨(C18_update_own_slot exStore3 { exBucket with children := [9, 8] } 3 (by decide) (by decide)
      (by decide) (by decide)).2.1 0 (by decide),
   (C18_update_own_slot exStore3 { exBucket with children := [9, 8] } 3 (by decide) (by decide)
      (by decide) (by decide)).2.1 2 (by decide),
   (C18_update_own_slot exStore3 { exBucket with children := [9, 8] } 3 (by decide) (by decide)
      (by decide) (by decide)).2.2.1⟩
/-! ## C16: lock ranges and record geometry -/

theorem int64_of_range (x : Int) (h0 : -9223372036854775808 ≤ x)
    (h1 : x ≤ 9223372036854775807) : int64 x = x := by
  unfold int64; omega

/-- The call `Find(id)` returns the error of its `ReadLock(offset(id), nodeSize)`
when that fails. -/
theorem Find_lock_fails (f : File) (id : Int)
    (h : f.locker.ReadLock (f.offset id) f.nodeSize = true) :
    f.Find id = .error { Node.zero with id := id } := by
  simp only [File.Find, h, if_true]

/-- The call `Find(id)` consults the locker in `ReadLock(offset(id), nodeSize)`
only, and returns no error once that lock is granted and the offset is not
negative. -/
theorem Find_lock_granted (f : File) (id : Int)
    (h : f.locker.ReadLock (f.offset id) f.nodeSize = false) :
    f.Find id = File.Find { f with locker := noFail } id ∧
      (0 ≤ f.offset id → f.Find id ≠ .error { Node.zero with id := id }) := by
  have e1 : File.nodeSize { f with locker := noFail } = f.nodeSize := rfl
  have e2 : File.offset { f with locker := noFail } id = f.offset id := rfl
  have e3 : File.parseRecord { f with locker := noFail } = f.parseRecord := rfl
  constructor
  · unfold File.Find
    simp only [e1, e2, e3, h]
    rfl
  · intro h0
    unfold File.Find
    simp only [h, Bool.false_eq_true, if_false]
    cases make (0 : Byte) f.nodeSize with
    | none => simp
    | some b =>
      simp only [pread, not_lt.mpr h0, if_false]
      cases f.parseRecord { Node.zero with id := id }
        ((List.drop (f.offset id).toNat f.data).take b.length ++
          b.drop ((List.drop (f.offset id).toNat f.data).take b.length).length) <;> simp

/-- The call `Update(n)` of an encodable node returns the error of its
`WriteLock(offset(n.id), nodeSize)`, leaving the file as it is, when that
fails, and succeeds when the lock is granted and the offset is not negative. -/
theorem Update_lock (f : File) (n : Node) (he : f.Encodable n) :
    (f.locker.WriteLock (f.offset n.id) f.nodeSize = true → f.Update n = (f, .error ())) ∧
    (f.locker.WriteLock (f.offset n.id) f.nodeSize = false → 0 ≤ f.offset n.id →
      (f.Update n).2 = .ok () ∧
        ∃ buf, f.nodeToBuf n = some buf ∧
          pwrite f.data buf (f.offset n.id) = some (f.Update n).1.data) := by
  obtain ⟨buf, hbuf⟩ := Option.isSome_iff_exists.mp ((nodeToBuf_isSome_iff f n).mpr he)
  constructor
  · intro h
    simp only [File.Update, hbuf, h, if_true]
  · intro h h0
    obtain ⟨data', hw⟩ := pwrite_isSome f.data buf (f.offset n.id) h0
    refine ⟨?_, buf, hbuf, ?_⟩
    · simp only [File.Update, hbuf, h, Bool.false_eq_true, if_false, hw]
    · simp only [File.Update, hbuf, h, Bool.false_eq_true, if_false, hw]

/-- The call `UpdateParent(id, t, p)` returns the error of its
`WriteLock(offset(id) + 9 + 4*t, 4)`, leaving the file as it is, when that
fails; when the lock is granted and the offset is not negative it writes the 4
bytes of `int32(p)` at that offset. -/
theorem UpdateParent_lock (f : File) (id t p : Int) :
    (f.locker.WriteLock (f.offset id + 9 + 4 * t) 4 = true →
      f.UpdateParent id t p = (f, .error ())) ∧
    (f.locker.WriteLock (f.offset id + 9 + 4 * t) 4 = false → 0 ≤ f.offset id + 9 + 4 * t →
      (f.UpdateParent id t p).2 = .ok () ∧ (writeInt32 (int32 p)).length = 4 ∧
        pwrite f.data (writeInt32 (int32 p)) (f.offset id + 9 + 4 * t) =
          some (f.UpdateParent id t p).1.data) := by
  have e : f.offset id + (1 + 4 + 4 + 4 * t) = f.offset id + 9 + 4 * t := by ring
  constructor
  · intro h
    simp only [File.UpdateParent, e, h, if_true]
  · intro h h0
    obtain ⟨data', hw⟩ := pwrite_isSome f.data (writeInt32 (int32 p)) (f.offset id + 9 + 4 * t) h0
    refine ⟨?_, rfl, ?_⟩
    · simp only [File.UpdateParent, e, h, Bool.false_eq_true, if_false, hw]
    · simp only [File.UpdateParent, e, h, Bool.false_eq_true, if_false, hw]
theorem readInt32s_getElem? (b : List Byte) (n : Nat) :
    ∀ (off : Int) (xs : List Int), readInt32s b off n = some xs →
      ∀ t : Nat, t < n → readInt32 b (off + 4 * t) = xs[t]? := by
  induction n with
  | zero => intro off xs _ t ht; omega
  | succ n ih =>
    intro off xs h t ht
    simp only [readInt32s] at h
    cases hx : readInt32 b off with
    | none => rw [hx] at h; cases h
    | some x =>
      cases hr : readInt32s b (off + 4) n with
      | none => rw [hx, hr] at h; cases h
      | some r =>
        rw [hx, hr] at h
        simp only [Option.some_bind, Option.map_some', Option.some.injEq] at h
        subst h
        cases t with
        | zero => simpa using hx
        | succ t =>
          have := ih (off + 4) r hr t (by omega)
          simp only [List.getElem?_cons_succ]
          rw [← this]; congr 1; push_cast; ring

/-- The value `Find` returns as `parents[t]` is decoded from the bytes
`9+4t .. 9+4t+3` of the record. -/
theorem parseRecord_parent_slot (f : File) (node : Node) (b : List Byte) (m : Node)
    (h : f.parseRecord node b = some m) (t : Nat) (ht : (t : Int) < f.tree) :
    readInt32 b (9 + 4 * t) = m.parents[t]? := by
  unfold File.parseRecord at h
  cases h0 : b[(0 : Nat)]? with
  | none => rw [h0] at h; cases h
  | some b0 =>
    cases h1 : readInt32 b 1 with
    | none => rw [h0, h1] at h; cases h
    | some d =>
      cases h5 : readInt32 b 5 with
      | none => rw [h0, h1, h5] at h; cases h
      | some key =>
        cases hm : make (0 : Int) f.tree with
        | none => rw [h0, h1, h5, hm] at h; cases h
        | some mk =>
          cases hp : readInt32s b 9 f.tree.toNat with
          | none => rw [h0, h1, h5, hm, hp] at h; cases h
          | some ps =>
            have hps := readInt32s_getElem? b f.tree.toNat 9 ps hp t (by omega)
            obtain ⟨-, hlen, -⟩ := parseRecord_some_parents f node b m (by
              unfold File.parseRecord; exact h)
            rw [h0, h1, h5, hm, hp] at h
            simp only [Option.some_bind, Option.bind_eq_bind] at h
            have hpm : m.parents = ps := by
              split_ifs at h
              · cases hv : sliceFrom b f.offsetOfV with
                | none => rw [hv] at h; cases h
                | some tl =>
                  rw [hv] at h
                  simp only [Option.some_bind] at h
                  cases hf : bytesToFloat64s tl with
                  | none => rw [hf] at h; cases h
                  | some v => rw [hf] at h; cases h; rfl
              · cases hmk : make (0 : Int) d with
                | none => rw [hmk] at h; cases h
                | some m2 =>
                  rw [hmk] at h
                  simp only [Option.some_bind] at h
                  cases hc : readInt32s b (f.offsetOfV - 4 * 2) d.toNat with
                  | none => rw [hc] at h; cases h
                  | some cs => rw [hc] at h; cases h; rfl
              · cases hc : readInt32s b (f.offsetOfV - 4 * 2) 2 with
                | none => rw [hc] at h; cases h
                | some cs =>
                  rw [hc] at h
                  simp only [Option.some_bind] at h
                  cases hv : sliceFrom b f.offsetOfV with
                  | none => rw [hv] at h; cases h
                  | some tl =>
                    rw [hv] at h
                    simp only [Option.some_bind] at h
                    cases hf : bytesToFloat64s tl with
                    | none => rw [hf] at h; cases h
                    | some v => rw [hf] at h; cases h; rfl
            rw [hps, hpm]

/-- The lock calls of `Find`, `Update` and `UpdateParent` against the geometry
of the records, for an id whose record ends within the 64-bit offsets. -/
theorem lock_ranges_core (f : File) (id : Int) (n : Node) (hn : n.id = id) (hid : 0 ≤ id)
    (ht : 0 ≤ f.tree) (hd : 0 ≤ f.dim)
    (hfit : (id + 1) * f.nodeSize ≤ 9223372036854775807) :
    (f.offsetInt64 id = f.offset id ∧ f.offset id = id * f.nodeSize ∧
      id * f.nodeSize + f.nodeSize = (id + 1) * f.nodeSize) ∧
    (f.locker.ReadLock (id * f.nodeSize) f.nodeSize = true →
      f.Find id = .error { Node.zero with id := id }) ∧
    (f.locker.ReadLock (id * f.nodeSize) f.nodeSize = false →
      f.Find id = File.Find { f with locker := noFail } id ∧
        f.Find id ≠ .error { Node.zero with id := id }) ∧
    (f.Encodable n →
      (f.locker.WriteLock (id * f.nodeSize) f.nodeSize = true → f.Update n = (f, .error ())) ∧
      (f.locker.WriteLock (id * f.nodeSize) f.nodeSize = false →
        (f.Update n).2 = .ok () ∧
          ∃ buf, f.nodeToBuf n = some buf ∧
            pwrite f.data buf (id * f.nodeSize) = some (f.Update n).1.data)) ∧
    (∀ id' : Int, 0 ≤ id' → (id' + 1) * f.nodeSize ≤ 9223372036854775807 → id' ≠ id →
      f.offsetInt64 id' = id' * f.nodeSize ∧
      ∀ x : Int, ¬ ((id * f.nodeSize ≤ x ∧ x < (id + 1) * f.nodeSize) ∧
        (id' * f.nodeSize ≤ x ∧ x < (id' + 1) * f.nodeSize))) ∧
    (∀ t : Int, 0 ≤ t → t < f.tree →
      int64 (f.offsetInt64 id + int64 (1 + 4 + 4 + 4 * t)) = id * f.nodeSize + 9 + 4 * t ∧
      (f.locker.WriteLock (id * f.nodeSize + 9 + 4 * t) 4 = true →
        ∀ p : Int, f.UpdateParent id t p = (f, .error ())) ∧
      (f.locker.WriteLock (id * f.nodeSize + 9 + 4 * t) 4 = false →
        ∀ p : Int, (f.UpdateParent id t p).2 = .ok () ∧ (writeInt32 (int32 p)).length = 4 ∧
          pwrite f.data (writeInt32 (int32 p)) (id * f.nodeSize + 9 + 4 * t) =
            some (f.UpdateParent id t p).1.data) ∧
      (id * f.nodeSize ≤ id * f.nodeSize + 9 + 4 * t ∧
        id * f.nodeSize + 9 + 4 * t + 4 ≤ (id + 1) * f.nodeSize) ∧
      (∀ m : Node, f.Find id = .ok m →
        ∃ b, pread f.data (List.replicate f.nodeSize.toNat 0) (id * f.nodeSize) = some b ∧
          f.parseRecord { Node.zero with id := id } b = some m ∧
          readInt32 b (9 + 4 * t) = m.parents[t.toNat]? ∧ t.toNat < m.parents.length) ∧
      (∀ t' : Int, t' ≠ t → ∀ x : Int,
        ¬ ((id * f.nodeSize + 9 + 4 * t ≤ x ∧ x < id * f.nodeSize + 9 + 4 * t + 4) ∧
          (id * f.nodeSize + 9 + 4 * t' ≤ x ∧ x < id * f.nodeSize + 9 + 4 * t' + 4)))) := by
  have hns : f.nodeSize = 17 + 4 * f.tree + 8 * f.dim := by unfold File.nodeSize; ring
  have hpos : 0 < f.nodeSize := by omega
  have e : (id + 1) * f.nodeSize = id * f.nodeSize + f.nodeSize := by ring
  have h0 : 0 ≤ id * f.nodeSize := Int.mul_nonneg hid (le_of_lt hpos)
  have hoff : f.offset id = id * f.nodeSize := rfl
  have hoffn : f.offset n.id = id * f.nodeSize := by rw [hn]; rfl
  have h64 : f.offsetInt64 id = id * f.nodeSize :=
    int64_of_range _ (by omega) (by omega)
  refine ⟨⟨h64, rfl, e.symm⟩, fun h => Find_lock_fails f id h, fun h => ?_, fun he => ?_,
    fun id' hid' hfit' hne => ?_, fun t ht0 htt => ?_⟩
  · obtain ⟨h1, h2⟩ := Find_lock_granted f id h
    exact ⟨h1, h2 h0⟩
  · obtain ⟨h1, h2⟩ := Update_lock f n he
    rw [hoffn] at h1 h2
    exact ⟨h1, fun h => h2 h h0⟩
  · have e' : (id' + 1) * f.nodeSize = id' * f.nodeSize + f.nodeSize := by ring
    have h0' : 0 ≤ id' * f.nodeSize := Int.mul_nonneg hid' (le_of_lt hpos)
    refine ⟨int64_of_range _ (by omega) (by omega), fun x hx => ?_⟩
    rcases slot_disjoint f.nodeSize id id' hpos hne with h | h <;> omega
  · refine ⟨?_, fun h p => ?_, fun h p => ?_, by omega, fun m hm => ?_, fun t' hne x hx => by omega⟩
    · rw [h64, int64_of_range (1 + 4 + 4 + 4 * t) (by omega) (by omega)]
      rw [int64_of_range _ (by omega) (by omega)]
      ring
    · exact (UpdateParent_lock f id t p).1 h
    · exact (UpdateParent_lock f id t p).2 h (by rw [hoff]; omega)
    · obtain ⟨-, -, b, hb, hparse⟩ := Find_ok_inv f id m hm
      obtain ⟨-, hlen, -⟩ := parseRecord_some_parents f { Node.zero with id := id } b m hparse
      refine ⟨b, hb, hparse, ?_, by omega⟩
      have := parseRecord_parent_slot f { Node.zero with id := id } b m hparse t.toNat (by omega)
      rw [← this]
      congr 2
      omega

/-- C16 (as stated, refuted): in `exStore3` (records of 29 bytes) the id
`636094623231363849` is not negative, and the product `int64(id) * nodeSize`
that `Find` and `Update` pass to the locker is, in 64-bit arithmetic, 5 and not
`id * 29`: the range locked is `[5, 34)`, which shares the byte 5 with the
range `[0, 29)` of id 0. And `Update` of a node that `nodeToBuf` does not encode
requests no lock: behind a locker whose write locks all fail it panics, where
`Update` of an encodable node returns the error of the lock. -/
theorem C16_lock_ranges_counterexample :
    exStore3.nodeSize = 29 ∧ (0 : Int) ≤ 636094623231363849 ∧
    636094623231363849 * exStore3.nodeSize = 18446744073709551621 ∧
    exStore3.offsetInt64 636094623231363849 = 5 ∧
    exStore3.offsetInt64 0 = 0 ∧
    (exStore3.offsetInt64 0 ≤ 5 ∧ 5 < exStore3.offsetInt64 0 + exStore3.nodeSize) ∧
    (exStoreWriteFails.Update exThreeChildren).2 = .panicked ∧
    (exStoreWriteFails.Update exInternal).2 = .error () := by
  decide

/-- C16 (amended): for every id `>= 0` whose record ends within the 64-bit
offsets, `(id+1)*nodeSize <= 2^63 - 1`, in a configuration with
`treeCount >= 0` and `dim >= 0`: the 64-bit offset the code computes is
`id*nodeSize`; `Find(id)` returns the error of its lock on
`[id*nodeSize, (id+1)*nodeSize)` when that fails and otherwise what it returns
without a locker, never an error; `Update` of an encodable node with that id
returns the error of its lock on the same range, writing nothing, when that
fails and otherwise succeeds, writing the record at `id*nodeSize`; the ranges
of two distinct such ids are disjoint; and for every `t` with
`0 <= t < treeCount`, `UpdateParent(id, t, _)` locks and writes exactly the 4
bytes starting at `id*nodeSize + 9 + 4*t`, which lie inside the range of record
`id`, are the bytes `Find(id)` decodes as `parents[t]`, and are disjoint from
the 4 bytes of any other tree index. -/
theorem C16_lock_ranges (f : File) (id : Int) (n : Node) (hn : n.id = id) (hid : 0 ≤ id)
    (ht : 0 ≤ f.tree) (hd : 0 ≤ f.dim)
    (hfit : (id + 1) * f.nodeSize ≤ 9223372036854775807) :
    (f.offsetInt64 id = f.offset id ∧ f.offset id = id * f.nodeSize ∧
      id * f.nodeSize + f.nodeSize = (id + 1) * f.nodeSize) ∧
    (f.locker.ReadLock (id * f.nodeSize) f.nodeSize = true →
      f.Find id = .error { Node.zero with id := id }) ∧
    (f.locker.ReadLock (id * f.nodeSize) f.nodeSize = false →
      f.Find id = File.Find { f with locker := noFail } id ∧
        f.Find id ≠ .error { Node.zero with id := id }) ∧
    (f.Encodable n →
      (f.locker.WriteLock (id * f.nodeSize) f.nodeSize = true → f.Update n = (f, .error ())) ∧
      (f.locker.WriteLock (id * f.nodeSize) f.nodeSize = false →
        (f.Update n).2 = .ok () ∧
          ∃ buf, f.nodeToBuf n = some buf ∧
            pwrite f.data buf (id * f.nodeSize) = some (f.Update n).1.data)) ∧
    (∀ id' : Int, 0 ≤ id' → (id' + 1) * f.nodeSize ≤ 9223372036854775807 → id' ≠ id →
      f.offsetInt64 id' = id' * f.nodeSize ∧
      ∀ x : Int, ¬ ((id * f.nodeSize ≤ x ∧ x < (id + 1) * f.nodeSize) ∧
        (id' * f.nodeSize ≤ x ∧ x < (id' + 1) * f.nodeSize))) ∧
    (∀ t : Int, 0 ≤ t → t < f.tree →
      int64 (f.offsetInt64 id + int64 (1 + 4 + 4 + 4 * t)) = id * f.nodeSize + 9 + 4 * t ∧
      (f.locker.WriteLock (id * f.nodeSize + 9 + 4 * t) 4 = true →
        ∀ p : Int, f.UpdateParent id t p = (f, .error ())) ∧
      (f.locker.WriteLock (id * f.nodeSize + 9 + 4 * t) 4 = false →
        ∀ p : Int, (f.UpdateParent id t p).2 = .ok () ∧ (writeInt32 (int32 p)).length = 4 ∧
          pwrite f.data (writeInt32 (int32 p)) (id * f.nodeSize + 9 + 4 * t) =
            some (f.UpdateParent id t p).1.data) ∧
      (id * f.nodeSize ≤ id * f.nodeSize + 9 + 4 * t ∧
        id * f.nodeSize + 9 + 4 * t + 4 ≤ (id + 1) * f.nodeSize) ∧
      (∀ m : Node, f.Find id = .ok m →
        ∃ b, pread f.data (List.replicate f.nodeSize.toNat 0) (id * f.nodeSize) = some b ∧
          f.parseRecord { Node.zero with id := id } b = some m ∧
          readInt32 b (9 + 4 * t) = m.parents[t.toNat]? ∧ t.toNat < m.parents.length) ∧
      (∀ t' : Int, t' ≠ t → ∀ x : Int,
        ¬ ((id * f.nodeSize + 9 + 4 * t ≤ x ∧ x < id * f.nodeSize + 9 + 4 * t + 4) ∧
          (id * f.nodeSize + 9 + 4 * t' ≤ x ∧ x < id * f.nodeSize + 9 + 4 * t' + 4)))) :=
  lock_ranges_core f id n hn hid ht hd hfit

/-- C16 witness: in `exStoreLockFails`, whose read lock on `[29, 58)` fails,
`Find(1)` returns that error; in `exStoreWriteFails` `Update` of the bucket
`exBucket` (id 1) returns the error of the lock on `[29, 58)` and
`UpdateParent(1, 0, 5)` that of the lock on `[38, 42)`; in `exStore3` both
succeed, and the 4 bytes at 38 lie inside `[29, 58)`. -/
theorem C16_lock_ranges_witness :
    exStoreLockFails.Find 1 = .error { Node.zero with id := 1 } ∧
    (exStoreWriteFails.Update exBucket).2 = .error () ∧
    (exStoreWriteFails.UpdateParent 1 0 5).2 = .error () ∧
    (exStore3.Update exBucket).2 = .ok () ∧
    (exStore3.UpdateParent 1 0 5).2 = .ok () ∧
    ((1 : Int) * exStore3.nodeSize ≤ 1 * exStore3.nodeSize + 9 + 4 * 0 ∧
      1 * exStore3.nodeSize + 9 + 4 * 0 + 4 ≤ (1 + 1) * exStore3.nodeSize) :=
  ⟨(C16_lock_ranges exStoreLockFails 1 exBucket rfl (by decide) (by decide) (by decide)
      (by decide)).2.1 (by decide),
   congrArg Prod.snd (((C16_lock_ranges exStoreWriteFails 1 exBucket rfl (by decide) (by decide)
      (by decide) (by decide)).2.2.2.1 (by decide)).1 (by decide)),
   congrArg Prod.snd (((C16_lock_ranges exStoreWriteFails 1 exBucket rfl (by decide) (by decide)
      (by decide) (by decide)).2.2.2.2.2 0 (by decide) (by decide)).2.1 (by decide) 5),
   (((C16_lock_ranges exStore3 1 exBucket rfl (by decide) (by decide) (by decide)
      (by decide)).2.2.2.1 (by decide)).2 (by decide)).1,
   (((C16_lock_ranges exStore3 1 exBucket rfl (by decide) (by decide) (by decide)
      (by decide)).2.2.2.2.2 0 (by decide) (by decide)).2.2.1 (by decide) 5).1,
   ((C16_lock_ranges exStore3 1 exBucket rfl (by decide) (by decide) (by decide)
      (by decide)).2.2.2.2.2 0 (by decide) (by decide)).2.2.2.1⟩

/-! ## C14: the tabular import -/

theorem set_at_length {α : Type} (pre : List α) (x a : α) (ys : List α) :
    (pre ++ x :: ys).set pre.length a = pre ++ a :: ys := by
  simp

/-- The inner loop of `csvConverter.Convert` on components that all parse puts the
parsed numbers into the slots it finds. -/
theorem fill_ok (s : Strconv) (comps : List String) :
    ∀ (xs pre zs : List Float64), comps.map s.ParseFloat = xs.map some →
      zs.length = comps.length →
      csvConverter.fill s comps pre.length (pre ++ zs) = .ok (pre ++ xs) := by
  induction comps with
  | nil =>
    intro xs pre zs hx hz
    cases xs with
    | nil =>
      cases zs with
      | nil => rfl
      | cons z zs => simp at hz
    | cons x xs => simp at hx
  | cons fld rest ih =>
    intro xs pre zs hx hz
    cases xs with
    | nil => simp at hx
    | cons x xs =>
      cases zs with
      | nil => simp at hz
      | cons z zs =>
        simp only [List.map_cons, List.cons.injEq] at hx
        have hlt : pre.length < (pre ++ z :: zs).length := by simp
        have hstep := ih xs (pre ++ [x]) zs hx.2 (by simpa using hz)
        simp only [List.length_append, List.length_singleton, List.append_assoc,
          List.singleton_append] at hstep
        simp only [csvConverter.fill, hx.1, hlt, if_true, set_at_length, hstep]

theorem csv_loop_ok (c : csvConverter) (s : Strconv) (rows : List (List String))
    (items : List (Int × List Float64)) (h : List.Forall₂ (RowParses s c.dim) rows items) :
    ∀ (keys : List Int) (vecs : List (List Float64)),
      c.loop s (rows.map some) keys vecs =
        .addItems (keys ++ items.map Prod.fst) (vecs ++ items.map Prod.snd) := by
  induction h with
  | nil => intro keys vecs; simp [csvConverter.loop]
  | @cons row item rows items hrow _ ih =>
    intro keys vecs
    obtain ⟨r0, comps, hr, hkey, hlen, hcomps⟩ := hrow
    have hd : 0 ≤ c.dim := by omega
    have hfill := fill_ok s comps item.2 [] (List.replicate c.dim.toNat 0) hcomps (by
      simp only [List.length_replicate]; omega)
    simp only [List.length_nil, List.nil_append] at hfill
    subst hr
    simp only [List.map_cons, csvConverter.loop, hkey, make_eq_some (0 : Float64) hd, hfill, ih,
      List.append_assoc, List.singleton_append]

/-- C14: for every CSV input of `n` rows, each an integer key followed by exactly
`dim` numeric components, `csvConverter.Convert` (the file opened, `CreateMeta`
and `NewGannoyIndex` succeeding) calls `AddItems` once with `keys` and `vecs`
both of length `n`, `keys[i]` being the integer parsed from row `i` column 0
and `vecs[i]` the `dim` numbers parsed from its columns `1 .. dim`, in row
order. -/
theorem C14_csv_import (c : csvConverter) (s : Strconv) (x : External)
    (rows : List (List String)) (items : List (Int × List Float64))
    (hmeta : x.CreateMetaFails = false) (hindex : x.NewGannoyIndexFails = false)
    (hrows : List.Forall₂ (RowParses s c.dim) rows items) :
    c.Convert s x (some (rows.map some)) =
        .addItems (items.map Prod.fst) (items.map Prod.snd) ∧
      (items.map Prod.fst).length = rows.length ∧ (items.map Prod.snd).length = rows.length ∧
      ∀ v ∈ items.map Prod.snd, (v.length : Int) = c.dim := by
  refine ⟨?_, by simp [hrows.length_eq], by simp [hrows.length_eq], ?_⟩
  · have := csv_loop_ok c s rows items hrows [] []
    simp only [List.nil_append] at this
    simp only [csvConverter.Convert, hmeta, hindex, Bool.false_eq_true, if_false, this]
  · intro v hv
    obtain ⟨item, hitem, rfl⟩ := List.mem_map.mp hv
    obtain ⟨row, -, hrow⟩ : ∃ row, row ∈ rows ∧ RowParses s c.dim row item := by
      clear hv
      induction hrows with
      | nil => cases hitem
      | @cons r i rs is hr _ ih =>
        rcases List.mem_cons.mp hitem with h | h
        · exact ⟨r, List.mem_cons_self _ _, h ▸ hr⟩
        · obtain ⟨row, hmem, hp⟩ := ih h
          exact ⟨row, List.mem_cons_of_mem _ hmem, hp⟩
    obtain ⟨r0, comps, -, -, hlen, hcomps⟩ := hrow
    have := congrArg List.length hcomps
    simp only [List.length_map] at this
    omega

/-- C14 witness: the rows `1,0.1,0.2` and `2,0.3,0.4` with `dim = 2` give the keys
`[1, 2]` and the vectors `[[0.1, 0.2], [0.3, 0.4]]`. -/
theorem C14_csv_import_witness :
    exCsvConverter.Convert exStrconv exExternal
        (some ([["1", "0.1", "0.2"], ["2", "0.3", "0.4"]].map some)) =
      .addItems [1, 2]
        [[4591870180066957722, 4596373779694328218],
         [4599075939470750515, 4600877379321698714]] :=
  (C14_csv_import exCsvConverter exStrconv exExternal
    [["1", "0.1", "0.2"], ["2", "0.3", "0.4"]]
    [(1, [4591870180066957722, 4596373779694328218]),
     (2, [4599075939470750515, 4600877379321698714])] rfl rfl
    (List.Forall₂.cons ⟨"1", ["0.1", "0.2"], rfl, by decide, by decide, by decide⟩
      (List.Forall₂.cons ⟨"2", ["0.3", "0.4"], rfl, by decide, by decide, by decide⟩
        List.Forall₂.nil))).1

/-! ## The loop of `converter.Convert` -/

theorem bigEndian_total : bigEndian.Total :=
  ⟨fun bs h => beUint32_isSome bs h, fun bs h => beUint64_isSome bs h⟩

theorem littleEndian_total : littleEndian.Total := by
  constructor
  · intro bs h
    match bs, h with
    | a :: b :: c :: d :: _, _ => exact ⟨_, rfl⟩
  · intro bs h
    match bs, h with
    | a :: b :: c :: d :: e :: f :: g :: k :: _, _ => exact ⟨_, rfl⟩

theorem decodeFloat64s_isSome (o : ByteOrder) (ho : o.Total) (n : Nat) :
    ∀ bs : List Byte, 8 * n ≤ bs.length →
      ∃ v, decodeFloat64s o n bs = some v ∧ v.length = n := by
  induction n with
  | zero => intro bs _; exact ⟨[], rfl, rfl⟩
  | succ n ih =>
    intro bs h
    obtain ⟨u, hu⟩ := ho.2 (bs.take 8) (by simp only [List.length_take]; omega)
    obtain ⟨v, hv, hl⟩ := ih (bs.drop 8) (by simp only [List.length_drop]; omega)
    exact ⟨float64frombits u :: v, by simp [decodeFloat64s, hu, hv], by simp [hl]⟩

theorem converter_nodeSize_eq (c : converter) (hd : 0 ≤ c.dim) :
    c.nodeSize.toNat = 12 + 8 * c.dim.toNat ∧ c.nodeSize = (c.nodeSize.toNat : Int) := by
  unfold converter.nodeSize; omega

theorem converter_record_length (c : converter) (ann : List Byte) (t : Nat)
    (hin : (t + 1) * c.nodeSize.toNat ≤ ann.length) :
    (c.record ann t).length = c.nodeSize.toNat := by
  have e : (t + 1) * c.nodeSize.toNat = t * c.nodeSize.toNat + c.nodeSize.toNat := by ring
  simp only [converter.record, List.length_take, List.length_drop]
  omega

/-- Under a total byte order every whole record has a descendant count and a
vector of `dim` components. -/
theorem converter_record_decodes (c : converter) (ann : List Byte) (t : Nat)
    (ho : c.order.Total) (hd : 0 ≤ c.dim) (hin : (t + 1) * c.nodeSize.toNat ≤ ann.length) :
    (∃ d, c.descendants ann t = some d) ∧
      ∃ v, c.vector ann t = some v ∧ (v.length : Int) = c.dim := by
  have hl := converter_record_length c ann t hin
  have hn := (converter_nodeSize_eq c hd).1
  constructor
  · obtain ⟨u, hu⟩ := ho.1 ((c.record ann t).take 4) (by
      simp only [List.length_take, hl]; omega)
    exact ⟨int32 u, by
      simp only [converter.descendants, binaryReadInt32, hl, hu, Option.map_some']
      rw [if_pos (by omega)]⟩
  · obtain ⟨v, hv, hvl⟩ := decodeFloat64s_isSome c.order ho c.dim.toNat
      ((c.record ann t).drop 12) (by simp only [List.length_drop, hl]; omega)
    exact ⟨v, hv, by omega⟩

/-- One iteration of the loop on a whole record, by its descendant count, its
vector and the map. -/
theorem converter_body_eq (c : converter) (ann : List Byte) (maps : Option IntMap) (t : Nat)
    (hd : 0 ≤ c.dim) (hin : (t + 1) * c.nodeSize.toNat ≤ ann.length) (d : Int)
    (v : List Float64) (hdesc : c.descendants ann t = some d) (hvec : c.vector ann t = some v) :
    c.body ann maps t =
      if d ≠ 1 then .stop
      else match maps with
        | none => .item t v
        | some m =>
          match m t with
          | some k => .item k v
          | none => .fail := by
  obtain ⟨hn, hN⟩ := converter_nodeSize_eq c hd
  have hl := converter_record_length c ann t hin
  have hns : 0 ≤ c.nodeSize := by omega
  have hoff : c.offset t = ((t * c.nodeSize.toNat : Nat) : Int) := by
    unfold converter.offset
    rw [Nat.cast_mul, ← hN]; ring
  have e : (t + 1) * c.nodeSize.toNat = t * c.nodeSize.toNat + c.nodeSize.toNat := by ring
  have hread : pread ann (List.replicate c.nodeSize.toNat 0) (c.offset t) =
      some (c.record ann t) := by
    rw [pread_full ann _ _ (by rw [hoff]; positivity) (by rw [hoff, Int.toNat_ofNat]; omega),
      hoff, Int.toNat_ofNat]
    rfl
  have hmin : min 4 (c.record ann t).length + 4 * 2 = 12 := by
    rw [hl]; omega
  have hvec' : binaryReadFloat64s c.order (c.record ann t) 12
      (List.replicate c.dim.toNat 0) = some v := by
    simp only [binaryReadFloat64s, List.length_replicate, hl]
    rw [if_pos (by omega)]
    exact hvec
  simp only [converter.descendants] at hdesc
  simp only [converter.body, make_eq_some (0 : Byte) hns, hread, hdesc,
    make_eq_some (0 : Float64) hd, hmin, hvec']

theorem assignAt_at_length {α : Type} (pre : List α) (x a : α) (ys : List α) :
    assignAt (pre ++ x :: ys) (pre.length : Int) a = some (pre ++ a :: ys) := by
  have h : (0 : Int) ≤ pre.length ∧ (pre.length : Int) < ((pre ++ x :: ys).length : Int) := by
    simp only [List.length_append, List.length_cons]; omega
  simp only [assignAt, h, and_self, if_true, Int.toNat_ofNat, set_at_length]

/-- While the iterations assign items, the loop of `converter.Convert` fills the
slots `keys[i]`, `vecs[i]` one after another. -/
theorem converter_loop_items (c : converter) (ann : List Byte) (maps : Option IntMap)
    (keyOf : Nat → Int) (vecOf : Nat → List Float64) (m : Nat) :
    ∀ (k : Nat) (pre mid post : List Int) (vpre vmid vpost : List (List Float64)),
      mid.length = m → vmid.length = m → vpre.length = pre.length →
      (∀ t : Nat, t < m →
        c.body ann maps ((pre.length + t : Nat) : Int) =
          .item (keyOf (pre.length + t)) (vecOf (pre.length + t))) →
      c.loop ann maps (m + k) (pre.length : Int) (pre ++ mid ++ post) (vpre ++ vmid ++ vpost) =
        c.loop ann maps k ((pre.length + m : Nat) : Int)
          (pre ++ (List.range' pre.length m).map keyOf ++ post)
          (vpre ++ (List.range' pre.length m).map vecOf ++ vpost) := by
  induction m with
  | zero =>
    intro k pre mid post vpre vmid vpost hm hvm _ _
    have h1 : mid = [] := List.length_eq_zero.mp hm
    have h2 : vmid = [] := List.length_eq_zero.mp hvm
    subst h1; subst h2
    simp
  | succ m ih =>
    intro k pre mid post vpre vmid vpost hm hvm hpre hbody
    cases mid with
    | nil => simp at hm
    | cons x mid =>
      cases vmid with
      | nil => simp at hvm
      | cons y vmid =>
        have h0 := hbody 0 (by omega)
        simp only [add_zero] at h0
        have hk : m + 1 + k = (m + k) + 1 := by omega
        have hstep := ih k (pre ++ [keyOf pre.length]) mid post (vpre ++ [vecOf pre.length]) vmid
          vpost (by simpa using hm) (by simpa using hvm) (by simp [hpre])
          (fun t ht => by
            have := hbody (t + 1) (by omega)
            simp only [List.length_append, List.length_singleton]
            rw [show pre.length + 1 + t = pre.length + (t + 1) by omega]
            exact this)
        simp only [List.length_append, List.length_singleton, List.append_assoc,
          List.singleton_append] at hstep
        have ha1 := assignAt_at_length pre x (keyOf pre.length) (mid ++ post)
        have ha2 := assignAt_at_length vpre y (vecOf pre.length) (vmid ++ vpost)
        rw [hpre] at ha2
        rw [hk]
        simp only [converter.loop, h0, List.append_assoc, List.cons_append, ha1, ha2]
        rw [show ((pre.length : Int) + 1) = ((pre.length + 1 : Nat) : Int) by push_cast; rfl]
        simp only [List.cons_append] at hstep
        rw [hstep, List.range'_succ]
        simp only [List.map_cons, List.cons_append, Nat.add_assoc, Nat.add_comm 1 m]

/-- Lines 69-105 on a dump holding `n` whole records whose first `j` iterations
assign items: `AddItems` receives `n` entries when the loop stops at `j`, and
is not called when iteration `j` returns an error. -/
theorem converter_convertAll_eq (c : converter) (ann : List Byte) (maps : Option IntMap)
    (keyOf : Nat → Int) (vecOf : Nat → List Float64) (n j : Nat) (hd : 0 ≤ c.dim)
    (hlen : ann.length / c.nodeSize.toNat = n) (hj : j ≤ n)
    (hbody : ∀ t : Nat, t < j → c.body ann maps (t : Int) = .item (keyOf t) (vecOf t)) :
    ((j = n ∨ c.body ann maps (j : Int) = .stop) →
      c.convertAll ann maps =
        .addItems ((List.range j).map keyOf ++ List.replicate (n - j) 0)
          ((List.range j).map vecOf ++ List.replicate (n - j) [])) ∧
    (j < n → c.body ann maps (j : Int) = .fail → c.convertAll ann maps = .failed) := by
  obtain ⟨hn, hN⟩ := converter_nodeSize_eq c hd
  have hne : c.nodeSize ≠ 0 := by omega
  have hcount : (ann.length : Int).tdiv c.nodeSize = n := by
    rw [hN, ← Int.ofNat_tdiv, hlen]
  have hloop := converter_loop_items c ann maps keyOf vecOf j (n - j) [] (List.replicate j 0)
    (List.replicate (n - j) 0) [] (List.replicate j []) (List.replicate (n - j) [])
    (by simp) (by simp) rfl (fun t ht => by simpa using hbody t ht)
  simp only [List.length_nil, Nat.cast_zero, List.nil_append, Nat.zero_add,
    ← List.replicate_add, Nat.add_sub_cancel' hj, ← List.range_eq_range'] at hloop
  have hconv : c.convertAll ann maps =
      c.loop ann maps (n - j) (j : Int)
        ((List.range j).map keyOf ++ List.replicate (n - j) 0)
        ((List.range j).map vecOf ++ List.replicate (n - j) []) := by
    simp only [converter.convertAll, hne, if_false, hcount,
      make_eq_some (0 : Int) (Int.natCast_nonneg n),
      make_eq_some ([] : List Float64) (Int.natCast_nonneg n), Int.toNat_ofNat]
    exact hloop
  constructor
  · intro h
    rw [hconv]
    rcases h with h | h
    · subst h
      simp [converter.loop]
    · cases hk : n - j with
      | zero => simp [converter.loop]
      | succ k => simp only [converter.loop, h]
  · intro hlt h
    rw [hconv]
    obtain ⟨k, hk⟩ : ∃ k, n - j = k + 1 := ⟨n - j - 1, by omega⟩
    rw [hk]
    simp only [converter.loop, h]

theorem whole_record (n t N L : Nat) (ht : t < n) (hlen : L / N = n) : (t + 1) * N ≤ L := by
  subst hlen
  exact le_trans (Nat.mul_le_mul_right N ht) (Nat.div_mul_le_self L N)

theorem whole_records_div (c : converter) (ann : List Byte) (n : Nat) (hd : 0 ≤ c.dim)
    (hlen : ann.length = n * c.nodeSize.toNat) : ann.length / c.nodeSize.toNat = n := by
  have hpos : 0 < c.nodeSize.toNat := by
    have := (converter_nodeSize_eq c hd).1
    omega
  rw [hlen, Nat.mul_div_cancel _ hpos]

/-- The loop over a dump of `n` whole records whose first `j` records are leaves
and whose record `j`, if there is one, is not: with a key for each of the `j`
indices, `AddItems` receives `n` entries, the last `n - j` of them untouched. -/
theorem converter_convertAll_leaves (c : converter) (ann : List Byte) (maps : Option IntMap)
    (n j : Nat) (ho : c.order.Total) (hd : 0 ≤ c.dim)
    (hlen : ann.length / c.nodeSize.toNat = n) (hj : j ≤ n)
    (hleaf : ∀ t : Nat, t < j → c.descendants ann t = some 1)
    (hstop : j < n → c.descendants ann j ≠ some 1)
    (keyOf : Nat → Int)
    (hkey : ∀ t : Nat, t < j →
      match maps with
      | none => keyOf t = (t : Int)
      | some m => m (t : Int) = some (keyOf t)) :
    c.convertAll ann maps =
      .addItems ((List.range j).map keyOf ++ List.replicate (n - j) 0)
        ((List.range j).map (fun t => (c.vector ann t).getD []) ++ List.replicate (n - j) []) := by
  refine (converter_convertAll_eq c ann maps keyOf (fun t => (c.vector ann t).getD []) n j hd
    hlen hj ?_).1 ?_
  · intro t ht
    have hin := whole_record n t c.nodeSize.toNat ann.length (by omega) hlen
    obtain ⟨v, hv, _⟩ := (converter_record_decodes c ann t ho hd hin).2
    rw [converter_body_eq c ann maps t hd hin 1 v (hleaf t ht) hv]
    have hk := hkey t ht
    cases maps with
    | none => simp only [ne_eq, not_true_eq_false, if_false, hv, Option.getD_some, hk]
    | some m =>
      simp only at hk
      simp only [ne_eq, not_true_eq_false, if_false, hv, Option.getD_some, hk]
  · rcases Nat.lt_or_ge j n with h | h
    · right
      have hin := whole_record n j c.nodeSize.toNat ann.length h hlen
      obtain ⟨⟨d, hdesc⟩, v, hv, _⟩ := converter_record_decodes c ann j ho hd hin
      have hne : d ≠ 1 := fun e => hstop h (by rw [hdesc, e])
      rw [converter_body_eq c ann maps j hd hin d v hdesc hv]
      simp only [ne_eq, hne, not_false_eq_true, if_true]
    · left; omega

/-- The loop over a dump whose first `j` records are leaves returns an error,
without a call of `AddItems`, when the map has no entry for an index below
`j`. -/
theorem converter_convertAll_missing (c : converter) (ann : List Byte) (m : IntMap)
    (n j : Nat) (ho : c.order.Total) (hd : 0 ≤ c.dim)
    (hlen : ann.length / c.nodeSize.toNat = n) (hj : j ≤ n)
    (hleaf : ∀ t : Nat, t < j → c.descendants ann t = some 1) :
    ∀ i : Nat, i < j → m (i : Int) = none → c.convertAll ann (some m) = .failed := by
  intro i
  induction i using Nat.strong_induction_on with
  | _ i ih =>
    intro hi hmiss
    by_cases h : ∃ t : Nat, t < i ∧ m (t : Int) = none
    · obtain ⟨t, ht, hm⟩ := h
      exact ih t ht (by omega) hm
    · have hall : ∀ t : Nat, t < i → m (t : Int) = some ((m (t : Int)).getD 0) := by
        intro t ht
        cases hm : m (t : Int) with
        | none => exact absurd ⟨t, ht, hm⟩ h
        | some k => rfl
      refine (converter_convertAll_eq c ann (some m) (fun t => (m (t : Int)).getD 0)
        (fun t => (c.vector ann t).getD []) n i hd hlen (by omega) ?_).2 (by omega) ?_
      · intro t ht
        have hin := whole_record n t c.nodeSize.toNat ann.length (by omega) hlen
        obtain ⟨v, hv, _⟩ := (converter_record_decodes c ann t ho hd hin).2
        rw [converter_body_eq c ann (some m) t hd hin 1 v (hleaf t (by omega)) hv]
        have hk := hall t ht
        simp only [ne_eq, not_true_eq_false, if_false, hv, Option.getD_some]
        rw [hk]
        simp only [Option.getD_some]
      · have hin := whole_record n i c.nodeSize.toNat ann.length (by omega) hlen
        obtain ⟨v, hv, _⟩ := (converter_record_decodes c ann i ho hd hin).2
        rw [converter_body_eq c ann (some m) i hd hin 1 v (hleaf i hi) hv]
        simp only [ne_eq, not_true_eq_false, if_false, hmiss]

/-- The map `converter.initializeMaps` builds from a remap file whose records
all parse: the entries of `init` overwritten by the rows in file order. -/
theorem initializeMapsLoop_ok (s : Strconv) (records : List (List String))
    (remap : List (Int × Int)) (hrows : List.Forall₂ (RemapRowParses s) records remap) :
    ∀ init : IntMap, ∃ m : IntMap,
      converter.initializeMapsLoop s (records.map some) init = .ok m ∧
      ∀ i : Int, m i = match remapLookup remap i with
        | some k => some k
        | none => init i := by
  induction hrows with
  | nil => intro init; exact ⟨init, rfl, fun i => rfl⟩
  | @cons record row records remap hrow _ ih =>
    intro init
    obtain ⟨r0, r1, rest, hrec, h0, h1⟩ := hrow
    obtain ⟨m, hm, hlook⟩ := ih (init.insert row.2 row.1)
    refine ⟨m, ?_, ?_⟩
    · subst hrec
      simp only [List.map_cons, converter.initializeMapsLoop, List.getElem?_cons_zero,
        List.getElem?_cons_succ, h0, h1]
      exact hm
    · intro i
      rw [hlook i]
      simp only [remapLookup, IntMap.insert]
      cases remapLookup remap i with
      | some k => rfl
      | none =>
        by_cases e : row.2 = i
        · simp only [e, if_true]
        · have e2 : ¬ i = row.2 := fun h => e h.symm
          simp only [e, e2, if_false]

theorem initializeMaps_ok (s : Strconv) (records : List (List String))
    (remap : List (Int × Int)) (hrows : List.Forall₂ (RemapRowParses s) records remap) :
    ∃ m : IntMap, converter.initializeMaps s (some (records.map some)) = .ok m ∧
      ∀ i : Int, m i = remapLookup remap i := by
  obtain ⟨m, hm, hlook⟩ := initializeMapsLoop_ok s records remap hrows (fun _ => none)
  refine ⟨m, hm, fun i => ?_⟩
  rw [hlook i]
  cases remapLookup remap i <;> rfl

theorem remapLookup_eq_none (remap : List (Int × Int)) (i : Int) :
    remapLookup remap i = none ↔ ∀ row ∈ remap, row.2 ≠ i := by
  induction remap with
  | nil => simp [remapLookup]
  | cons r rest ih =>
    simp only [remapLookup, List.mem_cons, forall_eq_or_imp]
    cases h : remapLookup rest i with
    | some k =>
      have hn : ¬ ∀ row ∈ rest, row.2 ≠ i := fun hh => by rw [ih.mpr hh] at h; cases h
      constructor
      · intro h2; cases h2
      · intro h2; exact absurd h2.2 hn
    | none =>
      have hall := ih.mp h
      by_cases e : r.2 = i
      · simp only [e, if_true]
        constructor
        · intro h2; cases h2
        · intro h2; exact absurd rfl h2.1
      · simp only [e, if_false]
        exact ⟨fun _ => ⟨e, hall⟩, fun _ => trivial⟩

theorem remapLookup_mem (remap : List (Int × Int)) (i k : Int)
    (h : remapLookup remap i = some k) : ∃ row ∈ remap, row.2 = i ∧ row.1 = k := by
  induction remap with
  | nil => simp [remapLookup] at h
  | cons r rest ih =>
    simp only [remapLookup] at h
    cases hr : remapLookup rest i with
    | some k2 =>
      rw [hr] at h
      simp only [Option.some.injEq] at h
      obtain ⟨row, hmem, h1, h2⟩ := ih (by rw [hr, h])
      exact ⟨row, List.mem_cons_of_mem _ hmem, h1, h2⟩
    | none =>
      rw [hr] at h
      by_cases e : r.2 = i
      · simp only [e, if_true, Option.some.injEq] at h
        exact ⟨r, List.mem_cons_self _ _, e, h⟩
      · simp only [e, if_false] at h
        cases h

/-- The whole of `converter.Convert` without a map file on a dump of `n` whole
records whose first `j` records are leaves and whose record `j`, if there is
one, is not. -/
theorem converter_Convert_nomap (c : converter) (s : Strconv) (x : External) (ann : List Byte)
    (n j : Nat) (ho : c.order.Total) (hd : 0 ≤ c.dim)
    (hmeta : x.CreateMetaFails = false) (hindex : x.NewGannoyIndexFails = false)
    (hlen : ann.length = n * c.nodeSize.toNat) (hj : j ≤ n)
    (hleaf : ∀ t : Nat, t < j → c.descendants ann t = some 1)
    (hstop : j < n → c.descendants ann j ≠ some 1) :
    c.Convert s x (some ann) none =
      .addItems ((List.range j).map (fun (t : Nat) => (t : Int)) ++ List.replicate (n - j) 0)
        ((List.range j).map (fun t => (c.vector ann t).getD []) ++ List.replicate (n - j) []) := by
  simp only [converter.Convert, hmeta, hindex, Bool.false_eq_true, if_false]
  exact converter_convertAll_leaves c ann none n j ho hd (whole_records_div c ann n hd hlen) hj
    hleaf hstop
    (fun (t : Nat) => (t : Int)) (fun t _ => rfl)

theorem converter_leaf_vectors (c : converter) (ann : List Byte) (n j : Nat)
    (ho : c.order.Total) (hd : 0 ≤ c.dim) (hlen : ann.length / c.nodeSize.toNat = n)
    (hj : j ≤ n) (t : Nat) (ht : t < j) :
    ∃ v, c.vector ann t = some v ∧ (v.length : Int) = c.dim :=
  (converter_record_decodes c ann t ho hd
    (whole_record n t c.nodeSize.toNat ann.length (by omega) hlen)).2

theorem range_map_append_getElem? {α : Type} (f : Nat → α) (j i : Nat) (hi : i < j)
    (tail : List α) : ((List.range j).map f ++ tail)[i]? = some (f i) := by
  rw [List.getElem?_append_left (by simpa using hi)]
  simp [List.getElem?_range hi]

/-- The whole of `converter.Convert` with a remap file whose records all
parse. -/
theorem converter_Convert_remap (c : converter) (s : Strconv) (x : External) (ann : List Byte)
    (records : List (List String)) (remap : List (Int × Int)) (n j : Nat)
    (ho : c.order.Total) (hd : 0 ≤ c.dim)
    (hlen : ann.length / c.nodeSize.toNat = n) (hj : j ≤ n)
    (hleaf : ∀ t : Nat, t < j → c.descendants ann t = some 1)
    (hstop : j < n → c.descendants ann j ≠ some 1)
    (hrows : List.Forall₂ (RemapRowParses s) records remap) :
    ((∃ i : Nat, i < j ∧ ∀ row ∈ remap, row.2 ≠ (i : Int)) →
      c.Convert s x (some ann) (some (some (records.map some))) = .failed) ∧
    ((∀ i : Nat, i < j → ∃ row ∈ remap, row.2 = (i : Int)) →
      x.CreateMetaFails = false → x.NewGannoyIndexFails = false →
      ∃ keys vecs,
        c.Convert s x (some ann) (some (some (records.map some))) = .addItems keys vecs ∧
        ∀ i : Nat, i < j →
          keys[i]? = remapLookup remap (i : Int) ∧
          (∃ row ∈ remap, row.2 = (i : Int) ∧ keys[i]? = some row.1) ∧
          vecs[i]? = c.vector ann i) := by
  obtain ⟨m, hm, hlook⟩ := initializeMaps_ok s records remap hrows
  constructor
  · rintro ⟨i, hi, hmiss⟩
    have hnone : m (i : Int) = none := by
      rw [hlook]; exact (remapLookup_eq_none remap i).mpr hmiss
    have := converter_convertAll_missing c ann m n j ho hd hlen hj hleaf i hi hnone
    simp only [converter.Convert, hm, this]
    split_ifs <;> rfl
  · intro hall hmeta hindex
    have hsome : ∀ t : Nat, t < j → m (t : Int) = some ((remapLookup remap (t : Int)).getD 0) := by
      intro t ht
      rw [hlook]
      cases h : remapLookup remap (t : Int) with
      | some k => rfl
      | none =>
        obtain ⟨row, hmem, hrow⟩ := hall t ht
        exact absurd hrow ((remapLookup_eq_none remap t).mp h row hmem)
    have hconv := converter_convertAll_leaves c ann (some m) n j ho hd hlen hj hleaf hstop
      (fun t => (remapLookup remap (t : Int)).getD 0) hsome
    refine ⟨_, _, by
      simp only [converter.Convert, hm, hmeta, hindex, Bool.false_eq_true, if_false]
      exact hconv, ?_⟩
    intro i hi
    have hk := range_map_append_getElem? (fun t : Nat => (remapLookup remap (t : Int)).getD 0)
      j i hi (List.replicate (n - j) 0)
    have hv := range_map_append_getElem? (fun t : Nat => (c.vector ann t).getD [])
      j i hi (List.replicate (n - j) [])
    obtain ⟨v, hvec, _⟩ := converter_leaf_vectors c ann n j ho hd hlen hj i hi
    have hl : remapLookup remap (i : Int) = some ((remapLookup remap (i : Int)).getD 0) :=
      (hlook i).symm.trans (hsome i hi)
    obtain ⟨row, hmem, h1, h2⟩ := remapLookup_mem remap i _ hl
    refine ⟨by rw [hk]; exact hl.symm, ⟨row, hmem, h1, by rw [hk, h2]⟩, ?_⟩
    rw [hv, hvec]; rfl

/-- On a remap file whose records all have two columns `initializeMaps` does
not panic: it returns an error, or every read gave a record and every record
parses as a row. -/
theorem initializeMapsLoop_cases (s : Strconv) (file : CsvFile)
    (hcols : ∀ record : List String, some record ∈ file → 2 ≤ record.length) :
    ∀ init : IntMap,
      (∃ m, converter.initializeMapsLoop s file init = .error m) ∨
      ∃ records remap, file = records.map some ∧
        List.Forall₂ (RemapRowParses s) records remap := by
  induction file with
  | nil => intro init; exact Or.inr ⟨[], [], rfl, List.Forall₂.nil⟩
  | cons e rest ih =>
    intro init
    cases e with
    | none => exact Or.inl ⟨init, rfl⟩
    | some record =>
      have hrest : ∀ record : List String, some record ∈ rest → 2 ≤ record.length :=
        fun r hr => hcols r (List.mem_cons_of_mem _ hr)
      have h2 := hcols record (List.mem_cons_self _ _)
      match record, h2 with
      | r0 :: r1 :: tl, _ =>
        cases h0 : s.Atoi r0 with
        | none =>
          exact Or.inl ⟨init, by
            simp only [converter.initializeMapsLoop, List.getElem?_cons_zero, h0]⟩
        | some key =>
          cases h1 : s.Atoi r1 with
          | none =>
            exact Or.inl ⟨init, by
              simp only [converter.initializeMapsLoop, List.getElem?_cons_zero,
                List.getElem?_cons_succ, h0, h1]⟩
          | some index =>
            have hstep : converter.initializeMapsLoop s (some (r0 :: r1 :: tl) :: rest) init =
                converter.initializeMapsLoop s rest (init.insert index key) := by
              simp only [converter.initializeMapsLoop, List.getElem?_cons_zero,
                List.getElem?_cons_succ, h0, h1]
            rcases ih hrest (init.insert index key) with ⟨m, hm⟩ | ⟨records, remap, hfile, hrows⟩
            · exact Or.inl ⟨m, by rw [hstep, hm]⟩
            · exact Or.inr ⟨(r0 :: r1 :: tl) :: records, (key, index) :: remap, by
                rw [hfile]; rfl,
                List.Forall₂.cons ⟨r0, r1, tl, rfl, h0, h1⟩ hrows⟩

theorem remapRows_mem (s : Strconv) (records : List (List String)) (remap : List (Int × Int))
    (hrows : List.Forall₂ (RemapRowParses s) records remap) (row : Int × Int)
    (hrow : row ∈ remap) : ∃ record ∈ records, RemapRowParses s record row := by
  induction hrows with
  | nil => cases hrow
  | @cons r i rs is hr _ ih =>
    rcases List.mem_cons.mp hrow with h | h
    · exact ⟨r, List.mem_cons_self _ _, h ▸ hr⟩
    · obtain ⟨record, hmem, hp⟩ := ih h
      exact ⟨record, List.mem_cons_of_mem _ hmem, hp⟩

/-- The call `AddItems` is reached only after `CreateMeta` and `NewGannoyIndex`
have succeeded. -/
theorem converter_Convert_addItems_inv (c : converter) (s : Strconv) (x : External)
    (dump : Option (List Byte)) (mapFile : Option (Option CsvFile)) (keys : List Int)
    (vecs : List (List Float64)) (h : c.Convert s x dump mapFile = .addItems keys vecs) :
    x.CreateMetaFails = false ∧ x.NewGannoyIndexFails = false := by
  unfold converter.Convert at h
  cases hm : x.CreateMetaFails <;> cases hi : x.NewGannoyIndexFails <;>
    first
    | exact ⟨rfl, rfl⟩
    | (exfalso
       simp only [hm, hi, if_true, Bool.false_eq_true, if_false] at h
       split at h
       · cases h
       · split at h <;> cases h)

/-- The whole of `converter.Convert` with a remap file whose records all have
two columns. -/
theorem converter_Convert_remap_file (c : converter) (s : Strconv) (x : External)
    (ann : List Byte) (file : CsvFile) (n j : Nat)
    (ho : c.order.Total) (hd : 0 ≤ c.dim)
    (hlen : ann.length / c.nodeSize.toNat = n) (hj : j ≤ n)
    (hleaf : ∀ t : Nat, t < j → c.descendants ann t = some 1)
    (hstop : j < n → c.descendants ann j ≠ some 1)
    (hcols : ∀ record : List String, some record ∈ file → 2 ≤ record.length) :
    ((∃ i : Nat, i < j ∧ ∀ (record : List String) (r1 : String), some record ∈ file →
        record[1]? = some r1 → s.Atoi r1 ≠ some (i : Int)) →
      c.Convert s x (some ann) (some (some file)) = .failed) ∧
    (∀ (records : List (List String)) (remap : List (Int × Int)),
      file = records.map some → List.Forall₂ (RemapRowParses s) records remap →
      (∀ i : Nat, i < j → ∃ row ∈ remap, row.2 = (i : Int)) →
      x.CreateMetaFails = false → x.NewGannoyIndexFails = false →
      ∃ keys vecs,
        c.Convert s x (some ann) (some (some file)) = .addItems keys vecs ∧
        ∀ i : Nat, i < j →
          keys[i]? = remapLookup remap (i : Int) ∧
          (∃ row ∈ remap, row.2 = (i : Int) ∧ keys[i]? = some row.1) ∧
          vecs[i]? = c.vector ann i) ∧
    (∀ (keys : List Int) (vecs : List (List Float64)),
      c.Convert s x (some ann) (some (some file)) = .addItems keys vecs →
      ∃ (records : List (List String)) (remap : List (Int × Int)),
        file = records.map some ∧ List.Forall₂ (RemapRowParses s) records remap ∧
        ∀ i : Nat, i < j → ∃ row ∈ remap, row.2 = (i : Int) ∧ keys[i]? = some row.1) := by
  have herr : ∀ m, converter.initializeMapsLoop s file (fun _ => none) = .error m →
      c.Convert s x (some ann) (some (some file)) = .failed := by
    intro m hm
    simp only [converter.Convert, converter.initializeMaps, hm]
  have hmissing : ∀ (records : List (List String)) (remap : List (Int × Int)),
      file = records.map some → List.Forall₂ (RemapRowParses s) records remap →
      ∀ i : Nat, (∀ (record : List String) (r1 : String), some record ∈ file →
        record[1]? = some r1 → s.Atoi r1 ≠ some (i : Int)) →
      ∀ row ∈ remap, row.2 ≠ (i : Int) := by
    intro records remap hfile hrows i hmiss row hrow
    obtain ⟨record, hmem, r0, r1, tl, hrec, -, h1⟩ := remapRows_mem s records remap hrows row hrow
    have hin : some record ∈ file := by rw [hfile]; exact List.mem_map_of_mem _ hmem
    have := hmiss record r1 hin (by rw [hrec]; simp)
    intro e
    rw [e] at h1
    exact this h1
  refine ⟨?_, ?_, ?_⟩
  · rintro ⟨i, hi, hmiss⟩
    rcases initializeMapsLoop_cases s file hcols (fun _ => none) with
      ⟨m, hm⟩ | ⟨records, remap, hfile, hrows⟩
    · exact herr m hm
    · have := (converter_Convert_remap c s x ann records remap n j ho hd hlen hj hleaf hstop
        hrows).1 ⟨i, hi, hmissing records remap hfile hrows i hmiss⟩
      rw [hfile]; exact this
  · intro records remap hfile hrows hall hmeta hindex
    have := (converter_Convert_remap c s x ann records remap n j ho hd hlen hj hleaf hstop
      hrows).2 hall hmeta hindex
    rw [hfile]; exact this
  · intro keys vecs h
    obtain ⟨hmeta, hindex⟩ := converter_Convert_addItems_inv c s x _ _ keys vecs h
    rcases initializeMapsLoop_cases s file hcols (fun _ => none) with
      ⟨m, hm⟩ | ⟨records, remap, hfile, hrows⟩
    · rw [herr m hm] at h; cases h
    · have hcore := converter_Convert_remap c s x ann records remap n j ho hd hlen hj hleaf
        hstop hrows
      rw [← hfile] at hcore
      by_cases hall : ∀ i : Nat, i < j → ∃ row ∈ remap, row.2 = (i : Int)
      · obtain ⟨keys', vecs', h', hk⟩ := hcore.2 hall hmeta hindex
        rw [h] at h'
        cases h'
        exact ⟨records, remap, hfile, hrows, fun i hi => (hk i hi).2.1⟩
      · have hmiss : ∃ i : Nat, i < j ∧ ∀ row ∈ remap, row.2 ≠ (i : Int) := by
          by_contra hcon
          apply hall
          intro i hi
          by_contra hne
          exact hcon ⟨i, hi, fun row hrow e => hne ⟨row, hrow, e⟩⟩
        rw [hcore.1 hmiss] at h
        cases h

/-! ## C12: the stopping rule of the foreign-dump import -/

/-- C12, as the code runs: on a foreign dump of `n` whole records (each
`4 + 2*4 + 8*dim` bytes) in which `j` is the index of the first record whose
descendant count is not 1 (`j = n` if there is none), `converter.Convert`
without a map file passes to `AddItems` two slices of `n` entries, not of `j`:
the index and the vector of the records `0 .. j-1` in order, then `n - j`
entries of key 0 with a nil vector, one for record `j` and for each later
record. -/
theorem C12_foreign_dump_entries (c : converter) (s : Strconv) (x : External)
    (ann : List Byte) (n j : Nat) (ho : c.order.Total) (hd : 0 ≤ c.dim)
    (hmeta : x.CreateMetaFails = false) (hindex : x.NewGannoyIndexFails = false)
    (hlen : ann.length = n * c.nodeSize.toNat) (hj : j ≤ n)
    (hleaf : ∀ t : Nat, t < j → c.descendants ann t = some 1)
    (hstop : j < n → c.descendants ann j ≠ some 1) :
    (∀ t : Nat, t < j → ∃ v, c.vector ann t = some v ∧ (v.length : Int) = c.dim) ∧
    ∃ keys vecs, c.Convert s x (some ann) none = .addItems keys vecs ∧
      keys = (List.range j).map (fun (t : Nat) => (t : Int)) ++ List.replicate (n - j) 0 ∧
      vecs = (List.range j).map (fun t => (c.vector ann t).getD []) ++
        List.replicate (n - j) [] ∧
      keys.length = n ∧ vecs.length = n :=
  ⟨converter_leaf_vectors c ann n j ho hd (whole_records_div c ann n hd hlen) hj,
    _, _, converter_Convert_nomap c s x ann n j ho hd hmeta hindex hlen hj hleaf hstop,
    rfl, rfl, by simp only [List.length_append, List.length_map, List.length_range,
      List.length_replicate]; omega,
    by simp only [List.length_append, List.length_map, List.length_range,
      List.length_replicate]; omega⟩

/-- C12 witness: the dump `exDump` of four records, the third of which has two
descendants: `AddItems` receives four entries, the last two being key 0 with a
nil vector, where two entries were to be passed. -/
theorem C12_foreign_dump_entries_witness :
    ∃ keys vecs, exConverter.Convert exStrconv exExternal (some exDump) none =
        .addItems keys vecs ∧
      keys = [0, 1, 0, 0] ∧
      vecs = [[4607182418800017408], [4611686018427387904], [], []] ∧
      keys.length = 4 ∧ vecs.length = 4 := by
  obtain ⟨keys, vecs, h, hk, hv, hkl, hvl⟩ :=
    (C12_foreign_dump_entries exConverter exStrconv exExternal exDump 4 2 bigEndian_total
      (by decide) rfl rfl (by decide) (by decide)
      (fun t ht => by interval_cases t <;> decide) (fun _ => by decide)).2
  exact ⟨keys, vecs, h, hk.trans (by decide), hv.trans (by decide), hkl, hvl⟩

/-! ## C13: a foreign index without a remap entry -/

/-- C13 (as stated, refuted): in the dump `exDump` the records 0 and 1 are
leaves and record 2 is not; the remap file `exRemapOneColumn` has a single
record of one column, so no row gives a foreign index, and
`converter.Convert` does not return an error: `initializeMaps` reads
`record[1]` and panics. -/
theorem C13_missing_remap_entry_counterexample :
    exConverter.descendants exDump 0 = some 1 ∧ exConverter.descendants exDump 1 = some 1 ∧
    exConverter.descendants exDump 2 = some 2 ∧
    exRemapOneColumn = [some ["7"]] ∧ (["7"] : List String)[1]? = none ∧
    exConverter.Convert exStrconv exExternal (some exDump) (some (some exRemapOneColumn)) =
      .panicked := by
  decide

/-- C13 (amended): for every foreign dump, `n` being the number of whole
records it holds and `j` the index of its first non-leaf record (`j = n` if
there is none), and every remap file each of whose records has at least two
columns: when some index `i < j` has no record whose second column is the
integer `i`, `converter.Convert` returns a non-nil error and `AddItems` is not
called; when the records parse as the rows `remap` of
`(externalKey, foreignIndex)` and every index `i < j` has a row, `AddItems` is
called and the key at position `i` is the `externalKey` of a row whose
`foreignIndex` is `i` (the last such row of the file), next to the vector of
record `i`; and whenever `AddItems` is called, the records parse as rows and
each key at a position `i < j` is the `externalKey` of a row whose
`foreignIndex` is `i`. -/
theorem C13_missing_remap_entry (c : converter) (s : Strconv) (x : External)
    (ann : List Byte) (file : CsvFile) (n j : Nat)
    (ho : c.order.Total) (hd : 0 ≤ c.dim)
    (hlen : ann.length / c.nodeSize.toNat = n) (hj : j ≤ n)
    (hleaf : ∀ t : Nat, t < j → c.descendants ann t = some 1)
    (hstop : j < n → c.descendants ann j ≠ some 1)
    (hcols : ∀ record : List String, some record ∈ file → 2 ≤ record.length) :
    ((∃ i : Nat, i < j ∧ ∀ (record : List String) (r1 : String), some record ∈ file →
        record[1]? = some r1 → s.Atoi r1 ≠ some (i : Int)) →
      c.Convert s x (some ann) (some (some file)) = .failed) ∧
    (∀ (records : List (List String)) (remap : List (Int × Int)),
      file = records.map some → List.Forall₂ (RemapRowParses s) records remap →
      (∀ i : Nat, i < j → ∃ row ∈ remap, row.2 = (i : Int)) →
      x.CreateMetaFails = false → x.NewGannoyIndexFails = false →
      ∃ keys vecs,
        c.Convert s x (some ann) (some (some file)) = .addItems keys vecs ∧
        ∀ i : Nat, i < j →
          keys[i]? = remapLookup remap (i : Int) ∧
          (∃ row ∈ remap, row.2 = (i : Int) ∧ keys[i]? = some row.1) ∧
          vecs[i]? = c.vector ann i) ∧
    (∀ (keys : List Int) (vecs : List (List Float64)),
      c.Convert s x (some ann) (some (some file)) = .addItems keys vecs →
      ∃ (records : List (List String)) (remap : List (Int × Int)),
        file = records.map some ∧ List.Forall₂ (RemapRowParses s) records remap ∧
        ∀ i : Nat, i < j → ∃ row ∈ remap, row.2 = (i : Int) ∧ keys[i]? = some row.1) :=
  converter_Convert_remap_file c s x ann file n j ho hd hlen hj hleaf hstop hcols

/-- C13 witness: on `exDump`, whose records 0 and 1 are the leaves before the
first non-leaf record, the remap file with the single row `7,0` makes
`Convert` fail, and the remap file with the rows `7,0` and `5,1` gives the keys
7 and 5. -/
theorem C13_missing_remap_entry_witness :
    exConverter.Convert exStrconv exExternal (some exDump) (some (some exRemapShort)) =
        .failed ∧
      ∃ keys vecs,
        exConverter.Convert exStrconv exExternal (some exDump) (some (some exRemapFile)) =
          .addItems keys vecs ∧
        keys[0]? = some 7 ∧ keys[1]? = some 5 :=
  ⟨(C13_missing_remap_entry exConverter exStrconv exExternal exDump exRemapShort 4 2
      bigEndian_total (by decide) (by decide) (by decide)
      (fun t ht => by interval_cases t <;> decide) (fun _ => by decide)
      (fun record h => by
        simp only [exRemapShort, List.mem_singleton, Option.some.injEq] at h
        subst h; decide)).1
      ⟨1, by decide, fun record r1 hmem h1 => by
        simp only [exRemapShort, List.mem_singleton, Option.some.injEq] at hmem
        subst hmem
        simp only [List.getElem?_cons_succ, List.getElem?_cons_zero, Option.some.injEq] at h1
        subst h1
        decide⟩,
    by
      obtain ⟨keys, vecs, h, hk⟩ :=
        (C13_missing_remap_entry exConverter exStrconv exExternal exDump exRemapFile 4 2
          bigEndian_total (by decide) (by decide) (by decide)
          (fun t ht => by interval_cases t <;> decide) (fun _ => by decide)
          (fun record h => by
            simp only [exRemapFile, List.mem_cons, Option.some.injEq, List.mem_singleton,
              List.not_mem_nil, or_false] at h
            rcases h with h | h <;> subst h <;> decide)).2.1
          [["7", "0"], ["5", "1"]] [(7, 0), (5, 1)] rfl
          (List.Forall₂.cons ⟨"7", "0", [], rfl, by decide, by decide⟩
            (List.Forall₂.cons ⟨"5", "1", [], rfl, by decide, by decide⟩ List.Forall₂.nil))
          (fun i hi => by
            interval_cases i
            · exact ⟨(7, 0), by decide, rfl⟩
            · exact ⟨(5, 1), by decide, rfl⟩) rfl rfl
      exact ⟨keys, vecs, h, (hk 0 (by decide)).1.trans (by decide),
        (hk 1 (by decide)).1.trans (by decide)⟩⟩

end Gannoy
